import Mathlib

/-! AleatoricCompositionTools: number protocols and producers.

A shallow embedding of the protocol engine.  Stateful C++ member functions are
state-passing functions returning the result of the call together with the
state the object is left in (so that the state after a thrown exception can be
talked about).  The random engine is an external collaborator: every draw takes
the index the generator hands back as an explicit argument (`pick`), and the
predicate `DiscreteGenerator.mayDraw` says which indices have non-zero
probability.

C++ `int` is embedded as `Int`; a `Range` whose size is not representable as an
`int` is outside the data model.  The weights written by the protocols embedded
here are only the literals `0.0` and `1.0`; they are embedded as `Nat`.  The
`double` values of GranularWalk, and the weights and probabilities a caller
supplies, are embedded as exact rationals.
-/

namespace aleatoric

/-- The error kinds: `std::invalid_argument`, the generator's out-of-range
index, a draw from an all-zero distribution, and an out-of-bounds read of a
`std::vector` (undefined behaviour in C++). -/
inductive Error where
  | invalidArgument
  | outOfRange
  | invalidState
  | outOfBounds
  deriving DecidableEq

/-- Outcome of a call: a returned value or a thrown error. -/
inductive Outcome (α : Type) where
  | ok (value : α)
  | error (e : Error)
  deriving DecidableEq

/-- Whether the call returned. -/
def Outcome.isOk {α : Type} : Outcome α → Bool
  | .ok _ => true
  | .error _ => false

/-! ## Range -/

/-- Modelled from the spec: `Range` (Range.hpp is not among the sources), the
inclusive integer interval `[start, end]` with `offset = start` and
`size = end - start + 1`. -/
structure Range where
  start : Int
  end_ : Int
  deriving DecidableEq

/-- Modelled from the spec: `Range::offset`, `offset == start`. -/
def Range.offset (r : Range) : Int := r.start

/-- Modelled from the spec: `Range::size`, `size = end - start + 1`. -/
def Range.size (r : Range) : Int := r.end_ - r.start + 1

/-- Modelled from the spec: `Range::numberIsInRange`, membership in the
inclusive interval. -/
def Range.numberIsInRange (r : Range) (number : Int) : Bool :=
  decide (r.start ≤ number) && decide (number ≤ r.end_)

/-! ## DiscreteGenerator -/

/-- Modelled from the spec: `DiscreteGenerator` (only its interface is used by
the sources): the owner of the distribution vector. -/
structure DiscreteGenerator where
  distribution : List Nat
  deriving DecidableEq

/-- Modelled from the spec: `setDistributionVector(size, initialWeight)`
replaces the vector with `size` entries of `initialWeight`. -/
def DiscreteGenerator.setDistributionVector (_g : DiscreteGenerator) (size : Int)
    (initialWeight : Nat) : DiscreteGenerator :=
  ⟨List.replicate size.toNat initialWeight⟩

/-- Modelled from the spec: `updateDistributionVector(weight)`, the one-argument
overload, sets every entry to `weight` (the vector is "zeroed"). -/
def DiscreteGenerator.updateDistributionVectorAll (g : DiscreteGenerator)
    (weight : Nat) : DiscreteGenerator :=
  ⟨g.distribution.map (fun _ => weight)⟩

/-- Modelled from the spec: `updateDistributionVector(index, weight)` sets one
entry and fails with `OutOfRange` when the index is not a position of the
vector. -/
def DiscreteGenerator.updateDistributionVector (g : DiscreteGenerator) (index : Int)
    (weight : Nat) : Outcome DiscreteGenerator :=
  if 0 ≤ index ∧ index < (g.distribution.length : Int) then
    .ok ⟨g.distribution.set index.toNat weight⟩
  else
    .error .outOfRange

/-- Modelled from the spec: `getNumber()` (the draw) fails with `InvalidState`
when all weights are zero and otherwise hands back the index chosen by the
random engine, here the argument `pick`. -/
def DiscreteGenerator.getNumber (g : DiscreteGenerator) (pick : Nat) : Outcome Nat :=
  if g.distribution.all (fun w => w == 0) then .error .invalidState else .ok pick

/-- Modelled from the spec: the indices a draw can return are the positions of
the vector whose weight is non-zero. -/
def DiscreteGenerator.mayDraw (g : DiscreteGenerator) (pick : Nat) : Bool :=
  decide (pick < g.distribution.length) && decide (g.distribution.getD pick 0 ≠ 0)

/-! ## AdjacentSteps (AdjacentSteps.cpp) -/

/-- The members of `AdjacentSteps`.  `m_lastReturnedNumber` is uninitialised in
C++ until the first draw and is only read behind `m_haveRequestedFirstNumber`;
it starts at `0` here. -/
structure AdjacentSteps where
  m_generator : DiscreteGenerator
  m_range : Range
  m_haveRequestedFirstNumber : Bool
  m_lastReturnedNumber : Int
  deriving DecidableEq

/-- `AdjacentSteps::AdjacentSteps(generator, range)`. -/
def AdjacentSteps.create (range : Range) : AdjacentSteps :=
  { m_generator := (DiscreteGenerator.mk []).setDistributionVector range.size 1
    m_range := range
    m_haveRequestedFirstNumber := false
    m_lastReturnedNumber := 0 }

/-- `AdjacentSteps::AdjacentSteps(generator)`: the default range is `[0, 1]`. -/
def AdjacentSteps.createDefault : AdjacentSteps :=
  AdjacentSteps.create ⟨0, 1⟩

/-- `AdjacentSteps::prepareStepBasedDistribution`.  The state returned with an
error is the one the object is left in when the generator throws. -/
def AdjacentSteps.prepareStepBasedDistribution (s : AdjacentSteps) (number : Int) :
    Outcome Unit × AdjacentSteps :=
  let vectorIndex := number - s.m_range.offset
  let g0 := s.m_generator.updateDistributionVectorAll 0
  if number = s.m_range.start then
    match g0.updateDistributionVector (vectorIndex + 1) 1 with
    | .ok g1 => (.ok (), { s with m_generator := g1 })
    | .error e => (.error e, { s with m_generator := g0 })
  else if number = s.m_range.end_ then
    match g0.updateDistributionVector (vectorIndex - 1) 1 with
    | .ok g1 => (.ok (), { s with m_generator := g1 })
    | .error e => (.error e, { s with m_generator := g0 })
  else
    match g0.updateDistributionVector (vectorIndex + 1) 1 with
    | .ok g1 =>
      match g1.updateDistributionVector (vectorIndex - 1) 1 with
      | .ok g2 => (.ok (), { s with m_generator := g2 })
      | .error e => (.error e, { s with m_generator := g1 })
    | .error e => (.error e, { s with m_generator := g0 })

/-- `AdjacentSteps::getIntegerNumber`; `pick` is what `m_generator->getNumber()`
returns. -/
def AdjacentSteps.getIntegerNumber (s : AdjacentSteps) (pick : Nat) :
    Outcome Int × AdjacentSteps :=
  match s.m_generator.getNumber pick with
  | .error e => (.error e, s)
  | .ok generatedNumber =>
    let last : Int := (generatedNumber : Int) + s.m_range.offset
    let s1 := { s with m_lastReturnedNumber := last, m_haveRequestedFirstNumber := true }
    match s1.prepareStepBasedDistribution last with
    | (.ok _, s2) => (.ok last, s2)
    | (.error e, s2) => (.error e, s2)

/-- A sequence of `getIntegerNumber` calls, one per entry of `picks`: the
outcomes in call order and the final state. -/
def AdjacentSteps.draws : AdjacentSteps → List Nat → List (Outcome Int) × AdjacentSteps
  | s, [] => ([], s)
  | s, pick :: picks =>
    let r := s.getIntegerNumber pick
    let rest := AdjacentSteps.draws r.2 picks
    (r.1 :: rest.1, rest.2)

/-- The generator only ever returns an index whose current weight is non-zero:
each entry of `picks` is drawable in the state its call starts from. -/
def AdjacentSteps.admissible : AdjacentSteps → List Nat → Bool
  | _, [] => true
  | s, pick :: picks =>
    s.m_generator.mayDraw pick && AdjacentSteps.admissible (s.getIntegerNumber pick).2 picks

/-- The distribution `prepareStepBasedDistribution` leaves behind for vector
index `i` of a vector of length `n`: weight 1 on the in-range neighbours of `i`
and 0 elsewhere. -/
def adjacentWeights (n i : Nat) : List Nat :=
  (List.range n).map (fun j => if j = i + 1 ∨ j + 1 = i then 1 else 0)

/-! ## Protocol configuration -/

/-- Modelled from the spec: the tags of the twelve protocol variants
(`NumberProtocol::Type`, declared outside the sources). -/
inductive NumberProtocolType where
  | adjacentSteps
  | basic
  | cycle
  | granularWalk
  | groupedRepetition
  | noRepetition
  | periodic
  | precision
  | ratio
  | serial
  | subset
  | walk
  deriving DecidableEq

/-- Modelled from the spec: `CycleParams(bidirectional, reverseDirection)`. -/
structure CycleParams where
  bidirectional : Bool
  reverseDirection : Bool
  deriving DecidableEq

/-- Modelled from the spec: `RatioParams(ratios)`, read back by `getRatios()`. -/
structure RatioParams where
  ratios : List Int
  deriving DecidableEq

/-- Modelled from the spec: `WalkParams(maxStep)`. -/
structure WalkParams where
  maxStep : Int
  deriving DecidableEq

/-- Modelled from the spec: `PeriodicParams(chanceOfRepetition)`; the `double`
is embedded as an exact rational number. -/
structure PeriodicParams where
  chanceOfRepetition : ℚ
  deriving DecidableEq

/-- Modelled from the spec: `PrecisionParams(distribution)`, one weight per
index of the Range. -/
structure PrecisionParams where
  distribution : List ℚ
  deriving DecidableEq

/-- Modelled from the spec: `SubsetParams(min, max)`. -/
structure SubsetParams where
  subsetMin : Int
  subsetMax : Int
  deriving DecidableEq

/-- Modelled from the spec: `GroupedRepetitionParams(groupings)`. -/
structure GroupedRepetitionParams where
  groupings : List Int
  deriving DecidableEq

/-- Modelled from the spec: `GranularWalkParams(deviationFactor)`. -/
structure GranularWalkParams where
  deviationFactor : ℚ
  deriving DecidableEq

/-- Modelled from the spec: the tagged parameter set (`NumberProtocolParams`,
in Ratio.cpp still `NumberProtocolParameters::Protocols`).  The sources read a
member with `getRatio()` whatever the tag is, so the set is a record of the
active tag and the per-variant members; a member that is not given holds the
value written here. -/
structure NumberProtocolParams where
  activeProtocol : NumberProtocolType
  cycle : CycleParams
  ratio : RatioParams
  walk : WalkParams := ⟨1⟩
  periodic : PeriodicParams := ⟨0⟩
  precision : PrecisionParams := ⟨[]⟩
  subset : SubsetParams := ⟨1, 2⟩
  groupedRepetition : GroupedRepetitionParams := ⟨[1]⟩
  granularWalk : GranularWalkParams := ⟨1⟩
  deriving DecidableEq

/-- Modelled from the spec: `NumberProtocolParams(CycleParams(..))`; the other
members hold their defaults. -/
def NumberProtocolParams.ofCycle (c : CycleParams) : NumberProtocolParams :=
  { activeProtocol := .cycle, cycle := c, ratio := ⟨[1, 1]⟩ }

/-- Modelled from the spec: `NumberProtocolParams(RatioParams(..))`; the other
members hold their defaults. -/
def NumberProtocolParams.ofRatio (r : RatioParams) : NumberProtocolParams :=
  { activeProtocol := .ratio, cycle := ⟨false, false⟩, ratio := r }

/-- Modelled from the spec: a parameter set of a variant without parameters
(`BasicParams()`, `AdjacentStepsParams()`, ...). -/
def NumberProtocolParams.ofTag (t : NumberProtocolType) : NumberProtocolParams :=
  { activeProtocol := t, cycle := ⟨false, false⟩, ratio := ⟨[1, 1]⟩ }

/-- Modelled from the spec: `NumberProtocolParams(WalkParams(..))`. -/
def NumberProtocolParams.ofWalk (w : WalkParams) : NumberProtocolParams :=
  { activeProtocol := .walk, cycle := ⟨false, false⟩, ratio := ⟨[1, 1]⟩, walk := w }

/-- Modelled from the spec: `NumberProtocolParams(PeriodicParams(..))`. -/
def NumberProtocolParams.ofPeriodic (p : PeriodicParams) : NumberProtocolParams :=
  { activeProtocol := .periodic, cycle := ⟨false, false⟩, ratio := ⟨[1, 1]⟩, periodic := p }

/-- Modelled from the spec: `NumberProtocolParams(PrecisionParams(..))`. -/
def NumberProtocolParams.ofPrecision (p : PrecisionParams) : NumberProtocolParams :=
  { activeProtocol := .precision, cycle := ⟨false, false⟩, ratio := ⟨[1, 1]⟩, precision := p }

/-- Modelled from the spec: `NumberProtocolParams(SubsetParams(..))`. -/
def NumberProtocolParams.ofSubset (p : SubsetParams) : NumberProtocolParams :=
  { activeProtocol := .subset, cycle := ⟨false, false⟩, ratio := ⟨[1, 1]⟩, subset := p }

/-- Modelled from the spec: `NumberProtocolParams(GroupedRepetitionParams(..))`. -/
def NumberProtocolParams.ofGroupedRepetition (p : GroupedRepetitionParams) :
    NumberProtocolParams :=
  { activeProtocol := .groupedRepetition, cycle := ⟨false, false⟩, ratio := ⟨[1, 1]⟩,
    groupedRepetition := p }

/-- Modelled from the spec: `NumberProtocolParams(GranularWalkParams(..))`. -/
def NumberProtocolParams.ofGranularWalk (p : GranularWalkParams) : NumberProtocolParams :=
  { activeProtocol := .granularWalk, cycle := ⟨false, false⟩, ratio := ⟨[1, 1]⟩,
    granularWalk := p }

/-- Modelled from the spec: the default parameters of a variant over a Range,
those a Producer resets its protocol to.  They fit the Range: one ratio of 1
per value for Ratio (for the Range `[0, 1]` the `{1, 1}` of `Ratio::Ratio(generator)`)
and one equal weight per value for Precision, so that the reset passes the
length validation at every size.  Cycle is unidirectional and forwards, as the
Producer tests read it back.  For the members no source fixes the neutral
values are taken: max-step 1, chance of repetition 0, subset bounds 1 and the
size of the Range, groupings `{1}`, deviation factor 1. -/
def NumberProtocolParams.defaultsFor (t : NumberProtocolType) (range : Range) :
    NumberProtocolParams :=
  match t with
  | .cycle => NumberProtocolParams.ofCycle ⟨false, false⟩
  | .ratio => NumberProtocolParams.ofRatio ⟨List.replicate range.size.toNat 1⟩
  | .walk => NumberProtocolParams.ofWalk ⟨1⟩
  | .periodic => NumberProtocolParams.ofPeriodic ⟨0⟩
  | .precision =>
    NumberProtocolParams.ofPrecision ⟨List.replicate range.size.toNat (1 / (range.size : ℚ))⟩
  | .subset => NumberProtocolParams.ofSubset ⟨1, range.size⟩
  | .groupedRepetition => NumberProtocolParams.ofGroupedRepetition ⟨[1]⟩
  | .granularWalk => NumberProtocolParams.ofGranularWalk ⟨1⟩
  | .adjacentSteps => NumberProtocolParams.ofTag .adjacentSteps
  | .basic => NumberProtocolParams.ofTag .basic
  | .noRepetition => NumberProtocolParams.ofTag .noRepetition
  | .serial => NumberProtocolParams.ofTag .serial

/-- Modelled from the spec: `NumberProtocolConfig`, a Range plus a tagged
parameter set (in Ratio.cpp still `NumberProtocolParameters`). -/
structure NumberProtocolConfig where
  range : Range
  protocols : NumberProtocolParams
  deriving DecidableEq

/-! ## SeriesPrinciple -/

/-- Modelled from the spec: `SeriesPrinciple::getNumber(generator)` samples an
index with the current weights, then sets that index's weight to 0. -/
def SeriesPrinciple.getNumber (g : DiscreteGenerator) (pick : Nat) :
    Outcome Nat × DiscreteGenerator :=
  match g.getNumber pick with
  | .error e => (.error e, g)
  | .ok index =>
    match g.updateDistributionVector (index : Int) 0 with
    | .ok g1 => (.ok index, g1)
    | .error e => (.error e, g)

/-- Modelled from the spec: `SeriesPrinciple::seriesIsComplete(generator)` is
true when every weight is 0. -/
def SeriesPrinciple.seriesIsComplete (g : DiscreteGenerator) : Bool :=
  g.distribution.all (fun w => w == 0)

/-- Modelled from the spec: `SeriesPrinciple::resetSeries(generator)` sets every
weight back to 1. -/
def SeriesPrinciple.resetSeries (g : DiscreteGenerator) : DiscreteGenerator :=
  g.updateDistributionVectorAll 1

/-! ## Ratio (Ratio.cpp) -/

/-- The members of `Ratio` (`m_seriesPrinciple` has no state of its own). -/
structure Ratio where
  m_generator : DiscreteGenerator
  m_range : Range
  m_ratios : List Int
  m_selectables : List Int
  deriving DecidableEq

/-- The nested loops of `Ratio::setSelectables` from outer index `i` on:
`ratios[i]` copies of `offset + i` each (none when `ratios[i] <= 0`). -/
def Ratio.expandFrom (offset : Int) : Nat → List Int → List Int
  | _, [] => []
  | i, r :: rs => List.replicate r.toNat (offset + (i : Int)) ++ Ratio.expandFrom offset (i + 1) rs

/-- `Ratio::setSelectables`: pushes the expansion of `m_ratios` onto
`m_selectables`. -/
def Ratio.setSelectables (s : Ratio) : Ratio :=
  { s with m_selectables := s.m_selectables ++ Ratio.expandFrom s.m_range.offset 0 s.m_ratios }

/-- `Ratio::checkRangeAndRatiosMatch`. -/
def Ratio.checkRangeAndRatiosMatch (range : Range) (ratios : List Int) : Outcome Unit :=
  if range.size ≠ (ratios.length : Int) then .error .invalidArgument else .ok ()

/-- `Ratio::initialise`. -/
def Ratio.initialise (s : Ratio) : Ratio :=
  let s1 := s.setSelectables
  { s1 with m_generator := s1.m_generator.setDistributionVector (s1.m_selectables.length : Int) 1 }

/-- `Ratio::Ratio(generator, range, ratios)`: a throwing constructor yields no
object. -/
def Ratio.create (range : Range) (ratios : List Int) : Outcome Ratio :=
  match Ratio.checkRangeAndRatiosMatch range ratios with
  | .error e => .error e
  | .ok _ =>
    .ok (Ratio.initialise
      { m_generator := ⟨[]⟩, m_range := range, m_ratios := ratios, m_selectables := [] })

/-- `Ratio::Ratio(generator)`: range `[0, 1]`, ratios `{1, 1}`. -/
def Ratio.createDefault : Ratio :=
  Ratio.initialise
    { m_generator := ⟨[]⟩, m_range := ⟨0, 1⟩, m_ratios := [1, 1], m_selectables := [] }

/-- `Ratio::setParams`. -/
def Ratio.setParams (s : Ratio) (newParams : NumberProtocolConfig) : Outcome Unit × Ratio :=
  let newRatios := newParams.protocols.ratio.ratios
  let newRange := newParams.range
  match Ratio.checkRangeAndRatiosMatch newRange newRatios with
  | .error e => (.error e, s)
  | .ok _ =>
    let s1 := { s with m_ratios := newRatios, m_range := newRange, m_selectables := [] }
    let s2 := s1.setSelectables
    (.ok (),
      { s2 with
        m_generator := s2.m_generator.setDistributionVector (s2.m_selectables.length : Int) 1 })

/-- `Ratio::getParams`. -/
def Ratio.getParams (s : Ratio) : NumberProtocolConfig :=
  ⟨s.m_range, NumberProtocolParams.ofRatio ⟨s.m_ratios⟩⟩

/-- The generator a draw of `Ratio::getIntegerNumber` is made from: the series
is reset first when it is complete. -/
def Ratio.generatorAtDraw (s : Ratio) : DiscreteGenerator :=
  if SeriesPrinciple.seriesIsComplete s.m_generator then
    SeriesPrinciple.resetSeries s.m_generator
  else
    s.m_generator

/-- `Ratio::getIntegerNumber`; `pick` is the index the generator hands back.
The unchecked read `m_selectables[index]` is an `outOfBounds` error when the
index is not a position of the list. -/
def Ratio.getIntegerNumber (s : Ratio) (pick : Nat) : Outcome Int × Ratio :=
  match SeriesPrinciple.getNumber s.generatorAtDraw pick with
  | (.error e, g) => (.error e, { s with m_generator := g })
  | (.ok index, g) =>
    match s.m_selectables[index]? with
    | some value => (.ok value, { s with m_generator := g })
    | none => (.error .outOfBounds, { s with m_generator := g })

/-- A sequence of `getIntegerNumber` calls, one per entry of `picks`: the
outcomes in call order and the final state. -/
def Ratio.draws : Ratio → List Nat → List (Outcome Int) × Ratio
  | s, [] => ([], s)
  | s, pick :: picks =>
    let r := s.getIntegerNumber pick
    let rest := Ratio.draws r.2 picks
    (r.1 :: rest.1, rest.2)

/-- The generator only ever returns an index whose weight is non-zero at the
moment of the draw. -/
def Ratio.admissible : Ratio → List Nat → Bool
  | _, [] => true
  | s, pick :: picks =>
    s.generatorAtDraw.mayDraw pick && Ratio.admissible (s.getIntegerNumber pick).2 picks

/-- The distribution of a series over `n` slots in which exactly the slots of
`drawn` are exhausted: weight 0 on them and 1 on the others. -/
def seriesWeights (n : Nat) (drawn : List Nat) : List Nat :=
  (List.range n).map (fun j => if j ∈ drawn then 0 else 1)

/-! ## AdjacentSteps configuration (AdjacentSteps.cpp) -/

/-- `AdjacentSteps::setParams`. -/
def AdjacentSteps.setParams (s : AdjacentSteps) (newParams : NumberProtocolConfig) :
    Outcome Unit × AdjacentSteps :=
  let s1 := { s with m_range := newParams.range }
  let s2 := { s1 with m_generator := s1.m_generator.setDistributionVector s1.m_range.size 1 }
  if s2.m_haveRequestedFirstNumber && s2.m_range.numberIsInRange s2.m_lastReturnedNumber then
    s2.prepareStepBasedDistribution s2.m_lastReturnedNumber
  else
    (.ok (), s2)

/-- `AdjacentSteps::getParams`. -/
def AdjacentSteps.getParams (s : AdjacentSteps) : NumberProtocolConfig :=
  ⟨s.m_range, NumberProtocolParams.ofTag .adjacentSteps⟩

/-- A call made on an AdjacentSteps object: a draw (with the index the
generator returns) or a reconfiguration. -/
inductive AdjacentSteps.Call where
  | getIntegerNumber (pick : Nat)
  | setParams (newParams : NumberProtocolConfig)
  deriving DecidableEq

/-- The object after one call, whether the call returned or threw. -/
def AdjacentSteps.afterCall (s : AdjacentSteps) : AdjacentSteps.Call → AdjacentSteps
  | .getIntegerNumber pick => (s.getIntegerNumber pick).2
  | .setParams newParams => (s.setParams newParams).2

/-- The object after a sequence of calls. -/
def AdjacentSteps.afterCalls : AdjacentSteps → List AdjacentSteps.Call → AdjacentSteps
  | s, [] => s
  | s, c :: cs => AdjacentSteps.afterCalls (s.afterCall c) cs

/-- Whether every reconfiguration in a sequence of calls carries a valid Range
(size at least 1). -/
def AdjacentSteps.rangesValid : List AdjacentSteps.Call → Bool
  | [] => true
  | .getIntegerNumber _ :: cs => AdjacentSteps.rangesValid cs
  | .setParams newParams :: cs => decide (1 ≤ newParams.range.size) && AdjacentSteps.rangesValid cs

/-! ## Cycle -/

/-- Modelled from the spec: `Cycle` (Cycle.cpp is not among the sources), whose
state besides the Range is the current index, the direction flag and the
bidirectional flag. -/
structure Cycle where
  m_range : Range
  m_bidirectional : Bool
  m_reverseDirection : Bool
  m_index : Int
  deriving DecidableEq

/-- Modelled from the spec: construction of a Cycle without initial selection;
it starts at the first index going forwards and at the last index in reverse. -/
def Cycle.create (range : Range) (bidirectional reverseDirection : Bool) : Cycle :=
  { m_range := range
    m_bidirectional := bidirectional
    m_reverseDirection := reverseDirection
    m_index := if reverseDirection then range.size - 1 else 0 }

/-- Modelled from the spec: the default Cycle is unidirectional and forwards;
the default range is `[0, 1]` as for the protocols in the sources. -/
def Cycle.createDefault : Cycle := Cycle.create ⟨0, 1⟩ false false

/-- Modelled from the spec: `Cycle::getIntegerNumber` returns the value at the
current index and advances the index by one step; at a boundary it wraps to the
opposite end (unidirectional) or reverses direction without repeating the
boundary value (bidirectional). -/
def Cycle.getIntegerNumber (c : Cycle) : Outcome Int × Cycle :=
  let value := c.m_index + c.m_range.offset
  if c.m_reverseDirection then
    if c.m_index = 0 then
      if c.m_bidirectional then
        (.ok value, { c with m_reverseDirection := false, m_index := c.m_index + 1 })
      else
        (.ok value, { c with m_index := c.m_range.size - 1 })
    else
      (.ok value, { c with m_index := c.m_index - 1 })
  else
    if c.m_index = c.m_range.size - 1 then
      if c.m_bidirectional then
        (.ok value, { c with m_reverseDirection := true, m_index := c.m_index - 1 })
      else
        (.ok value, { c with m_index := 0 })
    else
      (.ok value, { c with m_index := c.m_index + 1 })

/-- Modelled from the spec: `Cycle::setParams` fails with `InvalidArgument` when
the parameter set's tag is not the Cycle variant and otherwise creates the
protocol state from the configuration. -/
def Cycle.setParams (c : Cycle) (newParams : NumberProtocolConfig) : Outcome Unit × Cycle :=
  if newParams.protocols.activeProtocol ≠ .cycle then
    (.error .invalidArgument, c)
  else
    (.ok (), Cycle.create newParams.range newParams.protocols.cycle.bidirectional
      newParams.protocols.cycle.reverseDirection)

/-- Modelled from the spec: `Cycle::getParams` reports the Range and the two
flags. -/
def Cycle.getParams (c : Cycle) : NumberProtocolConfig :=
  ⟨c.m_range, NumberProtocolParams.ofCycle ⟨c.m_bidirectional, c.m_reverseDirection⟩⟩

/-- A number of consecutive `getIntegerNumber` calls on a Cycle: the outcomes
in call order and the final state. -/
def Cycle.draws : Cycle → Nat → List (Outcome Int) × Cycle
  | c, 0 => ([], c)
  | c, count + 1 =>
    let r := c.getIntegerNumber
    let rest := Cycle.draws r.2 count
    (r.1 :: rest.1, rest.2)

/-- The triangular wave of period `2(n-1)` in the words of the spec: from 0 it
rises by 1 to `n - 1`, then falls by 1 to 0, and so on.  It is what the
bidirectional Cycle is compared with. -/
def triangleWave (n k : Nat) : Nat :=
  if k % (2 * (n - 1)) ≤ n - 1 then k % (2 * (n - 1)) else 2 * (n - 1) - k % (2 * (n - 1))

/-! ## Serial -/

/-- Modelled from the spec: `Serial` (Serial.cpp is not among the sources): a
SeriesPrinciple over the full Range. -/
structure Serial where
  m_generator : DiscreteGenerator
  m_range : Range
  deriving DecidableEq

/-- Modelled from the spec: construction of a Serial starts a fresh series with
one slot per value of the Range. -/
def Serial.create (range : Range) : Serial :=
  { m_generator := (DiscreteGenerator.mk []).setDistributionVector range.size 1
    m_range := range }

/-- Modelled from the spec: the default Serial, over the default range
`[0, 1]` of the protocols in the sources. -/
def Serial.createDefault : Serial := Serial.create ⟨0, 1⟩

/-- Modelled from the spec: the generator a Serial draws from; the protocol
resets the series automatically when it is complete. -/
def Serial.generatorAtDraw (s : Serial) : DiscreteGenerator :=
  if SeriesPrinciple.seriesIsComplete s.m_generator then
    SeriesPrinciple.resetSeries s.m_generator
  else
    s.m_generator

/-- Modelled from the spec: `Serial::getIntegerNumber` is a SeriesPrinciple
draw, mapped to a value by `value = index + offset`. -/
def Serial.getIntegerNumber (s : Serial) (pick : Nat) : Outcome Int × Serial :=
  match SeriesPrinciple.getNumber s.generatorAtDraw pick with
  | (.error e, g) => (.error e, { s with m_generator := g })
  | (.ok index, g) => (.ok ((index : Int) + s.m_range.offset), { s with m_generator := g })

/-- Modelled from the spec: `Serial::setParams` fails with `InvalidArgument`
when the parameter set's tag is not the Serial variant and otherwise creates
the protocol state for the configuration's Range. -/
def Serial.setParams (s : Serial) (newParams : NumberProtocolConfig) : Outcome Unit × Serial :=
  if newParams.protocols.activeProtocol ≠ .serial then
    (.error .invalidArgument, s)
  else
    (.ok (), Serial.create newParams.range)

/-- Modelled from the spec: `Serial::getParams`; Serial has no parameters
besides its Range. -/
def Serial.getParams (s : Serial) : NumberProtocolConfig :=
  ⟨s.m_range, NumberProtocolParams.ofTag .serial⟩

/-- The generator only ever returns an index whose weight is non-zero at the
moment of the draw. -/
def Serial.admissible : Serial → List Nat → Bool
  | _, [] => true
  | s, pick :: picks =>
    s.generatorAtDraw.mayDraw pick && Serial.admissible (s.getIntegerNumber pick).2 picks

/-! ## NoRepetition -/

/-- Modelled from the spec: `NoRepetition` (NoRepetition.cpp is not among the
sources): besides the Range and the generator, its state is the last selected
index, absent before the first draw and after a reset. -/
structure NoRepetition where
  m_generator : DiscreteGenerator
  m_range : Range
  m_lastSelectedIndex : Option Nat
  deriving DecidableEq

/-- Modelled from the spec: construction of a NoRepetition: every index of the
Range can be selected and nothing is excluded. -/
def NoRepetition.create (range : Range) : NoRepetition :=
  { m_generator := (DiscreteGenerator.mk []).setDistributionVector range.size 1
    m_range := range
    m_lastSelectedIndex := none }

/-- Modelled from the spec: `NoRepetition::getIntegerNumber` is a weighted draw
excluding the last selected index (its weight is 0 at the draw); afterwards the
previous exclusion is restored and the newly selected index is excluded for the
next draw only. -/
def NoRepetition.getIntegerNumber (s : NoRepetition) (pick : Nat) :
    Outcome Int × NoRepetition :=
  match s.m_generator.getNumber pick with
  | .error e => (.error e, s)
  | .ok index =>
    let restored : Outcome DiscreteGenerator :=
      match s.m_lastSelectedIndex with
      | none => .ok s.m_generator
      | some last => s.m_generator.updateDistributionVector (last : Int) 1
    match restored with
    | .error e => (.error e, s)
    | .ok g1 =>
      match g1.updateDistributionVector (index : Int) 0 with
      | .error e => (.error e, { s with m_generator := g1 })
      | .ok g2 =>
        (.ok ((index : Int) + s.m_range.offset),
          { s with m_generator := g2, m_lastSelectedIndex := some index })

/-- Modelled from the spec: `NoRepetition::reset` clears the exclusion. -/
def NoRepetition.reset (s : NoRepetition) : NoRepetition :=
  { s with m_generator := s.m_generator.updateDistributionVectorAll 1
           m_lastSelectedIndex := none }

/-- A sequence of `getIntegerNumber` calls on a NoRepetition. -/
def NoRepetition.draws : NoRepetition → List Nat → List (Outcome Int) × NoRepetition
  | s, [] => ([], s)
  | s, pick :: picks =>
    let r := s.getIntegerNumber pick
    let rest := NoRepetition.draws r.2 picks
    (r.1 :: rest.1, rest.2)

/-- The generator only ever returns an index whose current weight is
non-zero. -/
def NoRepetition.admissible : NoRepetition → List Nat → Bool
  | _, [] => true
  | s, pick :: picks =>
    s.m_generator.mayDraw pick && NoRepetition.admissible (s.getIntegerNumber pick).2 picks

/-- The distribution over `n` indices in which exactly the index `last`, if
there is one, is excluded. -/
def exclusionWeights (n : Nat) (last : Option Nat) : List Nat :=
  (List.range n).map (fun j => if some j = last then 0 else 1)

/-- Modelled from the spec: the default NoRepetition, over the default range
`[0, 1]` of the protocols in the sources. -/
def NoRepetition.createDefault : NoRepetition := NoRepetition.create ⟨0, 1⟩

/-- Modelled from the spec: `NoRepetition::setParams` fails with
`InvalidArgument` when the parameter set's tag is not the NoRepetition variant
and otherwise creates the protocol state for the configuration's Range. -/
def NoRepetition.setParams (s : NoRepetition) (newParams : NumberProtocolConfig) :
    Outcome Unit × NoRepetition :=
  if newParams.protocols.activeProtocol ≠ .noRepetition then
    (.error .invalidArgument, s)
  else
    (.ok (), NoRepetition.create newParams.range)

/-- Modelled from the spec: `NoRepetition::getParams`; NoRepetition has no
parameters besides its Range. -/
def NoRepetition.getParams (s : NoRepetition) : NumberProtocolConfig :=
  ⟨s.m_range, NumberProtocolParams.ofTag .noRepetition⟩

/-! ## Walk -/

/-- Modelled from the spec: `Walk` (Walk.cpp is not among the sources): besides
the Range and the generator, its state is the last selected value and the
integer max-step. -/
structure Walk where
  m_generator : DiscreteGenerator
  m_range : Range
  m_maxStep : Int
  m_haveRequestedFirstNumber : Bool
  m_lastNumberSelected : Int
  deriving DecidableEq

/-- The distribution over `n` indices with weight 1 on the indices whose value
(`index + offset`) lies in `[subRangeStart, subRangeEnd]` and 0 elsewhere. -/
def walkWeights (n : Nat) (offset subRangeStart subRangeEnd : Int) : List Nat :=
  (List.range n).map
    (fun (j : Nat) =>
      if subRangeStart ≤ (j : Int) + offset ∧ (j : Int) + offset ≤ subRangeEnd then 1 else 0)

/-- Modelled from the spec: construction of a Walk without initial selection:
the first draw is made over all indices of the Range. -/
def Walk.create (range : Range) (maxStep : Int) : Walk :=
  { m_generator := (DiscreteGenerator.mk []).setDistributionVector range.size 1
    m_range := range
    m_maxStep := maxStep
    m_haveRequestedFirstNumber := false
    m_lastNumberSelected := 0 }

/-- Modelled from the spec: the post-selection update of Walk: the distribution
vector is recomputed with weight 1 inside the sub-range
`[last - maxStep, last + maxStep]` clipped to the main Range, 0 elsewhere. -/
def Walk.setForNextStep (s : Walk) (last : Int) : Walk :=
  let subRangeStart := max s.m_range.start (last - s.m_maxStep)
  let subRangeEnd := min s.m_range.end_ (last + s.m_maxStep)
  { s with
    m_generator :=
      ⟨walkWeights s.m_generator.distribution.length s.m_range.offset subRangeStart subRangeEnd⟩ }

/-- Modelled from the spec: `Walk::getIntegerNumber` draws an index with the
current weights, maps it to `index + offset`, remembers it as the last selected
value and recomputes the vector around it. -/
def Walk.getIntegerNumber (s : Walk) (pick : Nat) : Outcome Int × Walk :=
  match s.m_generator.getNumber pick with
  | .error e => (.error e, s)
  | .ok index =>
    let last : Int := (index : Int) + s.m_range.offset
    (.ok last,
      Walk.setForNextStep
        { s with m_lastNumberSelected := last, m_haveRequestedFirstNumber := true } last)

/-- Modelled from the spec: `Walk::reset` clears the history: the next draw is
made over all indices of the Range. -/
def Walk.reset (s : Walk) : Walk :=
  { s with m_generator := s.m_generator.updateDistributionVectorAll 1
           m_haveRequestedFirstNumber := false }

/-- A sequence of `getIntegerNumber` calls on a Walk. -/
def Walk.draws : Walk → List Nat → List (Outcome Int) × Walk
  | s, [] => ([], s)
  | s, pick :: picks =>
    let r := s.getIntegerNumber pick
    let rest := Walk.draws r.2 picks
    (r.1 :: rest.1, rest.2)

/-- The generator only ever returns an index whose current weight is
non-zero. -/
def Walk.admissible : Walk → List Nat → Bool
  | _, [] => true
  | s, pick :: picks =>
    s.m_generator.mayDraw pick && Walk.admissible (s.getIntegerNumber pick).2 picks

/-- Modelled from the spec: the default Walk, over the default range `[0, 1]`
of the protocols in the sources, with the max-step 1. -/
def Walk.createDefault : Walk := Walk.create ⟨0, 1⟩ 1

/-- Modelled from the spec: `Walk::setParams` fails with `InvalidArgument` when
the parameter set's tag is not the Walk variant and otherwise creates the
protocol state from the configuration. -/
def Walk.setParams (s : Walk) (newParams : NumberProtocolConfig) : Outcome Unit × Walk :=
  if newParams.protocols.activeProtocol ≠ .walk then
    (.error .invalidArgument, s)
  else
    (.ok (), Walk.create newParams.range newParams.protocols.walk.maxStep)

/-- Modelled from the spec: `Walk::getParams` reports the Range and the
max-step. -/
def Walk.getParams (s : Walk) : NumberProtocolConfig :=
  ⟨s.m_range, NumberProtocolParams.ofWalk ⟨s.m_maxStep⟩⟩

/-! ## Protocol variants embedded by their contract -/

/-- Modelled from the spec: a protocol variant of which the common contract is
embedded and not the selection rule (Basic, Periodic, Precision, Subset,
GroupedRepetition and GranularWalk, as a Producer owns them): its Range and its
parameter set, whose tag is the variant. -/
structure RangeProtocol where
  m_range : Range
  m_params : NumberProtocolParams
  deriving DecidableEq

/-- Modelled from the spec: the protocol created from its tag alone, over the
Range `[0, 1]` that the protocols in the sources start with; it holds the
variant's defaults over that Range. -/
def RangeProtocol.create (t : NumberProtocolType) : RangeProtocol :=
  ⟨⟨0, 1⟩, NumberProtocolParams.defaultsFor t ⟨0, 1⟩⟩

/-- Modelled from the spec: the validation of caller-supplied parameters: a
distribution whose size differs from the size of the Range, and a probability
or a deviation factor outside `[0, 1]`, are invalid arguments.  A groupings
list is not held to the size of the Range: the Producer test of
GroupedRepetition notes equal sizes as a particular case. -/
def RangeProtocol.paramsAreValid (range : Range) (params : NumberProtocolParams) : Bool :=
  match params.activeProtocol with
  | .precision => decide ((params.precision.distribution.length : Int) = range.size)
  | .periodic =>
    decide (0 ≤ params.periodic.chanceOfRepetition) &&
      decide (params.periodic.chanceOfRepetition ≤ 1)
  | .granularWalk =>
    decide (0 ≤ params.granularWalk.deviationFactor) &&
      decide (params.granularWalk.deviationFactor ≤ 1)
  | _ => true

/-- Modelled from the spec: a draw hands back the value `index + offset` of an
index of the Range; `pick` is the index the variant's selection rule arrives
at.  The Range and the parameters are not changed by a draw. -/
def RangeProtocol.getIntegerNumber (s : RangeProtocol) (pick : Nat) :
    Outcome Int × RangeProtocol :=
  (.ok ((pick : Int) + s.m_range.offset), s)

/-- Modelled from the spec: `setParams` fails with `InvalidArgument` when the
parameter set's tag is not the protocol's own variant or the parameters are
inconsistent, before any state is changed, and otherwise takes over the Range
and the parameters. -/
def RangeProtocol.setParams (s : RangeProtocol) (newParams : NumberProtocolConfig) :
    Outcome Unit × RangeProtocol :=
  if newParams.protocols.activeProtocol ≠ s.m_params.activeProtocol then
    (.error .invalidArgument, s)
  else if RangeProtocol.paramsAreValid newParams.range newParams.protocols then
    (.ok (), ⟨newParams.range, newParams.protocols⟩)
  else
    (.error .invalidArgument, s)

/-- Modelled from the spec: `getParams` reports the Range and the parameters. -/
def RangeProtocol.getParams (s : RangeProtocol) : NumberProtocolConfig :=
  ⟨s.m_range, s.m_params⟩

/-! ## NumberProtocol: the protocol owned by a Producer -/

/-- Modelled from the spec: the protocol family as a closed tagged variant.
AdjacentSteps and Ratio are those of the sources; Cycle, Serial, NoRepetition
and Walk are embedded with their selection rule; the other six variants are
embedded by their contract, the tag held in their parameters. -/
inductive NumberProtocol where
  | adjacentSteps (p : AdjacentSteps)
  | cycle (p : Cycle)
  | serial (p : Serial)
  | ratio (p : Ratio)
  | noRepetition (p : NoRepetition)
  | walk (p : Walk)
  | byContract (p : RangeProtocol)
  deriving DecidableEq

/-- Modelled from the spec: `NumberProtocol::create(type)` for the Cycle tag. -/
def NumberProtocol.createCycle : NumberProtocol := .cycle Cycle.createDefault

/-- Modelled from the spec: `NumberProtocol::create(type)` for the AdjacentSteps
tag. -/
def NumberProtocol.createAdjacentSteps : NumberProtocol := .adjacentSteps AdjacentSteps.createDefault

/-- Modelled from the spec: `NumberProtocol::create(type)` for the Serial tag. -/
def NumberProtocol.createSerial : NumberProtocol := .serial Serial.createDefault

/-- Modelled from the spec: `NumberProtocol::create(type)`: the protocol of the
variant with its default Range `[0, 1]` and default parameters. -/
def NumberProtocol.create : NumberProtocolType → NumberProtocol
  | .adjacentSteps => NumberProtocol.createAdjacentSteps
  | .cycle => NumberProtocol.createCycle
  | .serial => NumberProtocol.createSerial
  | .ratio => .ratio Ratio.createDefault
  | .noRepetition => .noRepetition NoRepetition.createDefault
  | .walk => .walk Walk.createDefault
  | .basic => .byContract (RangeProtocol.create .basic)
  | .periodic => .byContract (RangeProtocol.create .periodic)
  | .precision => .byContract (RangeProtocol.create .precision)
  | .subset => .byContract (RangeProtocol.create .subset)
  | .groupedRepetition => .byContract (RangeProtocol.create .groupedRepetition)
  | .granularWalk => .byContract (RangeProtocol.create .granularWalk)

/-- Modelled from the spec: the variant tag of a protocol, reported by
`getParams().getActiveProtocol()`. -/
def NumberProtocol.type : NumberProtocol → NumberProtocolType
  | .adjacentSteps _ => .adjacentSteps
  | .cycle _ => .cycle
  | .serial _ => .serial
  | .ratio _ => .ratio
  | .noRepetition _ => .noRepetition
  | .walk _ => .walk
  | .byContract p => p.m_params.activeProtocol

/-- Dispatch of `getIntegerNumber`; `pick` is used by the variants that draw
from a generator. -/
def NumberProtocol.getIntegerNumber : NumberProtocol → Nat → Outcome Int × NumberProtocol
  | .adjacentSteps p, pick => ((p.getIntegerNumber pick).1, .adjacentSteps (p.getIntegerNumber pick).2)
  | .cycle p, _ => (p.getIntegerNumber.1, .cycle p.getIntegerNumber.2)
  | .serial p, pick => ((p.getIntegerNumber pick).1, .serial (p.getIntegerNumber pick).2)
  | .ratio p, pick => ((p.getIntegerNumber pick).1, .ratio (p.getIntegerNumber pick).2)
  | .noRepetition p, pick =>
    ((p.getIntegerNumber pick).1, .noRepetition (p.getIntegerNumber pick).2)
  | .walk p, pick => ((p.getIntegerNumber pick).1, .walk (p.getIntegerNumber pick).2)
  | .byContract p, pick => ((p.getIntegerNumber pick).1, .byContract (p.getIntegerNumber pick).2)

/-- Dispatch of `getParams`. -/
def NumberProtocol.getParams : NumberProtocol → NumberProtocolConfig
  | .adjacentSteps p => p.getParams
  | .cycle p => p.getParams
  | .serial p => p.getParams
  | .ratio p => p.getParams
  | .noRepetition p => p.getParams
  | .walk p => p.getParams
  | .byContract p => p.getParams

/-- Dispatch of `setParams`. -/
def NumberProtocol.setParams : NumberProtocol → NumberProtocolConfig →
    Outcome Unit × NumberProtocol
  | .adjacentSteps p, cfg => ((p.setParams cfg).1, .adjacentSteps (p.setParams cfg).2)
  | .cycle p, cfg => ((p.setParams cfg).1, .cycle (p.setParams cfg).2)
  | .serial p, cfg => ((p.setParams cfg).1, .serial (p.setParams cfg).2)
  | .ratio p, cfg => ((p.setParams cfg).1, .ratio (p.setParams cfg).2)
  | .noRepetition p, cfg => ((p.setParams cfg).1, .noRepetition (p.setParams cfg).2)
  | .walk p, cfg => ((p.setParams cfg).1, .walk (p.setParams cfg).2)
  | .byContract p, cfg => ((p.setParams cfg).1, .byContract (p.setParams cfg).2)

/-- Modelled from the spec: the default parameters of a protocol's variant over
a Range. -/
def NumberProtocol.defaultParams (p : NumberProtocol) (range : Range) : NumberProtocolParams :=
  NumberProtocolParams.defaultsFor p.type range

/-- Modelled from the spec: what a Producer does to its protocol when the
target size changes or the protocol is replaced: the Range is set to the given
one and the parameters are reset to the variant's defaults over it, through the
protocol's own `setParams`. -/
def NumberProtocol.setRange (p : NumberProtocol) (range : Range) :
    Outcome Unit × NumberProtocol :=
  p.setParams ⟨range, p.defaultParams range⟩

/-- A sequence of `getIntegerNumber` calls on the owned protocol. -/
def NumberProtocol.draws : NumberProtocol → List Nat → List (Outcome Int) × NumberProtocol
  | p, [] => ([], p)
  | p, pick :: picks =>
    let r := p.getIntegerNumber pick
    let rest := NumberProtocol.draws r.2 picks
    (r.1 :: rest.1, rest.2)

/-! ## Producers -/

/-- Modelled from the spec: `CollectionsProducer<T>` (CollectionsProducer.hpp
is not among the sources; only its tests are): it owns one protocol and one
source collection. -/
structure CollectionsProducer (α : Type) where
  m_source : List α
  m_protocol : NumberProtocol
  deriving DecidableEq

/-- Modelled from the spec: the item a drawn index maps to,
`target[index - Range.offset]`. -/
def CollectionsProducer.itemAt {α : Type} (source : List α) (offset : Int)
    (index : Outcome Int) : Outcome α :=
  match index with
  | .error e => .error e
  | .ok i =>
    if 0 ≤ i - offset then
      match source[(i - offset).toNat]? with
      | some item => .ok item
      | none => .error .outOfBounds
    else
      .error .outOfBounds

/-- Modelled from the spec: construction validates target size >= 2, else fails
with `InvalidArgument`; the protocol's Range is set to `[0, targetSize-1]`. -/
def CollectionsProducer.create {α : Type} (source : List α) (protocol : NumberProtocol) :
    Outcome (CollectionsProducer α) :=
  if source.length < 2 then
    .error .invalidArgument
  else
    match protocol.setRange ⟨0, (source.length : Int) - 1⟩ with
    | (.ok _, p) => .ok ⟨source, p⟩
    | (.error e, _) => .error e

/-- Modelled from the spec: `getItem()` draws one index from the owned protocol
and maps it to `target[index - Range.offset]`. -/
def CollectionsProducer.getItem {α : Type} (m : CollectionsProducer α) (pick : Nat) :
    Outcome α × CollectionsProducer α :=
  let r := m.m_protocol.getIntegerNumber pick
  (CollectionsProducer.itemAt m.m_source m.m_protocol.getParams.range.offset r.1,
    { m with m_protocol := r.2 })

/-- Modelled from the spec: `getCollection(n)`, the items of `n` sequential
single draws (one per entry of `picks`). -/
def CollectionsProducer.getCollection {α : Type} :
    CollectionsProducer α → List Nat → List (Outcome α) × CollectionsProducer α
  | m, [] => ([], m)
  | m, pick :: picks =>
    let r := m.getItem pick
    let rest := CollectionsProducer.getCollection r.2 picks
    (r.1 :: rest.1, rest.2)

/-- Modelled from the spec: `getParams()` delegates to the owned protocol. -/
def CollectionsProducer.getParams {α : Type} (m : CollectionsProducer α) : NumberProtocolParams :=
  m.m_protocol.getParams.protocols

/-- Modelled from the spec: `setParams(params)` fails with `InvalidArgument` for
a parameter variant that is not the owned protocol's, and otherwise delegates to
the owned protocol, keeping its Range. -/
def CollectionsProducer.setParams {α : Type} (m : CollectionsProducer α)
    (newParams : NumberProtocolParams) : Outcome Unit × CollectionsProducer α :=
  if newParams.activeProtocol ≠ m.m_protocol.type then
    (.error .invalidArgument, m)
  else
    let r := m.m_protocol.setParams ⟨m.m_protocol.getParams.range, newParams⟩
    (r.1, { m with m_protocol := r.2 })

/-- Modelled from the spec: `getSource()` returns the source collection. -/
def CollectionsProducer.getSource {α : Type} (m : CollectionsProducer α) : List α :=
  m.m_source

/-- Modelled from the spec: `setProtocol(newProtocol)` replaces the active
protocol; the new protocol's Range is force-set to `[0, targetSize-1]` and its
parameters are reset to that variant's defaults. -/
def CollectionsProducer.setProtocol {α : Type} (m : CollectionsProducer α)
    (newProtocol : NumberProtocol) : Outcome Unit × CollectionsProducer α :=
  let r := newProtocol.setRange ⟨0, (m.m_source.length : Int) - 1⟩
  (r.1, { m with m_protocol := r.2 })

/-- Modelled from the spec: `setSource(newTarget)` validates the new size >= 2
(else fails, leaving the prior target untouched); with an equal size the
protocol is kept as it is; with a different size the protocol's Range is
updated and its parameters are reset to defaults. -/
def CollectionsProducer.setSource {α : Type} (m : CollectionsProducer α) (newSource : List α) :
    Outcome Unit × CollectionsProducer α :=
  if newSource.length < 2 then
    (.error .invalidArgument, m)
  else if newSource.length = m.m_source.length then
    (.ok (), { m with m_source := newSource })
  else
    let r := m.m_protocol.setRange ⟨0, (newSource.length : Int) - 1⟩
    (r.1, { m_source := newSource, m_protocol := r.2 })

/-- Modelled from the spec: a duration protocol exposes its current element
count and computes one value for an index; `Prescribed` plays back a fixed list
and `Multiples` (without deviation) scales the numbers of a Range by a base
increment. -/
inductive DurationProtocol where
  | prescribed (durations : List Int)
  | multiples (baseIncrement : Int) (range : Range)
  deriving DecidableEq

/-- Modelled from the spec: the current element count of a duration protocol. -/
def DurationProtocol.getCollectionSize : DurationProtocol → Nat
  | .prescribed durations => durations.length
  | .multiples _ range => range.size.toNat

/-- Modelled from the spec: the value a duration protocol computes for an index
in `[0, count-1]`. -/
def DurationProtocol.getDuration (d : DurationProtocol) (index : Outcome Int) : Outcome Int :=
  match index with
  | .error e => .error e
  | .ok i =>
    if 0 ≤ i ∧ i < (d.getCollectionSize : Int) then
      match d with
      | .prescribed durations => .ok (durations.getD i.toNat 0)
      | .multiples baseIncrement range => .ok (baseIncrement * (range.start + i))
    else
      .error .outOfBounds

/-- Modelled from the spec: `DurationsProducer` (not among the sources; only
its tests are): it owns one number protocol and one duration protocol. -/
structure DurationsProducer where
  m_durationProtocol : DurationProtocol
  m_numberProtocol : NumberProtocol
  deriving DecidableEq

/-- Modelled from the spec: construction validates target size >= 2 and sets
the number protocol's Range to `[0, targetSize-1]`. -/
def DurationsProducer.create (durationProtocol : DurationProtocol)
    (numberProtocol : NumberProtocol) : Outcome DurationsProducer :=
  if durationProtocol.getCollectionSize < 2 then
    .error .invalidArgument
  else
    match numberProtocol.setRange ⟨0, (durationProtocol.getCollectionSize : Int) - 1⟩ with
    | (.ok _, p) => .ok ⟨durationProtocol, p⟩
    | (.error e, _) => .error e

/-- Modelled from the spec: `getDuration()` draws one index from the number
protocol and asks the duration protocol for the value at that index. -/
def DurationsProducer.getDuration (m : DurationsProducer) (pick : Nat) :
    Outcome Int × DurationsProducer :=
  let r := m.m_numberProtocol.getIntegerNumber pick
  (m.m_durationProtocol.getDuration r.1, { m with m_numberProtocol := r.2 })

/-- Modelled from the spec: `getCollection(n)` of a DurationsProducer. -/
def DurationsProducer.getCollection :
    DurationsProducer → List Nat → List (Outcome Int) × DurationsProducer
  | m, [] => ([], m)
  | m, pick :: picks =>
    let r := m.getDuration pick
    let rest := DurationsProducer.getCollection r.2 picks
    (r.1 :: rest.1, rest.2)

/-- Modelled from the spec: `getParams()` delegates to the number protocol. -/
def DurationsProducer.getParams (m : DurationsProducer) : NumberProtocolParams :=
  m.m_numberProtocol.getParams.protocols

/-- Modelled from the spec: `setParams(params)` fails with `InvalidArgument` for
a parameter variant that is not the number protocol's, and otherwise delegates
to the number protocol, keeping its Range. -/
def DurationsProducer.setParams (m : DurationsProducer) (newParams : NumberProtocolParams) :
    Outcome Unit × DurationsProducer :=
  if newParams.activeProtocol ≠ m.m_numberProtocol.type then
    (.error .invalidArgument, m)
  else
    let r := m.m_numberProtocol.setParams ⟨m.m_numberProtocol.getParams.range, newParams⟩
    (r.1, { m with m_numberProtocol := r.2 })

/-- Modelled from the spec: `setNumberProtocol(newProtocol)`, the counterpart of
`setProtocol`. -/
def DurationsProducer.setNumberProtocol (m : DurationsProducer)
    (newProtocol : NumberProtocol) : Outcome Unit × DurationsProducer :=
  let r := newProtocol.setRange ⟨0, (m.m_durationProtocol.getCollectionSize : Int) - 1⟩
  (r.1, { m with m_numberProtocol := r.2 })

/-- Modelled from the spec: `setDurationProtocol(newDurationProtocol)`, the
counterpart of `setSource`. -/
def DurationsProducer.setDurationProtocol (m : DurationsProducer)
    (newDurationProtocol : DurationProtocol) : Outcome Unit × DurationsProducer :=
  if newDurationProtocol.getCollectionSize < 2 then
    (.error .invalidArgument, m)
  else if newDurationProtocol.getCollectionSize = m.m_durationProtocol.getCollectionSize then
    (.ok (), { m with m_durationProtocol := newDurationProtocol })
  else
    let r := m.m_numberProtocol.setRange ⟨0, (newDurationProtocol.getCollectionSize : Int) - 1⟩
    (r.1, { m_durationProtocol := newDurationProtocol, m_numberProtocol := r.2 })

/-! ## AdjacentSteps: indices passed to the single-entry update (AdjacentSteps.cpp) -/

/-- The indices `AdjacentSteps::prepareStepBasedDistribution` passes to the
generator's single-entry update, in call order; an update that throws ends the
function, so the index after it is not passed. -/
def AdjacentSteps.updateIndices (s : AdjacentSteps) (number : Int) : List Int :=
  let vectorIndex := number - s.m_range.offset
  let g0 := s.m_generator.updateDistributionVectorAll 0
  if number = s.m_range.start then
    [vectorIndex + 1]
  else if number = s.m_range.end_ then
    [vectorIndex - 1]
  else
    match g0.updateDistributionVector (vectorIndex + 1) 1 with
    | .ok _ => [vectorIndex + 1, vectorIndex - 1]
    | .error _ => [vectorIndex + 1]

/-- The indices a call passes to the single-entry update: those of the
`prepareStepBasedDistribution` it reaches, if it reaches one. -/
def AdjacentSteps.callUpdateIndices (s : AdjacentSteps) : AdjacentSteps.Call → List Int
  | .getIntegerNumber pick =>
    match s.m_generator.getNumber pick with
    | .error _ => []
    | .ok generatedNumber =>
      let last : Int := (generatedNumber : Int) + s.m_range.offset
      AdjacentSteps.updateIndices
        { s with m_lastReturnedNumber := last, m_haveRequestedFirstNumber := true } last
  | .setParams newParams =>
    let s1 := { s with m_range := newParams.range }
    let s2 := { s1 with m_generator := s1.m_generator.setDistributionVector s1.m_range.size 1 }
    if s2.m_haveRequestedFirstNumber && s2.m_range.numberIsInRange s2.m_lastReturnedNumber then
      s2.updateIndices s2.m_lastReturnedNumber
    else
      []

/-- The error a call throws, if it throws. -/
def AdjacentSteps.callError (s : AdjacentSteps) : AdjacentSteps.Call → Option Error
  | .getIntegerNumber pick =>
    match (s.getIntegerNumber pick).1 with
    | .ok _ => none
    | .error e => some e
  | .setParams newParams =>
    match (s.setParams newParams).1 with
    | .ok _ => none
    | .error e => some e

/-- Whether a call is one the protocol can receive over Ranges of size at least
2: a draw for which the generator returns an index of non-zero weight, or a
reconfiguration whose Range has size at least 2. -/
def AdjacentSteps.callAdmissible (s : AdjacentSteps) : AdjacentSteps.Call → Bool
  | .getIntegerNumber pick => s.m_generator.mayDraw pick
  | .setParams newParams => decide (2 ≤ newParams.range.size)

/-- Whether every call of a sequence is admissible in the state it starts
from. -/
def AdjacentSteps.callsAdmissible : AdjacentSteps → List AdjacentSteps.Call → Bool
  | _, [] => true
  | s, c :: cs => s.callAdmissible c && AdjacentSteps.callsAdmissible (s.afterCall c) cs

/-! ## Ratio: the selectables list in the words of the spec -/

/-- The selectables list in the words of the spec: the concatenation, over
`i = 0 .. len(r) - 1`, of `r[i]` copies of `o + i`.  It is what the nested loops
of `Ratio::setSelectables` are compared with. -/
def Ratio.concatenatedCopies (o : Int) (r : List Int) : List Int :=
  ((List.range r.length).map
    (fun (i : Nat) => List.replicate (r.getD i 0).toNat (o + (i : Int)))).flatten

/-! ## Serial: sequences of draws and reset -/

/-- A sequence of `getIntegerNumber` calls on a Serial, one per entry of
`picks`: the outcomes in call order and the final state. -/
def Serial.draws : Serial → List Nat → List (Outcome Int) × Serial
  | s, [] => ([], s)
  | s, pick :: picks =>
    let r := s.getIntegerNumber pick
    let rest := Serial.draws r.2 picks
    (r.1 :: rest.1, rest.2)

/-- Modelled from the spec: `Serial::reset` (Serial.cpp is not among the
sources) starts a new pass from a fresh series: every slot is re-enabled. -/
def Serial.reset (s : Serial) : Serial :=
  { s with m_generator := SeriesPrinciple.resetSeries s.m_generator }

/-- A Serial seen as the Ratio in which every value of the Range has ratio 1:
the same generator over the selectables `offset, offset + 1, ...`, one per slot
of the vector.  It carries the series lemmas of Ratio over to Serial. -/
def Serial.asRatio (s : Serial) : Ratio :=
  { m_generator := s.m_generator
    m_range := s.m_range
    m_ratios := List.replicate s.m_generator.distribution.length 1
    m_selectables := (List.range s.m_generator.distribution.length).map
      (fun (i : Nat) => (i : Int) + s.m_range.offset) }

/-! ## GranularWalk (GranularWalk.hpp) -/

/-- Modelled from the spec: `UniformRealGenerator` (only its interface is used):
the bounds `[min, max]` of a uniform draw.  A `double` is embedded as an exact
rational number. -/
structure UniformRealGenerator where
  min : ℚ
  max : ℚ
  deriving DecidableEq

/-- Modelled from the spec: `setDistribution(min, max)` resets the generator to
a new span. -/
def UniformRealGenerator.setDistribution (_g : UniformRealGenerator) (min max : ℚ) :
    UniformRealGenerator :=
  ⟨min, max⟩

/-- Modelled from the spec: a draw returns one value in `[min, max]`
inclusive. -/
def UniformRealGenerator.mayDraw (g : UniformRealGenerator) (x : ℚ) : Bool :=
  decide (g.min ≤ x) && decide (x ≤ g.max)

/-- The members of `GranularWalk`, as declared in GranularWalk.hpp. -/
structure GranularWalk where
  m_generator : UniformRealGenerator
  m_range : Range
  m_deviationFactor : ℚ
  m_maxStep : ℚ
  m_haveRequestedFirstNumber : Bool
  m_lastReturnedNumber : ℚ
  deriving DecidableEq

/-- Modelled from the spec: `GranularWalk::setMaxStep` (GranularWalk.cpp is not
among the sources) calculates the absolute maximum step from the deviation
factor, a fraction of the whole range: the deviation factor times the size of
the Range. -/
def GranularWalk.setMaxStep (s : GranularWalk) : GranularWalk :=
  { s with m_maxStep := s.m_deviationFactor * (s.m_range.size : ℚ) }

/-- Modelled from the spec: `GranularWalk::setForNextStep` recomputes the
generator's bounds around the last returned number: the sub-range
`[last - maxStep, last + maxStep]` curtailed to the main range. -/
def GranularWalk.setForNextStep (s : GranularWalk) : GranularWalk :=
  let subRangeStart := max (s.m_range.start : ℚ) (s.m_lastReturnedNumber - s.m_maxStep)
  let subRangeEnd := min (s.m_range.end_ : ℚ) (s.m_lastReturnedNumber + s.m_maxStep)
  { s with m_generator := s.m_generator.setDistribution subRangeStart subRangeEnd }

/-- Modelled from the spec: `GranularWalk::initialise` derives the maximum step
and lets the first draw range over the main range. -/
def GranularWalk.initialise (s : GranularWalk) : GranularWalk :=
  let s1 := s.setMaxStep
  { s1 with
    m_generator := s1.m_generator.setDistribution (s1.m_range.start : ℚ) (s1.m_range.end_ : ℚ) }

/-- Modelled from the spec: `GranularWalk::GranularWalk(generator, range,
deviationFactor)`; a deviation factor outside `[0, 1]` is an invalid
argument. -/
def GranularWalk.create (range : Range) (deviationFactor : ℚ) : Outcome GranularWalk :=
  if deviationFactor < 0 ∨ 1 < deviationFactor then
    .error .invalidArgument
  else
    .ok (GranularWalk.initialise
      { m_generator := ⟨0, 0⟩
        m_range := range
        m_deviationFactor := deviationFactor
        m_maxStep := 0
        m_haveRequestedFirstNumber := false
        m_lastReturnedNumber := 0 })

/-- Modelled from the spec: `GranularWalk::getDecimalNumber` returns the value
the generator draws (`pick`), remembers it, and moves the sub-range around
it. -/
def GranularWalk.getDecimalNumber (s : GranularWalk) (pick : ℚ) : Outcome ℚ × GranularWalk :=
  let s1 := { s with m_lastReturnedNumber := pick, m_haveRequestedFirstNumber := true }
  (.ok pick, s1.setForNextStep)

/-- Modelled from the spec: `GranularWalk::reset` clears the history: the next
draw ranges over the main range. -/
def GranularWalk.reset (s : GranularWalk) : GranularWalk :=
  { s with
    m_generator := s.m_generator.setDistribution (s.m_range.start : ℚ) (s.m_range.end_ : ℚ)
    m_haveRequestedFirstNumber := false }

/-- A sequence of `getDecimalNumber` calls on a GranularWalk. -/
def GranularWalk.draws : GranularWalk → List ℚ → List (Outcome ℚ) × GranularWalk
  | s, [] => ([], s)
  | s, pick :: picks =>
    let r := s.getDecimalNumber pick
    let rest := GranularWalk.draws r.2 picks
    (r.1 :: rest.1, rest.2)

/-- The generator only ever returns a value within its current bounds. -/
def GranularWalk.admissible : GranularWalk → List ℚ → Bool
  | _, [] => true
  | s, pick :: picks =>
    s.m_generator.mayDraw pick && GranularWalk.admissible (s.getDecimalNumber pick).2 picks

/-! ## Subset -/

/-- Modelled from the spec: the integer `UniformGenerator` (only its test is
among the sources): the bounds `[min, max]` of a uniform integer draw. -/
structure UniformGenerator where
  min : Int
  max : Int
  deriving DecidableEq

/-- Modelled from the spec: `setDistribution(min, max)` resets the generator to
a new span. -/
def UniformGenerator.setDistribution (_g : UniformGenerator) (min max : Int) :
    UniformGenerator :=
  ⟨min, max⟩

/-- Modelled from the spec: `getNumber()` returns one value in `[min, max]`
inclusive; `raw` is the number the random engine supplies, which the generator
brings into its span. -/
def UniformGenerator.getNumber (g : UniformGenerator) (raw : Nat) : Int :=
  g.min + ((raw % (g.max - g.min + 1).toNat : Nat) : Int)

/-- Modelled from the spec: `Subset` (Subset.cpp is not among the sources; the
factory builds it from a UniformGenerator, a DiscreteGenerator, the Range and
the two bounds): besides the Range and the generators, its state is the bounds
`[subsetMin, subsetMax]` on the number of distinct values active at once and the
currently-active index subset. -/
structure Subset where
  m_uniformGenerator : UniformGenerator
  m_generator : DiscreteGenerator
  m_range : Range
  m_subsetMin : Int
  m_subsetMax : Int
  m_subset : List Nat
  deriving DecidableEq

/-- The distribution over `n` indices with weight 1 on the indices of the
active subset and 0 elsewhere. -/
def subsetWeights (n : Nat) (subset : List Nat) : List Nat :=
  (List.range n).map (fun (j : Nat) => if j ∈ subset then 1 else 0)

/-- Modelled from the spec: the selection of `count` indices from the full
Range, one draw each from a generator that excludes an index once it is drawn;
`picks` are the indices the generator returns, in call order (an entry that is
missing reads as 0). -/
def Subset.selectIndices : DiscreteGenerator → Nat → List Nat → Outcome (List Nat)
  | _, 0, _ => .ok []
  | g, count + 1, picks =>
    match SeriesPrinciple.getNumber g (picks.headD 0) with
    | (.error e, _) => .error e
    | (.ok index, g1) =>
      match Subset.selectIndices g1 count picks.tail with
      | .error e => .error e
      | .ok rest => .ok (index :: rest)

/-- Modelled from the spec: the selection of a new active subset of a random
size within the bounds from the full Range: the size is a uniform draw over
`[subsetMin, subsetMax]` (`sizeRaw` is what the random engine supplies for it),
that many indices are selected from the full Range (`picks`), and draws are
then restricted to them. -/
def Subset.setSubset (s : Subset) (sizeRaw : Nat) (picks : List Nat) : Outcome Unit × Subset :=
  let uniform := s.m_uniformGenerator.setDistribution s.m_subsetMin s.m_subsetMax
  let subsetSize := uniform.getNumber sizeRaw
  let full := s.m_generator.setDistributionVector s.m_range.size 1
  match Subset.selectIndices full subsetSize.toNat picks with
  | .error e => (.error e, { s with m_uniformGenerator := uniform, m_generator := full })
  | .ok chosen =>
    (.ok (), { s with m_uniformGenerator := uniform
                      m_subset := chosen
                      m_generator := ⟨subsetWeights s.m_range.size.toNat chosen⟩ })

/-- Modelled from the spec: construction of a Subset chooses the first active
subset. -/
def Subset.create (range : Range) (subsetMin subsetMax : Int) (sizeRaw : Nat)
    (picks : List Nat) : Outcome Unit × Subset :=
  Subset.setSubset
    { m_uniformGenerator := ⟨0, 0⟩, m_generator := ⟨[]⟩, m_range := range,
      m_subsetMin := subsetMin, m_subsetMax := subsetMax, m_subset := [] } sizeRaw picks

/-- Modelled from the spec: `Subset::getIntegerNumber` is a uniform draw
restricted to the active subset.  The spec leaves open when the active subset
is re-selected between draws; the test of a Producer over a Subset bounds the
distinct items of 1000 consecutive draws by `subsetMax`, so a draw keeps the
active subset, which is re-chosen by `reset` (and at construction). -/
def Subset.getIntegerNumber (s : Subset) (pick : Nat) : Outcome Int × Subset :=
  match s.m_generator.getNumber pick with
  | .error e => (.error e, s)
  | .ok index => (.ok ((index : Int) + s.m_range.offset), s)

/-- Modelled from the spec: `Subset::reset`: the active subset is re-chosen. -/
def Subset.reset (s : Subset) (sizeRaw : Nat) (picks : List Nat) : Outcome Unit × Subset :=
  s.setSubset sizeRaw picks

/-- A sequence of `getIntegerNumber` calls on a Subset. -/
def Subset.draws : Subset → List Nat → List (Outcome Int) × Subset
  | s, [] => ([], s)
  | s, pick :: picks =>
    let r := s.getIntegerNumber pick
    let rest := Subset.draws r.2 picks
    (r.1 :: rest.1, rest.2)

/-- The generator only ever returns an index whose current weight is
non-zero. -/
def Subset.admissible : Subset → List Nat → Bool
  | _, [] => true
  | s, pick :: picks =>
    s.m_generator.mayDraw pick && Subset.admissible (s.getIntegerNumber pick).2 picks

/-! ## Producers: sequential single calls -/

/-- The spec's `n` sequential calls of `getItem()`: the calls are made one
after the other, each on the producer the previous call left, and each result
is appended to those collected so far.  It is what `getCollection(n)` is
compared with. -/
def CollectionsProducer.sequentialGetItem {α : Type} (m : CollectionsProducer α)
    (picks : List Nat) : List (Outcome α) × CollectionsProducer α :=
  picks.foldl
    (fun (acc : List (Outcome α) × CollectionsProducer α) (pick : Nat) =>
      ((acc.1 ++ [(acc.2.getItem pick).1]), (acc.2.getItem pick).2))
    ([], m)

/-- The spec's `n` sequential calls of `getDuration()`, the counterpart of
`sequentialGetItem` for a DurationsProducer. -/
def DurationsProducer.sequentialGetDuration (m : DurationsProducer) (picks : List Nat) :
    List (Outcome Int) × DurationsProducer :=
  picks.foldl
    (fun (acc : List (Outcome Int) × DurationsProducer) (pick : Nat) =>
      ((acc.1 ++ [(acc.2.getDuration pick).1]), (acc.2.getDuration pick).2))
    ([], m)

/-! ## Lemmas: DiscreteGenerator -/

theorem DiscreteGenerator.updateDistributionVector_natCast (g : DiscreteGenerator) (i w : Nat)
    (h : i < g.distribution.length) :
    g.updateDistributionVector (i : Int) w = .ok ⟨g.distribution.set i w⟩ := by
  unfold DiscreteGenerator.updateDistributionVector
  have h1 : (0 : Int) ≤ (i : Int) ∧ (i : Int) < (g.distribution.length : Int) :=
    ⟨Int.natCast_nonneg i, by exact_mod_cast h⟩
  rw [if_pos h1]
  simp

theorem DiscreteGenerator.mayDraw_iff (g : DiscreteGenerator) (pick : Nat) :
    g.mayDraw pick = true ↔ ∃ h : pick < g.distribution.length, g.distribution[pick] ≠ 0 := by
  unfold DiscreteGenerator.mayDraw
  constructor
  · intro h
    simp only [Bool.and_eq_true, decide_eq_true_eq] at h
    refine ⟨h.1, ?_⟩
    have h2 := h.2
    rwa [List.getD_eq_getElem _ _ h.1] at h2
  · rintro ⟨h, h2⟩
    simp only [Bool.and_eq_true, decide_eq_true_eq]
    refine ⟨h, ?_⟩
    rwa [List.getD_eq_getElem _ _ h]

theorem DiscreteGenerator.getNumber_of_mayDraw (g : DiscreteGenerator) (pick : Nat)
    (h : g.mayDraw pick = true) : g.getNumber pick = .ok pick := by
  obtain ⟨hlt, hne⟩ := (g.mayDraw_iff pick).1 h
  unfold DiscreteGenerator.getNumber
  have : g.distribution.all (fun w => w == 0) = false := by
    rw [Bool.eq_false_iff]
    intro hall
    rw [List.all_eq_true] at hall
    have := hall _ (List.getElem_mem hlt)
    simp at this
    exact hne this
  rw [this]
  rfl

/-! ## Lemmas: AdjacentSteps -/

theorem adjacentWeights_length (n i : Nat) : (adjacentWeights n i).length = n := by
  simp [adjacentWeights]

theorem adjacentWeights_getElem (n i j : Nat) (h : j < (adjacentWeights n i).length) :
    (adjacentWeights n i)[j] = if j = i + 1 ∨ j + 1 = i then 1 else 0 := by
  simp [adjacentWeights]

/-- Zeroing a vector and setting weight 1 above index `0`. -/
theorem zero_set_succ (l : List Nat) :
    (l.map (fun _ => 0)).set 1 1 = adjacentWeights l.length 0 := by
  apply List.ext_getElem
  · simp [adjacentWeights_length]
  · intro j h1 h2
    rw [adjacentWeights_getElem, List.getElem_set]
    by_cases hj : 1 = j
    · subst hj; simp
    · rw [if_neg hj]
      have : ¬ (j = 0 + 1 ∨ j + 1 = 0) := by omega
      rw [if_neg this]; simp

/-- Zeroing a vector and setting weight 1 below its last index. -/
theorem zero_set_pred (l : List Nat) (i : Nat) (hi : i + 1 = l.length) (h0 : 0 < i) :
    (l.map (fun _ => 0)).set (i - 1) 1 = adjacentWeights l.length i := by
  apply List.ext_getElem
  · simp [adjacentWeights_length]
  · intro j h1 h2
    rw [adjacentWeights_getElem, List.getElem_set]
    simp only [List.length_set, List.length_map] at h1
    by_cases hj : i - 1 = j
    · rw [if_pos hj]
      have : (j = i + 1 ∨ j + 1 = i) := by omega
      rw [if_pos this]
    · rw [if_neg hj]
      have : ¬ (j = i + 1 ∨ j + 1 = i) := by omega
      rw [if_neg this]; simp

/-- Zeroing a vector and setting weight 1 on both sides of an interior index. -/
theorem zero_set_both (l : List Nat) (i : Nat) (h0 : 0 < i) :
    ((l.map (fun _ => 0)).set (i + 1) 1).set (i - 1) 1 = adjacentWeights l.length i := by
  apply List.ext_getElem
  · simp [adjacentWeights_length]
  · intro j h1 h2
    rw [adjacentWeights_getElem, List.getElem_set, List.getElem_set]
    by_cases hj : i - 1 = j
    · rw [if_pos hj]
      have : (j = i + 1 ∨ j + 1 = i) := by omega
      rw [if_pos this]
    · rw [if_neg hj]
      by_cases hj2 : i + 1 = j
      · rw [if_pos hj2]
        have : (j = i + 1 ∨ j + 1 = i) := by omega
        rw [if_pos this]
      · rw [if_neg hj2]
        have : ¬ (j = i + 1 ∨ j + 1 = i) := by omega
        rw [if_neg this]; simp

/-- `prepareStepBasedDistribution` for the number at vector index `i`, on a
protocol whose vector has the length of its range (size at least 2): no update
is out of range and the neighbour distribution of `i` is left behind. -/
theorem AdjacentSteps.prepareStepBasedDistribution_spec (s : AdjacentSteps) (i : Nat)
    (hsize : 2 ≤ s.m_range.size)
    (hlen : (s.m_generator.distribution.length : Int) = s.m_range.size)
    (hlt : i < s.m_generator.distribution.length) :
    s.prepareStepBasedDistribution ((i : Int) + s.m_range.start) =
      (.ok (), { s with
        m_generator := ⟨adjacentWeights s.m_generator.distribution.length i⟩ }) := by
  unfold AdjacentSteps.prepareStepBasedDistribution
  simp only [Range.offset, add_sub_cancel_right]
  have hsz : s.m_range.size = s.m_range.end_ - s.m_range.start + 1 := rfl
  have hl0 : (s.m_generator.updateDistributionVectorAll 0).distribution.length
      = s.m_generator.distribution.length := by
    simp [DiscreteGenerator.updateDistributionVectorAll]
  by_cases h0 : i = 0
  · subst h0
    have hc : ((0 : Nat) : Int) + s.m_range.start = s.m_range.start := by simp
    rw [if_pos hc]
    have h1 : (1 : Nat) < (s.m_generator.updateDistributionVectorAll 0).distribution.length := by
      rw [hl0]; omega
    have := DiscreteGenerator.updateDistributionVector_natCast _ 1 1 h1
    simp only [Nat.cast_one, Nat.cast_zero, zero_add] at this ⊢
    rw [this]
    simp only [DiscreteGenerator.updateDistributionVectorAll]
    rw [zero_set_succ]
  · have hc : ¬ ((i : Int) + s.m_range.start = s.m_range.start) := by omega
    rw [if_neg hc]
    have hpred : ((i : Int) - 1) = ((i - 1 : Nat) : Int) := by omega
    by_cases hend : (i : Int) + s.m_range.start = s.m_range.end_
    · rw [if_pos hend]
      have h1 : i - 1 < (s.m_generator.updateDistributionVectorAll 0).distribution.length := by
        rw [hl0]; omega
      rw [hpred, DiscreteGenerator.updateDistributionVector_natCast _ _ 1 h1]
      simp only [DiscreteGenerator.updateDistributionVectorAll]
      rw [zero_set_pred _ i (by omega) (by omega)]
    · rw [if_neg hend]
      have h1 : i + 1 < (s.m_generator.updateDistributionVectorAll 0).distribution.length := by
        rw [hl0]; omega
      have hsucc : ((i : Int) + 1) = ((i + 1 : Nat) : Int) := by omega
      rw [hsucc, DiscreteGenerator.updateDistributionVector_natCast _ _ 1 h1]
      simp only []
      have h2 : i - 1 < (DiscreteGenerator.mk
          ((s.m_generator.updateDistributionVectorAll 0).distribution.set
            (i + 1) 1)).distribution.length := by
        simp only [List.length_set]; rw [hl0]; omega
      rw [hpred, DiscreteGenerator.updateDistributionVector_natCast _ _ 1 h2]
      simp only [DiscreteGenerator.updateDistributionVectorAll]
      rw [zero_set_both _ i (by omega)]

/-- One `getIntegerNumber` on a protocol whose vector has the length of its
range (size at least 2), with a drawable pick: the call returns
`pick + offset` and leaves the neighbour distribution. -/
theorem AdjacentSteps.adjacent_step_spec (s : AdjacentSteps) (pick : Nat)
    (hsize : 2 ≤ s.m_range.size)
    (hlen : (s.m_generator.distribution.length : Int) = s.m_range.size)
    (hdraw : s.m_generator.mayDraw pick = true) :
    s.getIntegerNumber pick =
      (.ok ((pick : Int) + s.m_range.start),
        { m_generator := ⟨adjacentWeights s.m_generator.distribution.length pick⟩
          m_range := s.m_range
          m_haveRequestedFirstNumber := true
          m_lastReturnedNumber := (pick : Int) + s.m_range.start }) := by
  obtain ⟨hlt, -⟩ := (s.m_generator.mayDraw_iff pick).1 hdraw
  unfold AdjacentSteps.getIntegerNumber
  rw [DiscreteGenerator.getNumber_of_mayDraw _ _ hdraw]
  simp only [Range.offset]
  rw [AdjacentSteps.prepareStepBasedDistribution_spec
    { s with m_lastReturnedNumber := (pick : Int) + s.m_range.start,
             m_haveRequestedFirstNumber := true } pick hsize hlen hlt]

theorem AdjacentSteps.create_length (range : Range) (h : 2 ≤ range.size) :
    (((AdjacentSteps.create range).m_generator.distribution.length : Nat) : Int) = range.size := by
  simp only [AdjacentSteps.create, DiscreteGenerator.setDistributionVector, List.length_replicate]
  omega

/-- In the neighbour distribution of index `i` exactly `i + 1` and `i - 1` can
be drawn. -/
theorem mayDraw_adjacentWeights_iff (n i q : Nat) :
    (DiscreteGenerator.mk (adjacentWeights n i)).mayDraw q = true ↔
      q < n ∧ (q = i + 1 ∨ q + 1 = i) := by
  rw [DiscreteGenerator.mayDraw_iff]
  simp only [adjacentWeights_getElem, adjacentWeights_length]
  constructor
  · rintro ⟨hlt, hne⟩
    refine ⟨hlt, ?_⟩
    by_contra hc
    rw [if_neg hc] at hne
    exact hne rfl
  · rintro ⟨hlt, hq⟩
    refine ⟨hlt, ?_⟩
    rw [if_pos hq]
    exact one_ne_zero

theorem mayDraw_adjacentWeights (n i q : Nat)
    (h : (DiscreteGenerator.mk (adjacentWeights n i)).mayDraw q = true) :
    q < n ∧ (q = i + 1 ∨ q + 1 = i) :=
  (mayDraw_adjacentWeights_iff n i q).1 h

/-- The state reached by admissible draws keeps the range and the vector length. -/
theorem AdjacentSteps.draws_invariant (picks : List Nat) :
    ∀ s : AdjacentSteps, 2 ≤ s.m_range.size →
      (s.m_generator.distribution.length : Int) = s.m_range.size →
      s.admissible picks = true →
      (s.draws picks).2.m_range = s.m_range ∧
      (((s.draws picks).2.m_generator.distribution.length : Nat) : Int) = s.m_range.size ∧
      (s.draws picks).1 = picks.map (fun (p : Nat) => Outcome.ok ((p : Int) + s.m_range.offset)) := by
  induction picks with
  | nil => intro s _ hlen _; exact ⟨rfl, hlen, rfl⟩
  | cons p ps ih =>
    intro s hsize hlen hadm
    simp only [AdjacentSteps.admissible, Bool.and_eq_true] at hadm
    have hstep := s.adjacent_step_spec p hsize hlen hadm.1
    have hr : (s.getIntegerNumber p).2.m_range = s.m_range := by rw [hstep]
    have hl : (((s.getIntegerNumber p).2.m_generator.distribution.length : Nat) : Int)
        = s.m_range.size := by
      rw [hstep]; simpa [adjacentWeights_length] using hlen
    have := ih (s.getIntegerNumber p).2 (by rw [hr]; exact hsize) (by rw [hr]; exact hl) hadm.2
    simp only [AdjacentSteps.draws]
    rw [hr] at this
    refine ⟨this.1, this.2.1, ?_⟩
    rw [this.2.2, hstep]
    simp only [List.map_cons, Range.offset]

/-- After a draw that left the neighbour distribution of `i`, every further
admissible draw moves by exactly one. -/
theorem AdjacentSteps.draws_chain (picks : List Nat) :
    ∀ (s : AdjacentSteps) (i : Nat), 2 ≤ s.m_range.size →
      (s.m_generator.distribution.length : Int) = s.m_range.size →
      s.m_generator.distribution = adjacentWeights s.m_generator.distribution.length i →
      s.admissible picks = true →
      List.Chain (fun prev cur : Int => cur = prev + 1 ∨ cur = prev - 1)
        ((i : Int) + s.m_range.start)
        (picks.map (fun (p : Nat) => (p : Int) + s.m_range.start)) := by
  induction picks with
  | nil => intro s i _ _ _ _; exact List.Chain.nil
  | cons p ps ih =>
    intro s i hsize hlen hdist hadm
    simp only [AdjacentSteps.admissible, Bool.and_eq_true] at hadm
    have hstep := s.adjacent_step_spec p hsize hlen hadm.1
    have hr : (s.getIntegerNumber p).2.m_range = s.m_range := by rw [hstep]
    have hd : (s.getIntegerNumber p).2.m_generator.distribution
        = adjacentWeights s.m_generator.distribution.length p := by rw [hstep]
    have hnb : p < s.m_generator.distribution.length ∧ (p = i + 1 ∨ p + 1 = i) := by
      apply mayDraw_adjacentWeights
      have h1 := hadm.1
      rw [show s.m_generator = ⟨s.m_generator.distribution⟩ from rfl, hdist] at h1
      simpa [adjacentWeights_length] using h1
    have := ih (s.getIntegerNumber p).2 p (by rw [hr]; exact hsize)
      (by rw [hr, hd]; simpa [adjacentWeights_length] using hlen)
      (by rw [hd]; simp [adjacentWeights_length]) hadm.2
    rw [hr] at this
    simp only [List.map_cons]
    refine List.Chain.cons ?_ this
    omega

/-- Every admissible pick is an index of the range. -/
theorem AdjacentSteps.admissible_lt (picks : List Nat) :
    ∀ s : AdjacentSteps, 2 ≤ s.m_range.size →
      (s.m_generator.distribution.length : Int) = s.m_range.size →
      s.admissible picks = true → ∀ p ∈ picks, (p : Int) < s.m_range.size := by
  induction picks with
  | nil => intro s _ _ _ p hp; simp at hp
  | cons a as ih =>
    intro s hsize hlen hadm p hp
    simp only [AdjacentSteps.admissible, Bool.and_eq_true] at hadm
    have hstep := s.adjacent_step_spec a hsize hlen hadm.1
    have hr : (s.getIntegerNumber a).2.m_range = s.m_range := by rw [hstep]
    have hl : (((s.getIntegerNumber a).2.m_generator.distribution.length : Nat) : Int)
        = s.m_range.size := by
      rw [hstep]; simpa [adjacentWeights_length] using hlen
    rcases List.mem_cons.1 hp with h | h
    · subst h
      obtain ⟨hlt, -⟩ := (s.m_generator.mayDraw_iff p).1 hadm.1
      omega
    · have := ih (s.getIntegerNumber a).2 (by rw [hr]; exact hsize) (by rw [hr]; exact hl)
        hadm.2 p h
      rwa [hr] at this

/-! ## Lemmas: series over a generator -/

theorem seriesWeights_length (n : Nat) (drawn : List Nat) :
    (seriesWeights n drawn).length = n := by
  simp [seriesWeights]

theorem seriesWeights_getElem (n : Nat) (drawn : List Nat) (j : Nat)
    (h : j < (seriesWeights n drawn).length) :
    (seriesWeights n drawn)[j] = if j ∈ drawn then 0 else 1 := by
  simp [seriesWeights]

theorem seriesWeights_nil (n : Nat) : seriesWeights n [] = List.replicate n 1 := by
  apply List.ext_getElem
  · simp [seriesWeights_length]
  · intro j h1 h2
    rw [seriesWeights_getElem]
    simp

/-- Exhausting slot `p` of a series. -/
theorem seriesWeights_set (n : Nat) (drawn : List Nat) (p : Nat) :
    (seriesWeights n drawn).set p 0 = seriesWeights n (p :: drawn) := by
  apply List.ext_getElem
  · simp [seriesWeights_length]
  · intro j h1 h2
    rw [List.getElem_set, seriesWeights_getElem, seriesWeights_getElem]
    by_cases hj : p = j
    · subst hj; simp
    · rw [if_neg hj]
      have hj2 : ¬ j = p := fun h => hj h.symm
      simp [List.mem_cons, hj2]

/-- Resetting a series re-enables every slot. -/
theorem seriesWeights_reset (n : Nat) (drawn : List Nat) :
    (seriesWeights n drawn).map (fun _ => 1) = seriesWeights n [] := by
  apply List.ext_getElem
  · simp [seriesWeights_length]
  · intro j h1 h2
    rw [seriesWeights_getElem]
    simp

theorem seriesWeights_mayDraw_iff (n : Nat) (drawn : List Nat) (p : Nat) :
    (DiscreteGenerator.mk (seriesWeights n drawn)).mayDraw p = true ↔ p < n ∧ p ∉ drawn := by
  rw [DiscreteGenerator.mayDraw_iff]
  simp only [seriesWeights_getElem, seriesWeights_length]
  constructor
  · rintro ⟨hlt, hne⟩
    refine ⟨hlt, ?_⟩
    intro hc
    rw [if_pos hc] at hne
    exact hne rfl
  · rintro ⟨hlt, hq⟩
    refine ⟨hlt, ?_⟩
    rw [if_neg hq]
    exact one_ne_zero

/-- A series is complete exactly when every slot is exhausted. -/
theorem seriesWeights_complete_iff (n : Nat) (drawn : List Nat) :
    SeriesPrinciple.seriesIsComplete ⟨seriesWeights n drawn⟩ = true ↔ ∀ j, j < n → j ∈ drawn := by
  unfold SeriesPrinciple.seriesIsComplete
  rw [List.all_eq_true]
  constructor
  · intro h j hj
    by_contra hc
    have hlt : j < (seriesWeights n drawn).length := by rw [seriesWeights_length]; exact hj
    have := h _ (List.getElem_mem hlt)
    rw [seriesWeights_getElem, if_neg hc] at this
    simp at this
  · intro h x hx
    obtain ⟨j, hj, rfl⟩ := List.getElem_of_mem hx
    rw [seriesWeights_getElem, if_pos (h j (by simpa [seriesWeights_length] using hj))]
    rfl

/-- Distinct slots of a series that is not yet full leave one slot open. -/
theorem series_incomplete_of_length_lt (n : Nat) (drawn : List Nat)
    (hlt : drawn.length < n) :
    SeriesPrinciple.seriesIsComplete ⟨seriesWeights n drawn⟩ = false := by
  rw [Bool.eq_false_iff]
  intro hc
  rw [seriesWeights_complete_iff] at hc
  have hsub : List.range n ⊆ drawn := fun j hj => hc j (List.mem_range.1 hj)
  have := ((List.nodup_range n).subperm hsub).length_le
  rw [List.length_range] at this
  omega

/-- Distinct slots filling the series are all the slots. -/
theorem series_perm_range (n : Nat) (drawn : List Nat) (hnd : drawn.Nodup)
    (hbound : ∀ j ∈ drawn, j < n) (hlen : drawn.length = n) :
    List.Perm drawn (List.range n) := by
  have hsub : drawn ⊆ List.range n := fun j hj => List.mem_range.2 (hbound j hj)
  exact (hnd.subperm hsub).perm_of_length_le (by rw [List.length_range, hlen])

/-! ## Lemmas: Ratio -/

/-- One `getIntegerNumber` of a Ratio whose generator, at the moment of the
draw, holds a series over the positions of `m_selectables`. -/
theorem Ratio.series_step_spec (s : Ratio) (pick n : Nat) (drawn : List Nat)
    (hgen : s.generatorAtDraw.distribution = seriesWeights n drawn)
    (hsel : s.m_selectables.length = n)
    (hdraw : s.generatorAtDraw.mayDraw pick = true) :
    s.getIntegerNumber pick =
      (.ok (s.m_selectables.getD pick 0),
        { s with m_generator := ⟨seriesWeights n (pick :: drawn)⟩ }) := by
  obtain ⟨hlt, -⟩ := (s.generatorAtDraw.mayDraw_iff pick).1 hdraw
  have hpn : pick < n := by
    rw [hgen, seriesWeights_length] at hlt; exact hlt
  unfold Ratio.getIntegerNumber SeriesPrinciple.getNumber
  rw [DiscreteGenerator.getNumber_of_mayDraw _ _ hdraw]
  simp only []
  rw [DiscreteGenerator.updateDistributionVector_natCast _ _ 0 hlt]
  simp only []
  have hsome : s.m_selectables[pick]? = some (s.m_selectables.getD pick 0) := by
    rw [List.getD_eq_getElem _ _ (by omega), List.getElem?_eq_getElem]
  rw [hsome, hgen, seriesWeights_set]

/-- The generator at the moment of a draw when the stored series is not full. -/
theorem Ratio.generatorAtDraw_of_incomplete (s : Ratio) (n : Nat) (drawn : List Nat)
    (hgen : s.m_generator.distribution = seriesWeights n drawn) (hlt : drawn.length < n) :
    s.generatorAtDraw.distribution = seriesWeights n drawn := by
  unfold Ratio.generatorAtDraw
  have hg : s.m_generator = ⟨seriesWeights n drawn⟩ := by
    cases hs : s.m_generator; rw [hs] at hgen; simpa using hgen
  rw [hg, series_incomplete_of_length_lt n drawn hlt]
  rfl

/-- The generator at the moment of a draw when the stored series is full: it
has been reset. -/
theorem Ratio.generatorAtDraw_of_complete (s : Ratio) (n : Nat) (drawn : List Nat)
    (hgen : s.m_generator.distribution = seriesWeights n drawn)
    (hall : ∀ j, j < n → j ∈ drawn) :
    s.generatorAtDraw.distribution = seriesWeights n [] := by
  unfold Ratio.generatorAtDraw
  have hg : s.m_generator = ⟨seriesWeights n drawn⟩ := by
    cases hs : s.m_generator; rw [hs] at hgen; simpa using hgen
  rw [hg, (seriesWeights_complete_iff n drawn).2 hall]
  simp only [if_true, SeriesPrinciple.resetSeries, DiscreteGenerator.updateDistributionVectorAll]
  exact seriesWeights_reset n drawn

/-- Part of a pass: at most as many admissible draws as slots remain open. -/
theorem Ratio.draws_pass (n : Nat) (picks : List Nat) :
    ∀ (s : Ratio) (drawn : List Nat),
      s.generatorAtDraw.distribution = seriesWeights n drawn →
      s.m_selectables.length = n → drawn.Nodup → (∀ j ∈ drawn, j < n) →
      drawn.length + picks.length ≤ n → picks ≠ [] → s.admissible picks = true →
      (s.draws picks).1 = picks.map (fun (p : Nat) => Outcome.ok (s.m_selectables.getD p 0)) ∧
      (s.draws picks).2 = { s with m_generator := ⟨seriesWeights n (picks.reverse ++ drawn)⟩ } ∧
      (picks.reverse ++ drawn).Nodup ∧ (∀ j ∈ picks.reverse ++ drawn, j < n) := by
  induction picks with
  | nil => intro s drawn _ _ _ _ _ hne; exact absurd rfl hne
  | cons p ps ih =>
    intro s drawn hgen hsel hnd hbound hlen _ hadm
    simp only [Ratio.admissible, Bool.and_eq_true] at hadm
    have hstep := s.series_step_spec p n drawn hgen hsel hadm.1
    have hp : p < n ∧ p ∉ drawn := by
      have h1 := hadm.1
      rw [show s.generatorAtDraw = ⟨s.generatorAtDraw.distribution⟩ from rfl, hgen] at h1
      exact (seriesWeights_mayDraw_iff n drawn p).1 h1
    have hnd2 : (p :: drawn).Nodup := List.nodup_cons.2 ⟨hp.2, hnd⟩
    have hbound2 : ∀ j ∈ p :: drawn, j < n := by
      intro j hj
      rcases List.mem_cons.1 hj with h | h
      · rw [h]; exact hp.1
      · exact hbound j h
    simp only [Ratio.draws]
    rw [hstep]
    simp only [List.map_cons, List.reverse_cons, List.append_assoc, List.singleton_append]
    cases ps with
    | nil =>
      simp only [Ratio.draws, List.map_nil, List.reverse_nil, List.nil_append]
      exact ⟨trivial, trivial, hnd2, hbound2⟩
    | cons q qs =>
      have hadm2 := hadm.2
      rw [hstep] at hadm2
      simp only [List.length_cons] at hlen
      have hgen2 : (Ratio.generatorAtDraw
          { s with m_generator := ⟨seriesWeights n (p :: drawn)⟩ }).distribution
          = seriesWeights n (p :: drawn) :=
        Ratio.generatorAtDraw_of_incomplete _ n (p :: drawn) rfl
          (by simp only [List.length_cons]; omega)
      have := ih { s with m_generator := ⟨seriesWeights n (p :: drawn)⟩ } (p :: drawn) hgen2 hsel
        hnd2 hbound2 (by simp only [List.length_cons]; omega) (by simp) hadm2
      obtain ⟨h1, h2, h3, h4⟩ := this
      simp only [List.reverse_cons, List.append_assoc, List.singleton_append] at h2 h3 h4 ⊢
      refine ⟨?_, ?_, h3, h4⟩
      · rw [h1]
      · rw [h2]

theorem Ratio.draws_length (picks : List Nat) :
    ∀ s : Ratio, (s.draws picks).1.length = picks.length := by
  induction picks with
  | nil => intro s; rfl
  | cons p ps ih => intro s; simp only [Ratio.draws, List.length_cons, ih]

theorem Ratio.draws_append (a b : List Nat) :
    ∀ s : Ratio, s.draws (a ++ b) =
      ((s.draws a).1 ++ ((s.draws a).2.draws b).1, ((s.draws a).2.draws b).2) := by
  induction a with
  | nil => intro s; simp [Ratio.draws]
  | cons p ps ih => intro s; rw [List.cons_append]; simp only [Ratio.draws, ih, List.cons_append]

theorem Ratio.admissible_append (a b : List Nat) :
    ∀ s : Ratio, s.admissible (a ++ b) = (s.admissible a && (s.draws a).2.admissible b) := by
  induction a with
  | nil => intro s; simp [Ratio.draws, Ratio.admissible]
  | cons p ps ih =>
    intro s
    rw [List.cons_append]
    simp only [Ratio.draws, Ratio.admissible, ih, Bool.and_assoc]

theorem map_getD_range (l : List Int) :
    (List.range l.length).map (fun (p : Nat) => l.getD p 0) = l := by
  apply List.ext_getElem
  · simp
  · intro j h1 h2
    simp only [List.getElem_map, List.getElem_range]
    exact List.getD_eq_getElem _ _ h2

/-- One complete pass: as many admissible draws as there are slots, from the
start of a pass.  The picks are a permutation of the slots and the protocol is
at the start of a pass again. -/
theorem Ratio.draws_block (n : Nat) (s : Ratio) (picks : List Nat) (hn : 1 ≤ n)
    (hgen : s.generatorAtDraw.distribution = seriesWeights n [])
    (hsel : s.m_selectables.length = n) (hlen : picks.length = n)
    (hadm : s.admissible picks = true) :
    (s.draws picks).1 = picks.map (fun (p : Nat) => Outcome.ok (s.m_selectables.getD p 0)) ∧
      List.Perm picks (List.range n) ∧
      (s.draws picks).2 = { s with m_generator := ⟨seriesWeights n picks.reverse⟩ } ∧
      (s.draws picks).2.generatorAtDraw.distribution = seriesWeights n [] := by
  have hne : picks ≠ [] := by
    intro hc; rw [hc] at hlen; simp at hlen; omega
  obtain ⟨h1, h2, h3, h4⟩ := Ratio.draws_pass n picks s [] hgen hsel List.nodup_nil
    (by simp) (by simp [hlen]) hne hadm
  simp only [List.append_nil] at h2 h3 h4
  have hperm : List.Perm picks.reverse (List.range n) :=
    series_perm_range n picks.reverse h3 h4 (by simp [hlen])
  refine ⟨h1, (List.reverse_perm picks).symm.trans hperm, h2, ?_⟩
  rw [h2]
  apply Ratio.generatorAtDraw_of_complete _ n picks.reverse rfl
  intro j hj
  exact hperm.mem_iff.2 (List.mem_range.2 hj)

/-- Any number of admissible draws from the start of a pass: every call returns
the selectable at the drawn position, every drawn position is a position of
`m_selectables`, and range, ratios, selectables and vector length are kept. -/
theorem Ratio.draws_general (n : Nat) (hn : 1 ≤ n) (k : Nat) :
    ∀ (picks : List Nat) (s : Ratio), picks.length ≤ k →
      s.generatorAtDraw.distribution = seriesWeights n [] →
      s.m_generator.distribution.length = n →
      s.m_selectables.length = n → s.admissible picks = true →
      (s.draws picks).1 = picks.map (fun (p : Nat) => Outcome.ok (s.m_selectables.getD p 0)) ∧
      (∀ p ∈ picks, p < n) ∧
      (s.draws picks).2.m_selectables = s.m_selectables ∧
      (s.draws picks).2.m_range = s.m_range ∧
      (s.draws picks).2.m_ratios = s.m_ratios ∧
      (s.draws picks).2.m_generator.distribution.length = n := by
  induction k with
  | zero =>
    intro picks s hk _ hglen _ _
    have : picks = [] := List.length_eq_zero.1 (by omega)
    subst this
    exact ⟨rfl, by simp, rfl, rfl, rfl, hglen⟩
  | succ k ih =>
    intro picks s hk hgen hglen hsel hadm
    by_cases hnil : picks = []
    · subst hnil
      exact ⟨rfl, by simp, rfl, rfl, rfl, hglen⟩
    · by_cases hshort : picks.length ≤ n
      · obtain ⟨h1, h2, -, h4⟩ := Ratio.draws_pass n picks s [] hgen hsel List.nodup_nil
          (by simp) (by simpa using hshort) hnil hadm
        refine ⟨h1, ?_, by rw [h2], by rw [h2], by rw [h2], by rw [h2]; simp [seriesWeights_length]⟩
        intro p hp
        exact h4 p (by simp [hp])
      · have hsplit : picks = picks.take n ++ picks.drop n := (List.take_append_drop n picks).symm
        have hla : (picks.take n).length = n := by rw [List.length_take]; omega
        have hlb : (picks.drop n).length ≤ k := by rw [List.length_drop]; omega
        rw [hsplit, Ratio.admissible_append, Bool.and_eq_true] at hadm
        obtain ⟨b1, -, b3, b4⟩ := Ratio.draws_block n s (picks.take n) hn hgen hsel hla hadm.1
        have hsel2 : (s.draws (picks.take n)).2.m_selectables = s.m_selectables := by rw [b3]
        have := ih (picks.drop n) (s.draws (picks.take n)).2 hlb b4
          (by rw [b3]; simp [seriesWeights_length]) (by rw [hsel2]; exact hsel) hadm.2
        obtain ⟨c1, c2, c3, c4, c5, c6⟩ := this
        have hpass := Ratio.draws_pass n (picks.take n) s [] hgen hsel List.nodup_nil
          (by simp) (by simp only [List.length_nil, zero_add]; omega)
          (by intro hc; rw [hc] at hla; simp at hla; omega) hadm.1
        rw [hsplit, Ratio.draws_append]
        simp only []
        refine ⟨?_, ?_, by rw [c3, hsel2], by rw [c4, b3], by rw [c5, b3], c6⟩
        · rw [b1, c1, hsel2, List.map_append]
        · intro p hp
          rcases List.mem_append.1 hp with h | h
          · exact hpass.2.2.2 p (by simp [h])
          · exact c2 p h

theorem split_at_length (n : Nat) (picks : List Nat) (h : n ≤ picks.length) :
    ∃ a b : List Nat, picks = a ++ b ∧ a.length = n :=
  ⟨picks.take n, picks.drop n, (List.take_append_drop n picks).symm, by
    rw [List.length_take]; omega⟩

/-- The draws numbered `m * n + 1 .. (m + 1) * n` from the start of a pass all
return, and their values are a permutation of `m_selectables`. -/
theorem Ratio.draws_series (n : Nat) (hn : 1 ≤ n) (m : Nat) :
    ∀ (picks : List Nat) (s : Ratio), (m + 1) * n ≤ picks.length →
      s.generatorAtDraw.distribution = seriesWeights n [] →
      s.m_selectables.length = n → s.admissible picks = true →
      ∃ values : List Int,
        (((s.draws picks).1.drop (m * n)).take n) = values.map Outcome.ok ∧
        List.Perm values s.m_selectables := by
  induction m with
  | zero =>
    intro picks s hlen hgen hsel hadm
    obtain ⟨a, b, hab, hla⟩ := split_at_length n picks (by omega)
    subst hab
    rw [Ratio.admissible_append, Bool.and_eq_true] at hadm
    obtain ⟨b1, b2, -, -⟩ := Ratio.draws_block n s a hn hgen hsel hla hadm.1
    refine ⟨a.map (fun (p : Nat) => s.m_selectables.getD p 0), ?_, ?_⟩
    · rw [Ratio.draws_append]
      simp only [Nat.zero_mul, List.drop_zero]
      rw [List.take_left' (by rw [Ratio.draws_length, hla]), b1, List.map_map]
      rfl
    · have := b2.map (fun (p : Nat) => s.m_selectables.getD p 0)
      rw [← hsel, map_getD_range] at this
      exact this
  | succ m ih =>
    intro picks s hlen hgen hsel hadm
    have hmul : (m + 1 + 1) * n = n + (m + 1) * n := by ring
    obtain ⟨a, b, hab, hla⟩ := split_at_length n picks (by omega)
    subst hab
    have hlb : (m + 1) * n ≤ b.length := by
      rw [List.length_append] at hlen; omega
    rw [Ratio.admissible_append, Bool.and_eq_true] at hadm
    obtain ⟨-, -, b3, b4⟩ := Ratio.draws_block n s a hn hgen hsel hla hadm.1
    have hsel2 : (s.draws a).2.m_selectables = s.m_selectables := by rw [b3]
    obtain ⟨values, v1, v2⟩ := ih b (s.draws a).2 hlb b4 (by rw [hsel2]; exact hsel) hadm.2
    refine ⟨values, ?_, by rw [← hsel2]; exact v2⟩
    rw [Ratio.draws_append]
    simp only []
    have hdl : ((s.draws a).1).length = n := by rw [Ratio.draws_length, hla]
    rw [show (m + 1) * n = ((s.draws a).1).length + m * n by rw [hdl]; ring,
      List.drop_append]
    exact v1

/-- How often `offset + i` occurs in the expansion of a ratio list. -/
theorem Ratio.count_expandFrom (offset : Int) (rs : List Int) :
    ∀ j i : Nat, (Ratio.expandFrom offset j rs).count (offset + (i : Int)) =
      if j ≤ i ∧ i < j + rs.length then (rs.getD (i - j) 0).toNat else 0 := by
  induction rs with
  | nil =>
    intro j i
    have : ¬ (j ≤ i ∧ i < j + ([] : List Int).length) := by simp
    rw [if_neg this]; rfl
  | cons r rs ih =>
    intro j i
    simp only [Ratio.expandFrom, List.count_append, List.count_replicate, ih, List.length_cons]
    by_cases hij : i = j
    · subst hij
      simp
    · have h1 : ¬ ((offset + (j : Int) == offset + (i : Int)) = true) := by
        simp only [beq_iff_eq, add_right_inj, Nat.cast_inj]
        exact fun h => hij h.symm
      rw [if_neg h1]
      by_cases hc : j + 1 ≤ i ∧ i < j + 1 + rs.length
      · have hc2 : j ≤ i ∧ i < j + (rs.length + 1) := by omega
        rw [if_pos hc, if_pos hc2]
        have : i - j = (i - (j + 1)) + 1 := by omega
        rw [this]
        simp
      · have hc2 : ¬ (j ≤ i ∧ i < j + (rs.length + 1)) := by omega
        rw [if_neg hc, if_neg hc2]

/-- Every entry of the expansion is `offset + i` for a position `i` of the
ratio list. -/
theorem Ratio.mem_expandFrom (offset : Int) (rs : List Int) :
    ∀ (j : Nat) (v : Int), v ∈ Ratio.expandFrom offset j rs →
      ∃ i : Nat, j ≤ i ∧ i < j + rs.length ∧ v = offset + (i : Int) := by
  induction rs with
  | nil => intro j v hv; simp [Ratio.expandFrom] at hv
  | cons r rs ih =>
    intro j v hv
    simp only [Ratio.expandFrom, List.mem_append] at hv
    rcases hv with h | h
    · exact ⟨j, le_refl j, by simp, (List.eq_of_mem_replicate h)⟩
    · obtain ⟨i, h1, h2, h3⟩ := ih (j + 1) v h
      exact ⟨i, by omega, by simp only [List.length_cons]; omega, h3⟩

/-- The expansion is at least as long as the sum of the ratios. -/
theorem Ratio.sum_le_length_expandFrom (offset : Int) (rs : List Int) :
    ∀ j : Nat, rs.sum ≤ ((Ratio.expandFrom offset j rs).length : Int) := by
  induction rs with
  | nil => intro j; simp [Ratio.expandFrom]
  | cons r rs ih =>
    intro j
    have := ih (j + 1)
    simp only [Ratio.expandFrom, List.sum_cons, List.length_append, List.length_replicate,
      Nat.cast_add]
    have h2 : r ≤ (r.toNat : Int) := Int.self_le_toNat r
    omega

/-- The expansion of non-negative ratios is as long as their sum. -/
theorem Ratio.length_expandFrom (offset : Int) (rs : List Int) :
    ∀ j : Nat, (∀ r ∈ rs, 0 ≤ r) → ((Ratio.expandFrom offset j rs).length : Int) = rs.sum := by
  induction rs with
  | nil => intro j _; simp [Ratio.expandFrom]
  | cons r rs ih =>
    intro j hnn
    have := ih (j + 1) (fun x hx => hnn x (List.mem_cons_of_mem _ hx))
    simp only [Ratio.expandFrom, List.sum_cons, List.length_append, List.length_replicate,
      Nat.cast_add]
    have h2 : (r.toNat : Int) = r := Int.toNat_of_nonneg (hnn r (List.mem_cons_self _ _))
    omega

/-- The state a successful constructor call produces. -/
theorem Ratio.create_eq (range : Range) (ratios : List Int) (s : Ratio)
    (h : Ratio.create range ratios = Outcome.ok s) :
    s = ⟨⟨List.replicate (Ratio.expandFrom range.offset 0 ratios).length 1⟩, range, ratios,
        Ratio.expandFrom range.offset 0 ratios⟩ ∧ (ratios.length : Int) = range.size := by
  unfold Ratio.create Ratio.checkRangeAndRatiosMatch at h
  by_cases hc : range.size = (ratios.length : Int)
  · have h2 : ¬ (range.size ≠ (ratios.length : Int)) := fun hne => hne hc
    rw [if_neg h2] at h
    simp only [Outcome.ok.injEq] at h
    refine ⟨?_, hc.symm⟩
    rw [← h]
    simp [Ratio.initialise, Ratio.setSelectables, DiscreteGenerator.setDistributionVector]
  · have h2 : range.size ≠ (ratios.length : Int) := hc
    rw [if_pos h2] at h
    simp at h

/-- The state a successful `setParams` call produces. -/
theorem Ratio.setParams_eq (s0 : Ratio) (newParams : NumberProtocolConfig) (s : Ratio)
    (h : s0.setParams newParams = (Outcome.ok (), s)) :
    s = ⟨⟨List.replicate
          (Ratio.expandFrom newParams.range.offset 0 newParams.protocols.ratio.ratios).length 1⟩,
        newParams.range, newParams.protocols.ratio.ratios,
        Ratio.expandFrom newParams.range.offset 0 newParams.protocols.ratio.ratios⟩ ∧
      (newParams.protocols.ratio.ratios.length : Int) = newParams.range.size := by
  simp only [Ratio.setParams, Ratio.checkRangeAndRatiosMatch] at h
  by_cases hc : newParams.range.size = (newParams.protocols.ratio.ratios.length : Int)
  · have h2 : ¬ (newParams.range.size ≠ (newParams.protocols.ratio.ratios.length : Int)) :=
      fun hne => hne hc
    rw [if_neg h2] at h
    simp only [Prod.mk.injEq, true_and] at h
    refine ⟨?_, hc.symm⟩
    rw [← h]
    simp [Ratio.setSelectables, DiscreteGenerator.setDistributionVector]
  · have h2 : newParams.range.size ≠ (newParams.protocols.ratio.ratios.length : Int) := hc
    rw [if_pos h2] at h
    simp at h

/-- A Ratio freshly constructed, or freshly configured by `setParams`, with
`(range, ratios)`. -/
theorem Ratio.fresh_eq (range : Range) (ratios : List Int) (s : Ratio)
    (hfresh : Ratio.create range ratios = Outcome.ok s ∨
      ∃ s0 : Ratio,
        s0.setParams ⟨range, NumberProtocolParams.ofRatio ⟨ratios⟩⟩ = (Outcome.ok (), s)) :
    s = ⟨⟨List.replicate (Ratio.expandFrom range.offset 0 ratios).length 1⟩, range, ratios,
        Ratio.expandFrom range.offset 0 ratios⟩ ∧ (ratios.length : Int) = range.size := by
  rcases hfresh with h | ⟨s0, h⟩
  · exact Ratio.create_eq range ratios s h
  · exact Ratio.setParams_eq s0 _ s h

/-- A fresh Ratio with at least one selectable is at the start of a pass. -/
theorem Ratio.fresh_generatorAtDraw (range : Range) (ratios : List Int) (sel : List Int)
    (hpos : 1 ≤ sel.length) :
    (Ratio.generatorAtDraw ⟨⟨List.replicate sel.length 1⟩, range, ratios, sel⟩).distribution
      = seriesWeights sel.length [] :=
  Ratio.generatorAtDraw_of_incomplete _ sel.length [] (seriesWeights_nil sel.length).symm
    (by simpa using hpos)

/-- A generator with a non-empty vector can always draw once the series has
been reset where complete. -/
theorem Ratio.exists_mayDraw (s : Ratio) (h : 0 < s.m_generator.distribution.length) :
    ∃ next : Nat, s.generatorAtDraw.mayDraw next = true := by
  unfold Ratio.generatorAtDraw
  cases hc : SeriesPrinciple.seriesIsComplete s.m_generator with
  | true =>
    refine ⟨0, ?_⟩
    simp only [if_true, SeriesPrinciple.resetSeries, DiscreteGenerator.updateDistributionVectorAll]
    rw [DiscreteGenerator.mayDraw_iff]
    exact ⟨by simpa using h, by simp⟩
  | false =>
    simp only [Bool.false_eq_true, if_false]
    unfold SeriesPrinciple.seriesIsComplete at hc
    by_contra hnone
    have hall : s.m_generator.distribution.all (fun w => w == 0) = true := by
      rw [List.all_eq_true]
      intro x hx
      obtain ⟨j, hj, rfl⟩ := List.getElem_of_mem hx
      by_contra hx0
      apply hnone
      refine ⟨j, (s.m_generator.mayDraw_iff j).2 ⟨hj, ?_⟩⟩
      intro h0
      apply hx0
      rw [h0]; rfl
    rw [hall] at hc
    exact Bool.noConfusion hc

/-! ## Lemmas: protocols owned by a Producer -/

/-- `AdjacentSteps::setParams` with a Range of size at least 2 never throws and
installs the Range, whatever the history of the protocol. -/
theorem AdjacentSteps.setParams_ok (s : AdjacentSteps) (newParams : NumberProtocolConfig)
    (hsize : 2 ≤ newParams.range.size) :
    (s.setParams newParams).1 = Outcome.ok () ∧
      (s.setParams newParams).2.m_range = newParams.range := by
  unfold AdjacentSteps.setParams
  simp only []
  by_cases hc : (s.m_haveRequestedFirstNumber &&
      newParams.range.numberIsInRange s.m_lastReturnedNumber) = true
  · rw [if_pos hc]
    simp only [Bool.and_eq_true, Range.numberIsInRange, decide_eq_true_eq] at hc
    have hsz : newParams.range.size = newParams.range.end_ - newParams.range.start + 1 := rfl
    have hidx : s.m_lastReturnedNumber
        = (((s.m_lastReturnedNumber - newParams.range.start).toNat : Nat) : Int)
          + newParams.range.start := by omega
    have hspec := AdjacentSteps.prepareStepBasedDistribution_spec
      { s with m_range := newParams.range,
               m_generator := s.m_generator.setDistributionVector newParams.range.size 1 }
      (s.m_lastReturnedNumber - newParams.range.start).toNat hsize
      (by simp only [DiscreteGenerator.setDistributionVector, List.length_replicate]; omega)
      (by simp only [DiscreteGenerator.setDistributionVector, List.length_replicate]; omega)
    simp only [] at hspec
    rw [← hidx] at hspec
    rw [hspec]
    exact ⟨rfl, rfl⟩
  · rw [if_neg hc]
    exact ⟨rfl, rfl⟩

/-- The default parameters of a variant carry the variant's tag. -/
theorem NumberProtocolParams.defaultsFor_activeProtocol (t : NumberProtocolType) (range : Range) :
    (NumberProtocolParams.defaultsFor t range).activeProtocol = t := by
  cases t <;> rfl

/-- The default parameters of a variant over a Range pass the validation of
parameters at that Range. -/
theorem RangeProtocol.paramsAreValid_defaultsFor (t : NumberProtocolType) (range : Range)
    (hsize : 0 ≤ range.size) :
    RangeProtocol.paramsAreValid range (NumberProtocolParams.defaultsFor t range) = true := by
  cases t
  case precision =>
    simp only [RangeProtocol.paramsAreValid, NumberProtocolParams.defaultsFor,
      NumberProtocolParams.ofPrecision, List.length_replicate, decide_eq_true_eq]
    omega
  case periodic =>
    simp [RangeProtocol.paramsAreValid, NumberProtocolParams.defaultsFor,
      NumberProtocolParams.ofPeriodic]
  case granularWalk =>
    simp [RangeProtocol.paramsAreValid, NumberProtocolParams.defaultsFor,
      NumberProtocolParams.ofGranularWalk]
  all_goals rfl

/-- Setting the Range of an owned protocol to one of size at least 2 succeeds,
installs the Range with the variant's default parameters over it, and keeps
the variant. -/
theorem NumberProtocol.setRange_spec (p : NumberProtocol) (range : Range)
    (hsize : 2 ≤ range.size) :
    (p.setRange range).1 = Outcome.ok () ∧
      (p.setRange range).2.getParams = ⟨range, p.defaultParams range⟩ ∧
      (p.setRange range).2.type = p.type := by
  cases p with
  | adjacentSteps a =>
    have h := AdjacentSteps.setParams_ok a ⟨range, NumberProtocolParams.ofTag .adjacentSteps⟩ hsize
    simp only [NumberProtocol.setRange, NumberProtocol.setParams, NumberProtocol.defaultParams,
      NumberProtocol.getParams, AdjacentSteps.getParams, NumberProtocol.type,
      NumberProtocolParams.defaultsFor]
    exact ⟨h.1, by rw [h.2], trivial⟩
  | cycle c =>
    simp [NumberProtocol.setRange, NumberProtocol.setParams, NumberProtocol.defaultParams,
      NumberProtocol.getParams, Cycle.setParams, Cycle.getParams, Cycle.create,
      NumberProtocolParams.ofCycle, NumberProtocol.type, NumberProtocolParams.defaultsFor]
  | serial c =>
    simp [NumberProtocol.setRange, NumberProtocol.setParams, NumberProtocol.defaultParams,
      NumberProtocol.getParams, Serial.setParams, Serial.getParams, Serial.create,
      NumberProtocolParams.ofTag, NumberProtocol.type, NumberProtocolParams.defaultsFor]
  | ratio r =>
    have hcheck : Ratio.checkRangeAndRatiosMatch range (List.replicate range.size.toNat 1)
        = Outcome.ok () := by
      unfold Ratio.checkRangeAndRatiosMatch
      rw [if_neg]
      rw [List.length_replicate]
      omega
    simp only [NumberProtocol.setRange, NumberProtocol.setParams, NumberProtocol.defaultParams,
      NumberProtocol.getParams, NumberProtocol.type, NumberProtocolParams.defaultsFor,
      Ratio.setParams, NumberProtocolParams.ofRatio, hcheck, Ratio.getParams,
      Ratio.setSelectables]
    exact ⟨trivial, trivial, trivial⟩
  | noRepetition c =>
    simp [NumberProtocol.setRange, NumberProtocol.setParams, NumberProtocol.defaultParams,
      NumberProtocol.getParams, NoRepetition.setParams, NoRepetition.getParams,
      NoRepetition.create, NumberProtocolParams.ofTag, NumberProtocol.type,
      NumberProtocolParams.defaultsFor]
  | walk c =>
    simp [NumberProtocol.setRange, NumberProtocol.setParams, NumberProtocol.defaultParams,
      NumberProtocol.getParams, Walk.setParams, Walk.getParams, Walk.create,
      NumberProtocolParams.ofWalk, NumberProtocol.type, NumberProtocolParams.defaultsFor]
  | byContract q =>
    have htag := NumberProtocolParams.defaultsFor_activeProtocol q.m_params.activeProtocol range
    have hvalid := RangeProtocol.paramsAreValid_defaultsFor q.m_params.activeProtocol range
      (by omega)
    simp only [NumberProtocol.setRange, NumberProtocol.setParams, NumberProtocol.defaultParams,
      NumberProtocol.getParams, NumberProtocol.type, RangeProtocol.setParams, htag, hvalid,
      ne_eq, not_true_eq_false, if_false, if_true, RangeProtocol.getParams]
    exact ⟨trivial, trivial, trivial⟩

theorem AdjacentSteps.prepareStepBasedDistribution_range (s : AdjacentSteps) (number : Int) :
    (s.prepareStepBasedDistribution number).2.m_range = s.m_range := by
  unfold AdjacentSteps.prepareStepBasedDistribution
  simp only []
  repeat' split
  all_goals rfl

theorem AdjacentSteps.adjacent_step_keeps_range (s : AdjacentSteps) (pick : Nat) :
    (s.getIntegerNumber pick).2.m_range = s.m_range := by
  unfold AdjacentSteps.getIntegerNumber
  cases s.m_generator.getNumber pick with
  | error e => rfl
  | ok generatedNumber =>
    simp only []
    have h := AdjacentSteps.prepareStepBasedDistribution_range
      { s with m_lastReturnedNumber := (generatedNumber : Int) + s.m_range.offset,
               m_haveRequestedFirstNumber := true }
      ((generatedNumber : Int) + s.m_range.offset)
    rcases hx : AdjacentSteps.prepareStepBasedDistribution
      { s with m_lastReturnedNumber := (generatedNumber : Int) + s.m_range.offset,
               m_haveRequestedFirstNumber := true }
      ((generatedNumber : Int) + s.m_range.offset) with ⟨o, s2⟩
    rw [hx] at h
    cases o <;> exact h

/-- A draw keeps the Range of the owned protocol. -/
theorem NumberProtocol.owned_step_keeps_range (p : NumberProtocol) (pick : Nat) :
    (p.getIntegerNumber pick).2.getParams.range = p.getParams.range := by
  cases p with
  | adjacentSteps a =>
    simp only [NumberProtocol.getIntegerNumber, NumberProtocol.getParams, AdjacentSteps.getParams]
    rw [AdjacentSteps.adjacent_step_keeps_range]
  | cycle c =>
    simp only [NumberProtocol.getIntegerNumber, NumberProtocol.getParams, Cycle.getParams,
      Cycle.getIntegerNumber]
    repeat' split
    all_goals rfl
  | serial c =>
    simp only [NumberProtocol.getIntegerNumber, NumberProtocol.getParams, Serial.getParams,
      Serial.getIntegerNumber]
    repeat' split
    all_goals rfl
  | ratio c =>
    simp only [NumberProtocol.getIntegerNumber, NumberProtocol.getParams, Ratio.getParams,
      Ratio.getIntegerNumber]
    repeat' split
    all_goals rfl
  | noRepetition c =>
    simp only [NumberProtocol.getIntegerNumber, NumberProtocol.getParams, NoRepetition.getParams,
      NoRepetition.getIntegerNumber]
    repeat' split
    all_goals rfl
  | walk c =>
    simp only [NumberProtocol.getIntegerNumber, NumberProtocol.getParams, Walk.getParams,
      Walk.getIntegerNumber, Walk.setForNextStep]
    repeat' split
    all_goals rfl
  | byContract c => rfl

/-- The items of a collection are the elements at the indices the owned
protocol produces. -/
theorem CollectionsProducer.items_eq_map_draws {α : Type} (picks : List Nat) :
    ∀ m : CollectionsProducer α,
      (m.getCollection picks).1 = (m.m_protocol.draws picks).1.map
        (CollectionsProducer.itemAt m.m_source m.m_protocol.getParams.range.offset) := by
  induction picks with
  | nil => intro m; rfl
  | cons pick rest ih =>
    intro m
    simp only [CollectionsProducer.getCollection, NumberProtocol.draws, List.map_cons,
      CollectionsProducer.getItem, ih, NumberProtocol.owned_step_keeps_range]

/-- The durations of a collection are the values at the indices the owned
number protocol produces. -/
theorem DurationsProducer.durations_eq_map_draws (picks : List Nat) :
    ∀ m : DurationsProducer,
      (m.getCollection picks).1 = (m.m_numberProtocol.draws picks).1.map
        m.m_durationProtocol.getDuration := by
  induction picks with
  | nil => intro m; rfl
  | cons pick rest ih =>
    intro m
    simp only [DurationsProducer.getCollection, NumberProtocol.draws, List.map_cons,
      DurationsProducer.getDuration, ih]

/-! ## Claims: AdjacentSteps -/

/-- C1: over a Range of size at least 2, when the generator only ever returns
an index whose current weight is non-zero, every `getIntegerNumber` call returns
a value, and each returned value differs from the previously returned one by
exactly 1 (`current == previous + 1` or `current == previous - 1`). -/
theorem AdjacentSteps.consecutive_draws_adjacent (range : Range) (hsize : 2 ≤ range.size)
    (picks : List Nat) (hadm : (AdjacentSteps.create range).admissible picks = true) :
    ∃ values : List Int,
      ((AdjacentSteps.create range).draws picks).1 = values.map Outcome.ok ∧
      values.length = picks.length ∧
      List.Chain' (fun prev cur : Int => cur = prev + 1 ∨ cur = prev - 1) values := by
  have hlen := AdjacentSteps.create_length range hsize
  have hinv := AdjacentSteps.draws_invariant picks (AdjacentSteps.create range) hsize hlen hadm
  refine ⟨picks.map (fun (p : Nat) => (p : Int) + range.start), ?_, by simp, ?_⟩
  · rw [hinv.2.2]
    simp [AdjacentSteps.create, Range.offset]
  · cases picks with
    | nil => exact List.chain'_nil
    | cons p ps =>
      simp only [AdjacentSteps.admissible, Bool.and_eq_true] at hadm
      have hstep := (AdjacentSteps.create range).adjacent_step_spec p hsize hlen hadm.1
      have hr : ((AdjacentSteps.create range).getIntegerNumber p).2.m_range = range := by
        rw [hstep]; rfl
      have hd : ((AdjacentSteps.create range).getIntegerNumber p).2.m_generator.distribution
          = adjacentWeights (AdjacentSteps.create range).m_generator.distribution.length p := by
        rw [hstep]
      have := AdjacentSteps.draws_chain ps ((AdjacentSteps.create range).getIntegerNumber p).2 p
        (by rw [hr]; exact hsize)
        (by rw [hr, hd]; simpa [adjacentWeights_length] using hlen)
        (by rw [hd]; simp [adjacentWeights_length]) hadm.2
      rw [hr] at this
      exact this

/-- Witness for C1: range `[0, 9]`, indices 4, 5, 6, 5, 4, 3. -/
theorem AdjacentSteps.consecutive_draws_adjacent_witness :
    ∃ values : List Int,
      ((AdjacentSteps.create ⟨0, 9⟩).draws [4, 5, 6, 5, 4, 3]).1 = values.map Outcome.ok ∧
      values.length = [4, 5, 6, 5, 4, 3].length ∧
      List.Chain' (fun prev cur : Int => cur = prev + 1 ∨ cur = prev - 1) values :=
  AdjacentSteps.consecutive_draws_adjacent ⟨0, 9⟩ (by decide) [4, 5, 6, 5, 4, 3] (by decide)

/-- C5: over a Range of size at least 2, with the generator returning only
non-zero-weight indices: when the value just returned equals `range.start` the
next returned value is `range.start + 1`, when it equals `range.end` the next
returned value is `range.end - 1`, and in both cases exactly one index has
non-zero weight. -/
theorem AdjacentSteps.boundary_forces_neighbour (range : Range) (hsize : 2 ≤ range.size)
    (picks : List Nat) (pick : Nat)
    (hadm : (AdjacentSteps.create range).admissible picks = true)
    (hpick : ((AdjacentSteps.create range).draws picks).2.m_generator.mayDraw pick = true) :
    ((((AdjacentSteps.create range).draws picks).2.getIntegerNumber pick).1
        = Outcome.ok range.start →
      (∃! next : Nat, ((((AdjacentSteps.create range).draws picks).2.getIntegerNumber
          pick).2.m_generator.mayDraw next = true)) ∧
      ∀ next : Nat, ((((AdjacentSteps.create range).draws picks).2.getIntegerNumber
          pick).2.m_generator.mayDraw next = true) →
        (((((AdjacentSteps.create range).draws picks).2.getIntegerNumber pick).2.getIntegerNumber
          next).1 = Outcome.ok (range.start + 1))) ∧
    ((((AdjacentSteps.create range).draws picks).2.getIntegerNumber pick).1
        = Outcome.ok range.end_ →
      (∃! next : Nat, ((((AdjacentSteps.create range).draws picks).2.getIntegerNumber
          pick).2.m_generator.mayDraw next = true)) ∧
      ∀ next : Nat, ((((AdjacentSteps.create range).draws picks).2.getIntegerNumber
          pick).2.m_generator.mayDraw next = true) →
        (((((AdjacentSteps.create range).draws picks).2.getIntegerNumber pick).2.getIntegerNumber
          next).1 = Outcome.ok (range.end_ - 1))) := by
  have hlen := AdjacentSteps.create_length range hsize
  obtain ⟨hr, hl, -⟩ :=
    AdjacentSteps.draws_invariant picks (AdjacentSteps.create range) hsize hlen hadm
  have hcr : (AdjacentSteps.create range).m_range = range := rfl
  rw [hcr] at hr hl
  generalize ((AdjacentSteps.create range).draws picks).2 = s at hr hl hpick ⊢
  have hsize1 : 2 ≤ s.m_range.size := by rw [hr]; exact hsize
  have hlen1 : (s.m_generator.distribution.length : Int) = s.m_range.size := by rw [hr]; exact hl
  have hstep := s.adjacent_step_spec pick hsize1 hlen1 hpick
  obtain ⟨hplt, -⟩ := (s.m_generator.mayDraw_iff pick).1 hpick
  have hsz : range.size = range.end_ - range.start + 1 := rfl
  rw [hstep, hr]
  simp only [Outcome.ok.injEq]
  have key : ∀ (target : Nat), (∀ q : Nat, (q < s.m_generator.distribution.length ∧
        (q = pick + 1 ∨ q + 1 = pick)) ↔ q = target) →
      (∃! next : Nat, (DiscreteGenerator.mk
          (adjacentWeights s.m_generator.distribution.length pick)).mayDraw next = true) ∧
      ∀ next : Nat, (DiscreteGenerator.mk
          (adjacentWeights s.m_generator.distribution.length pick)).mayDraw next = true →
        ((AdjacentSteps.mk ⟨adjacentWeights s.m_generator.distribution.length pick⟩ range true
          ((pick : Int) + range.start)).getIntegerNumber next).1
          = Outcome.ok ((target : Int) + range.start) := by
    intro target htarget
    constructor
    · refine ⟨target, ?_, ?_⟩
      · exact (mayDraw_adjacentWeights_iff _ _ _).2 ((htarget target).2 rfl)
      · intro y hy
        exact (htarget y).1 ((mayDraw_adjacentWeights_iff _ _ _).1 hy)
    · intro next hnext
      have hq := (htarget next).1 ((mayDraw_adjacentWeights_iff _ _ _).1 hnext)
      subst hq
      have := (AdjacentSteps.mk ⟨adjacentWeights s.m_generator.distribution.length pick⟩ range
        true ((pick : Int) + range.start)).adjacent_step_spec next hsize
        (by simpa [adjacentWeights_length] using hl) hnext
      rw [this]
  constructor
  · intro hstart
    have hp0 : pick = 0 := by omega
    have := key 1 (by intro q; omega)
    simpa [add_comm] using this
  · intro hend
    have hpe : (pick : Int) + 1 = s.m_generator.distribution.length := by omega
    have := key (pick - 1) (by intro q; omega)
    have hcast : (((pick - 1 : Nat) : Int)) + range.start = range.end_ - 1 := by omega
    rw [hcast] at this
    exact this

/-- Witness for C5: range `[0, 9]`.  After the draws 1, 0 the value returned is
the start of the range and the next value is forced to 1; after the draws 8, 9
it is the end of the range and the next value is forced to 8. -/
theorem AdjacentSteps.boundary_forces_neighbour_witness :
    ((∃! next : Nat, ((((AdjacentSteps.create ⟨0, 9⟩).draws [1]).2.getIntegerNumber
          0).2.m_generator.mayDraw next = true)) ∧
      ∀ next : Nat, ((((AdjacentSteps.create ⟨0, 9⟩).draws [1]).2.getIntegerNumber
          0).2.m_generator.mayDraw next = true) →
        (((((AdjacentSteps.create ⟨0, 9⟩).draws [1]).2.getIntegerNumber 0).2.getIntegerNumber
          next).1 = Outcome.ok ((Range.mk 0 9).start + 1))) ∧
    ((∃! next : Nat, ((((AdjacentSteps.create ⟨0, 9⟩).draws [8]).2.getIntegerNumber
          9).2.m_generator.mayDraw next = true)) ∧
      ∀ next : Nat, ((((AdjacentSteps.create ⟨0, 9⟩).draws [8]).2.getIntegerNumber
          9).2.m_generator.mayDraw next = true) →
        (((((AdjacentSteps.create ⟨0, 9⟩).draws [8]).2.getIntegerNumber 9).2.getIntegerNumber
          next).1 = Outcome.ok ((Range.mk 0 9).end_ - 1))) :=
  ⟨(AdjacentSteps.boundary_forces_neighbour ⟨0, 9⟩ (by decide) [1] 0 (by decide)
      (by decide)).1 (by decide),
    (AdjacentSteps.boundary_forces_neighbour ⟨0, 9⟩ (by decide) [8] 9 (by decide)
      (by decide)).2 (by decide)⟩

/-- C6: over a Range of size at least 2, for any number of calls with the
generator returning an index in `[0, size-1]` of non-zero weight, every call of
`getIntegerNumber` returns generator index + `range.offset`, and every returned
value `v` satisfies `range.start <= v <= range.end`. -/
theorem AdjacentSteps.draws_within_range (range : Range) (hsize : 2 ≤ range.size)
    (picks : List Nat) (hadm : (AdjacentSteps.create range).admissible picks = true) :
    ((AdjacentSteps.create range).draws picks).1
        = picks.map (fun (index : Nat) => Outcome.ok ((index : Int) + range.offset)) ∧
      ∀ v : Int, Outcome.ok v ∈ ((AdjacentSteps.create range).draws picks).1 →
        range.start ≤ v ∧ v ≤ range.end_ := by
  have hlen := AdjacentSteps.create_length range hsize
  have hinv := AdjacentSteps.draws_invariant picks (AdjacentSteps.create range) hsize hlen hadm
  have hlt := AdjacentSteps.admissible_lt picks (AdjacentSteps.create range) hsize hlen hadm
  have hcr : (AdjacentSteps.create range).m_range = range := rfl
  rw [hcr] at hinv hlt
  refine ⟨hinv.2.2, ?_⟩
  intro v hv
  rw [hinv.2.2, List.mem_map] at hv
  obtain ⟨p, hp, hpv⟩ := hv
  have h1 := hlt p hp
  have hsz : range.size = range.end_ - range.start + 1 := rfl
  simp only [Outcome.ok.injEq, Range.offset] at hpv
  omega

/-- Witness for C6: range `[3, 6]`, indices 2, 3, 2, 1, 0, 1. -/
theorem AdjacentSteps.draws_within_range_witness :
    ((AdjacentSteps.create ⟨3, 6⟩).draws [2, 3, 2, 1, 0, 1]).1
        = [2, 3, 2, 1, 0, 1].map
            (fun (index : Nat) => Outcome.ok ((index : Int) + (Range.mk 3 6).offset)) ∧
      ∀ v : Int, Outcome.ok v ∈ ((AdjacentSteps.create ⟨3, 6⟩).draws [2, 3, 2, 1, 0, 1]).1 →
        (Range.mk 3 6).start ≤ v ∧ v ≤ (Range.mk 3 6).end_ :=
  AdjacentSteps.draws_within_range ⟨3, 6⟩ (by decide) [2, 3, 2, 1, 0, 1] (by decide)

/-! ## Claims: Ratio validation -/

/-- C3: constructing a Ratio with `(range, ratios)`, and calling
`Ratio::setParams` with a Ratio-tagged parameter set carrying `(range, ratios)`,
fails with an invalid-argument error if and only if `ratios.size()` differs from
`range.size`; when the sizes are equal the operation succeeds. -/
theorem Ratio.fails_iff_size_mismatch (range : Range) (ratios : List Int) (s : Ratio) :
    (Ratio.create range ratios = Outcome.error Error.invalidArgument ↔
        (ratios.length : Int) ≠ range.size) ∧
      ((Ratio.create range ratios).isOk = true ↔ (ratios.length : Int) = range.size) ∧
      ((s.setParams ⟨range, NumberProtocolParams.ofRatio ⟨ratios⟩⟩).1
          = Outcome.error Error.invalidArgument ↔ (ratios.length : Int) ≠ range.size) ∧
      ((s.setParams ⟨range, NumberProtocolParams.ofRatio ⟨ratios⟩⟩).1 = Outcome.ok () ↔
        (ratios.length : Int) = range.size) := by
  unfold Ratio.create Ratio.setParams Ratio.checkRangeAndRatiosMatch
  simp only [NumberProtocolParams.ofRatio]
  by_cases h : range.size = (ratios.length : Int)
  · have h2 : ¬ (range.size ≠ (ratios.length : Int)) := fun hc => hc h
    rw [if_neg h2]
    simp [Outcome.isOk, h]
  · have h2 : range.size ≠ (ratios.length : Int) := h
    have h3 : ¬ ((ratios.length : Int) = range.size) := fun hc => h hc.symm
    rw [if_pos h2]
    simp [Outcome.isOk, h3]

/-- C4: `Ratio::setParams` is all-or-nothing: whenever it fails, the protocol
(range, ratio list, selectables and the generator's distribution vector) is
exactly what it was before the call, so `getParams` and every sequence of
subsequent draws are unaffected by the failed call. -/
theorem Ratio.setParams_all_or_nothing (s : Ratio) (newParams : NumberProtocolConfig)
    (e : Error) (hfail : (s.setParams newParams).1 = Outcome.error e) :
    (s.setParams newParams).2 = s ∧
      (s.setParams newParams).2.getParams = s.getParams ∧
      ∀ picks : List Nat, (s.setParams newParams).2.draws picks = s.draws picks := by
  have hs : (s.setParams newParams).2 = s := by
    simp only [Ratio.setParams] at hfail ⊢
    cases hc : Ratio.checkRangeAndRatiosMatch newParams.range newParams.protocols.ratio.ratios with
    | ok u => rw [hc] at hfail; simp at hfail
    | error e2 => rfl
  refine ⟨hs, ?_, ?_⟩
  · rw [hs]
  · intro picks; rw [hs]

/-- Witness for C4: a default Ratio (range `[0, 1]`) in the middle of a series
is given three ratios. -/
theorem Ratio.setParams_all_or_nothing_witness :
    ((Ratio.createDefault.draws [1]).2.setParams
        ⟨⟨0, 1⟩, NumberProtocolParams.ofRatio ⟨[3, 1, 2]⟩⟩).2 = (Ratio.createDefault.draws [1]).2 ∧
      ((Ratio.createDefault.draws [1]).2.setParams
        ⟨⟨0, 1⟩, NumberProtocolParams.ofRatio ⟨[3, 1, 2]⟩⟩).2.getParams
          = (Ratio.createDefault.draws [1]).2.getParams ∧
      ∀ picks : List Nat,
        ((Ratio.createDefault.draws [1]).2.setParams
          ⟨⟨0, 1⟩, NumberProtocolParams.ofRatio ⟨[3, 1, 2]⟩⟩).2.draws picks
          = (Ratio.createDefault.draws [1]).2.draws picks :=
  Ratio.setParams_all_or_nothing (Ratio.createDefault.draws [1]).2
    ⟨⟨0, 1⟩, NumberProtocolParams.ofRatio ⟨[3, 1, 2]⟩⟩ Error.invalidArgument (by decide)

/-! ## Claims: Ratio series -/

/-- C2: for a Range of size `k`, a ratio list of length `k` with non-negative
entries and sum `S >= 1`, and every `m`: in a Ratio freshly constructed (or
freshly configured by `setParams`) with these ratios, the draws numbered
`m*S+1 .. (m+1)*S` of `getIntegerNumber` all return, and they contain the value
`range.start + i` exactly `ratios[i]` times, for every `i` in `0..k-1`. -/
theorem Ratio.series_counts_match_ratios (range : Range) (ratios : List Int) (s : Ratio)
    (S m : Nat) (picks : List Nat)
    (hfresh : Ratio.create range ratios = Outcome.ok s ∨
      ∃ s0 : Ratio,
        s0.setParams ⟨range, NumberProtocolParams.ofRatio ⟨ratios⟩⟩ = (Outcome.ok (), s))
    (hnonneg : ∀ r ∈ ratios, 0 ≤ r) (hsum : (S : Int) = ratios.sum) (hS : 1 ≤ S)
    (hpicks : (m + 1) * S ≤ picks.length) (hadm : s.admissible picks = true) :
    ∃ values : List Int,
      (((s.draws picks).1.drop (m * S)).take S) = values.map Outcome.ok ∧
      ∀ (i : Nat) (hi : i < ratios.length),
        ((values.count (range.start + (i : Int)) : Nat) : Int) = ratios[i] := by
  obtain ⟨hs, -⟩ := Ratio.fresh_eq range ratios s hfresh
  have hlenS : (Ratio.expandFrom range.offset 0 ratios).length = S := by
    have := Ratio.length_expandFrom range.offset ratios 0 hnonneg
    omega
  have hsel : s.m_selectables.length = S := by rw [hs]; exact hlenS
  have hgen : s.generatorAtDraw.distribution = seriesWeights S [] := by
    rw [hs, ← hlenS]
    exact Ratio.fresh_generatorAtDraw range ratios _ (by rw [hlenS]; exact hS)
  obtain ⟨values, hv1, hv2⟩ := Ratio.draws_series S hS m picks s hpicks hgen hsel hadm
  refine ⟨values, hv1, ?_⟩
  intro i hi
  rw [hv2.count_eq, hs]
  simp only []
  have := Ratio.count_expandFrom range.offset ratios 0 i
  simp only [Range.offset] at this ⊢
  rw [this, if_pos ⟨Nat.zero_le i, by simpa using hi⟩, Nat.sub_zero, List.getD_eq_getElem _ _ hi]
  exact Int.toNat_of_nonneg (hnonneg _ (List.getElem_mem hi))

/-- Witness for C2: ratios `[3, 1, 2]` over the range `[0, 2]`; the second
series of 6 draws. -/
theorem Ratio.series_counts_match_ratios_witness :
    ∃ values : List Int,
      ((((Ratio.mk ⟨[1, 1, 1, 1, 1, 1]⟩ ⟨0, 2⟩ [3, 1, 2] [0, 0, 0, 1, 2, 2]).draws
          [5, 0, 3, 1, 2, 4, 2, 3, 0, 5, 4, 1]).1.drop (1 * 6)).take 6)
        = values.map Outcome.ok ∧
      ∀ (i : Nat) (hi : i < [(3 : Int), 1, 2].length),
        ((values.count ((Range.mk 0 2).start + (i : Int)) : Nat) : Int) = [(3 : Int), 1, 2][i] :=
  Ratio.series_counts_match_ratios ⟨0, 2⟩ [3, 1, 2]
    (Ratio.mk ⟨[1, 1, 1, 1, 1, 1]⟩ ⟨0, 2⟩ [3, 1, 2] [0, 0, 0, 1, 2, 2]) 6 1
    [5, 0, 3, 1, 2, 4, 2, 3, 0, 5, 4, 1] (Or.inl (by decide)) (by decide) (by decide)
    (by decide) (by decide) (by decide)

/-- C7: for a Ratio whose ratio list length equals its Range size (freshly
constructed or configured) and whose ratio sum is at least 1, over any number
of draws: the index taken from the series is a position of the selectables
list (which the draws leave unchanged), every call returns, every returned
value lies in `[range.start, range.end]`, and a further draw is defined. -/
theorem Ratio.draws_in_range_index_in_bounds (range : Range) (ratios : List Int) (s : Ratio)
    (picks : List Nat)
    (hfresh : Ratio.create range ratios = Outcome.ok s ∨
      ∃ s0 : Ratio,
        s0.setParams ⟨range, NumberProtocolParams.ofRatio ⟨ratios⟩⟩ = (Outcome.ok (), s))
    (hsum : 1 ≤ ratios.sum) (hadm : s.admissible picks = true) :
    (∀ index ∈ picks, index < s.m_selectables.length) ∧
      (s.draws picks).2.m_selectables = s.m_selectables ∧
      (∃ values : List Int, (s.draws picks).1 = values.map Outcome.ok ∧
        ∀ v ∈ values, range.start ≤ v ∧ v ≤ range.end_) ∧
      ∃ next : Nat, (s.draws picks).2.generatorAtDraw.mayDraw next = true := by
  obtain ⟨hs, hsize⟩ := Ratio.fresh_eq range ratios s hfresh
  have hpos : 1 ≤ (Ratio.expandFrom range.offset 0 ratios).length := by
    have := Ratio.sum_le_length_expandFrom range.offset ratios 0
    omega
  have hsel : s.m_selectables = Ratio.expandFrom range.offset 0 ratios := by rw [hs]
  have hgen : s.generatorAtDraw.distribution
      = seriesWeights (Ratio.expandFrom range.offset 0 ratios).length [] := by
    rw [hs]
    exact Ratio.fresh_generatorAtDraw range ratios _ hpos
  obtain ⟨g1, g2, g3, -, -, g6⟩ := Ratio.draws_general _ hpos picks.length picks s (le_refl _) hgen
    (by rw [hs]; simp) (by rw [hsel]) hadm
  refine ⟨by rw [hsel]; exact g2, g3, ?_, Ratio.exists_mayDraw _ (by rw [g6]; exact hpos)⟩
  refine ⟨picks.map (fun (p : Nat) => s.m_selectables.getD p 0), ?_, ?_⟩
  · rw [g1, List.map_map]; rfl
  · intro v hv
    obtain ⟨p, hp, rfl⟩ := List.mem_map.1 hv
    have hp2 : p < s.m_selectables.length := by rw [hsel]; exact g2 p hp
    rw [List.getD_eq_getElem _ _ hp2]
    have hmem : s.m_selectables[p] ∈ Ratio.expandFrom range.offset 0 ratios := by
      rw [← hsel]; exact List.getElem_mem hp2
    obtain ⟨i, -, hi, hv⟩ := Ratio.mem_expandFrom range.offset ratios 0 _ hmem
    have hsz : range.size = range.end_ - range.start + 1 := rfl
    rw [hv]
    simp only [Range.offset]
    omega

/-- Witness for C7: ratios `[5, -4]` (sum 1) over the range `[7, 8]`. -/
theorem Ratio.draws_in_range_index_in_bounds_witness :
    (∀ index ∈ [2, 0, 4, 1, 3, 1],
        index < (Ratio.mk ⟨[1, 1, 1, 1, 1]⟩ ⟨7, 8⟩ [5, -4] [7, 7, 7, 7, 7]).m_selectables.length) ∧
      ((Ratio.mk ⟨[1, 1, 1, 1, 1]⟩ ⟨7, 8⟩ [5, -4] [7, 7, 7, 7, 7]).draws
          [2, 0, 4, 1, 3, 1]).2.m_selectables
        = (Ratio.mk ⟨[1, 1, 1, 1, 1]⟩ ⟨7, 8⟩ [5, -4] [7, 7, 7, 7, 7]).m_selectables ∧
      (∃ values : List Int,
        ((Ratio.mk ⟨[1, 1, 1, 1, 1]⟩ ⟨7, 8⟩ [5, -4] [7, 7, 7, 7, 7]).draws
          [2, 0, 4, 1, 3, 1]).1 = values.map Outcome.ok ∧
        ∀ v ∈ values, (Range.mk 7 8).start ≤ v ∧ v ≤ (Range.mk 7 8).end_) ∧
      ∃ next : Nat,
        ((Ratio.mk ⟨[1, 1, 1, 1, 1]⟩ ⟨7, 8⟩ [5, -4] [7, 7, 7, 7, 7]).draws
          [2, 0, 4, 1, 3, 1]).2.generatorAtDraw.mayDraw next = true :=
  Ratio.draws_in_range_index_in_bounds ⟨7, 8⟩ [5, -4]
    (Ratio.mk ⟨[1, 1, 1, 1, 1]⟩ ⟨7, 8⟩ [5, -4] [7, 7, 7, 7, 7]) [2, 0, 4, 1, 3, 1]
    (Or.inl (by decide)) (by decide) (by decide)

/-! ## Claims: Producer -/

/-- C8: constructing a CollectionsProducer with a source collection of size 0
or 1 fails with an invalid-argument error, and constructing it with a source of
any size of at least 2 succeeds, the result holding that source. -/
theorem CollectionsProducer.create_validates_source_size {α : Type} (source : List α)
    (protocol : NumberProtocol) :
    (source.length < 2 →
        CollectionsProducer.create source protocol = Outcome.error Error.invalidArgument) ∧
      (2 ≤ source.length →
        ∃ m : CollectionsProducer α,
          CollectionsProducer.create source protocol = Outcome.ok m ∧ m.m_source = source) := by
  constructor
  · intro h
    unfold CollectionsProducer.create
    rw [if_pos h]
  · intro h
    unfold CollectionsProducer.create
    rw [if_neg (by omega)]
    have hspec := NumberProtocol.setRange_spec protocol ⟨0, (source.length : Int) - 1⟩
      (by simp only [Range.size]; omega)
    rcases hx : protocol.setRange ⟨0, (source.length : Int) - 1⟩ with ⟨o, q⟩
    rw [hx] at hspec
    cases o with
    | ok u => exact ⟨⟨source, q⟩, rfl, rfl⟩
    | error e => exact absurd hspec.1 (by simp)

/-- Witness for C8: the sources `{}`, `{'a'}` and `{'a', 'b'}` of the test with
its Basic protocol, and a source of three items with a Ratio, whose ratios
become one per item. -/
theorem CollectionsProducer.create_validates_source_size_witness :
    CollectionsProducer.create ([] : List Char) (NumberProtocol.create .basic)
        = Outcome.error Error.invalidArgument ∧
      CollectionsProducer.create ['a'] (NumberProtocol.create .basic)
        = Outcome.error Error.invalidArgument ∧
      (∃ m : CollectionsProducer Char,
        CollectionsProducer.create ['a', 'b'] (NumberProtocol.create .basic) = Outcome.ok m ∧
          m.m_source = ['a', 'b']) ∧
      (∃ m : CollectionsProducer Char,
        CollectionsProducer.create ['a', 'b', 'c'] (NumberProtocol.create .ratio) = Outcome.ok m ∧
          m.m_source = ['a', 'b', 'c']) ∧
      CollectionsProducer.create ['a', 'b', 'c'] (NumberProtocol.create .ratio)
        = Outcome.ok (CollectionsProducer.mk ['a', 'b', 'c']
            (.ratio (Ratio.mk ⟨[1, 1, 1]⟩ ⟨0, 2⟩ [1, 1, 1] [0, 1, 2]))) :=
  ⟨(CollectionsProducer.create_validates_source_size [] (NumberProtocol.create .basic)).1
      (by decide),
    (CollectionsProducer.create_validates_source_size ['a'] (NumberProtocol.create .basic)).1
      (by decide),
    (CollectionsProducer.create_validates_source_size ['a', 'b'] (NumberProtocol.create .basic)).2
      (by decide),
    (CollectionsProducer.create_validates_source_size ['a', 'b', 'c']
      (NumberProtocol.create .ratio)).2 (by decide),
    by decide⟩

/-- C9: when `setSource` (or `DurationsProducer::setDurationProtocol`) is given
a valid target whose size differs from the current target's size, the call
succeeds, the owned protocol's Range becomes `[0, newSize-1]` and its
parameters become that variant's defaults over the new Range, whatever
parameters were set before. -/
theorem CollectionsProducer.setSource_size_change_resets {α : Type}
    (m : CollectionsProducer α) (newSource : List α) (d : DurationsProducer)
    (newDurationProtocol : DurationProtocol)
    (hvalid : 2 ≤ newSource.length) (hdiff : newSource.length ≠ m.m_source.length)
    (hvalidD : 2 ≤ newDurationProtocol.getCollectionSize)
    (hdiffD : newDurationProtocol.getCollectionSize ≠ d.m_durationProtocol.getCollectionSize) :
    ((m.setSource newSource).1 = Outcome.ok () ∧
      (m.setSource newSource).2.m_source = newSource ∧
      (m.setSource newSource).2.m_protocol.getParams
        = ⟨⟨0, (newSource.length : Int) - 1⟩,
            m.m_protocol.defaultParams ⟨0, (newSource.length : Int) - 1⟩⟩ ∧
      (m.setSource newSource).2.getParams
        = m.m_protocol.defaultParams ⟨0, (newSource.length : Int) - 1⟩) ∧
    ((d.setDurationProtocol newDurationProtocol).1 = Outcome.ok () ∧
      (d.setDurationProtocol newDurationProtocol).2.m_durationProtocol = newDurationProtocol ∧
      (d.setDurationProtocol newDurationProtocol).2.m_numberProtocol.getParams
        = ⟨⟨0, (newDurationProtocol.getCollectionSize : Int) - 1⟩,
            d.m_numberProtocol.defaultParams
              ⟨0, (newDurationProtocol.getCollectionSize : Int) - 1⟩⟩ ∧
      (d.setDurationProtocol newDurationProtocol).2.getParams
        = d.m_numberProtocol.defaultParams
            ⟨0, (newDurationProtocol.getCollectionSize : Int) - 1⟩) := by
  constructor
  · have hspec := NumberProtocol.setRange_spec m.m_protocol ⟨0, (newSource.length : Int) - 1⟩
      (by simp only [Range.size]; omega)
    unfold CollectionsProducer.setSource
    rw [if_neg (by omega), if_neg hdiff]
    simp only [CollectionsProducer.getParams]
    exact ⟨hspec.1, trivial, hspec.2.1, by rw [hspec.2.1]⟩
  · have hspec := NumberProtocol.setRange_spec d.m_numberProtocol
      ⟨0, (newDurationProtocol.getCollectionSize : Int) - 1⟩ (by simp only [Range.size]; omega)
    unfold DurationsProducer.setDurationProtocol
    rw [if_neg (by omega), if_neg hdiffD]
    simp only [DurationsProducer.getParams]
    exact ⟨hspec.1, trivial, hspec.2.1, by rw [hspec.2.1]⟩

/-- Witness for C9: a Cycle set to bidirectional and reverse over
`['a','b','c']` (built as in the test), after `setSource(['d','e','f','g'])`,
reports `bidirectional=false`, `reverseDirection=false` and emits
d,e,f,g,d,e,f,g; likewise durations `{1,2,3}` replaced by the multiples of 10
over `[1, 5]`; and a Ratio set to the ratios 3, 1, 2 over `['a','b','c']` has
the ratios 1, 1, 1, 1 after `setSource(['d','e','f','g'])`. -/
theorem CollectionsProducer.setSource_size_change_resets_witness :
    (((CollectionsProducer.mk ['a', 'b', 'c'] (.cycle (Cycle.create ⟨0, 2⟩ true true))).setSource
          ['d', 'e', 'f', 'g']).1 = Outcome.ok () ∧
      ((CollectionsProducer.mk ['a', 'b', 'c'] (.cycle (Cycle.create ⟨0, 2⟩ true true))).setSource
          ['d', 'e', 'f', 'g']).2.m_source = ['d', 'e', 'f', 'g'] ∧
      ((CollectionsProducer.mk ['a', 'b', 'c'] (.cycle (Cycle.create ⟨0, 2⟩ true true))).setSource
          ['d', 'e', 'f', 'g']).2.m_protocol.getParams
        = ⟨⟨0, ((['d', 'e', 'f', 'g'].length : Nat) : Int) - 1⟩,
            (NumberProtocol.cycle (Cycle.create ⟨0, 2⟩ true true)).defaultParams
              ⟨0, ((['d', 'e', 'f', 'g'].length : Nat) : Int) - 1⟩⟩ ∧
      ((CollectionsProducer.mk ['a', 'b', 'c'] (.cycle (Cycle.create ⟨0, 2⟩ true true))).setSource
          ['d', 'e', 'f', 'g']).2.getParams
        = (NumberProtocol.cycle (Cycle.create ⟨0, 2⟩ true true)).defaultParams
            ⟨0, ((['d', 'e', 'f', 'g'].length : Nat) : Int) - 1⟩) ∧
    (((DurationsProducer.mk (.prescribed [1, 2, 3])
          (.cycle (Cycle.create ⟨0, 2⟩ true true))).setDurationProtocol
            (.multiples 10 ⟨1, 5⟩)).1 = Outcome.ok () ∧
      ((DurationsProducer.mk (.prescribed [1, 2, 3])
          (.cycle (Cycle.create ⟨0, 2⟩ true true))).setDurationProtocol
            (.multiples 10 ⟨1, 5⟩)).2.m_durationProtocol = .multiples 10 ⟨1, 5⟩ ∧
      ((DurationsProducer.mk (.prescribed [1, 2, 3])
          (.cycle (Cycle.create ⟨0, 2⟩ true true))).setDurationProtocol
            (.multiples 10 ⟨1, 5⟩)).2.m_numberProtocol.getParams
        = ⟨⟨0, (((DurationProtocol.multiples 10 ⟨1, 5⟩).getCollectionSize : Nat) : Int) - 1⟩,
            (NumberProtocol.cycle (Cycle.create ⟨0, 2⟩ true true)).defaultParams
              ⟨0, (((DurationProtocol.multiples 10 ⟨1, 5⟩).getCollectionSize : Nat) : Int) - 1⟩⟩ ∧
      ((DurationsProducer.mk (.prescribed [1, 2, 3])
          (.cycle (Cycle.create ⟨0, 2⟩ true true))).setDurationProtocol
            (.multiples 10 ⟨1, 5⟩)).2.getParams
        = (NumberProtocol.cycle (Cycle.create ⟨0, 2⟩ true true)).defaultParams
            ⟨0, (((DurationProtocol.multiples 10 ⟨1, 5⟩).getCollectionSize : Nat) : Int) - 1⟩) ∧
    (∃ m0 : CollectionsProducer Char,
      CollectionsProducer.create ['a', 'b', 'c'] NumberProtocol.createCycle = Outcome.ok m0 ∧
      m0.setParams (NumberProtocolParams.ofCycle ⟨true, true⟩)
        = (Outcome.ok (),
            CollectionsProducer.mk ['a', 'b', 'c'] (.cycle (Cycle.create ⟨0, 2⟩ true true)))) ∧
    ((CollectionsProducer.mk ['a', 'b', 'c'] (.cycle (Cycle.create ⟨0, 2⟩ true true))).setSource
        ['d', 'e', 'f', 'g']).2.getParams.cycle = ⟨false, false⟩ ∧
    (((CollectionsProducer.mk ['a', 'b', 'c'] (.cycle (Cycle.create ⟨0, 2⟩ true true))).setSource
        ['d', 'e', 'f', 'g']).2.getCollection [0, 0, 0, 0, 0, 0, 0, 0]).1
      = [.ok 'd', .ok 'e', .ok 'f', .ok 'g', .ok 'd', .ok 'e', .ok 'f', .ok 'g'] ∧
    (((DurationsProducer.mk (.prescribed [1, 2, 3])
        (.cycle (Cycle.create ⟨0, 2⟩ true true))).setDurationProtocol
          (.multiples 10 ⟨1, 5⟩)).2.getCollection [0, 0, 0, 0, 0, 0, 0, 0, 0, 0]).1
      = [.ok 10, .ok 20, .ok 30, .ok 40, .ok 50, .ok 10, .ok 20, .ok 30, .ok 40, .ok 50] ∧
    (∃ m0 : CollectionsProducer Char,
      CollectionsProducer.create ['a', 'b', 'c'] (NumberProtocol.create .ratio) = Outcome.ok m0 ∧
      m0.setParams (NumberProtocolParams.ofRatio ⟨[3, 1, 2]⟩)
        = (Outcome.ok (),
            CollectionsProducer.mk ['a', 'b', 'c']
              (.ratio (Ratio.mk ⟨[1, 1, 1, 1, 1, 1]⟩ ⟨0, 2⟩ [3, 1, 2] [0, 0, 0, 1, 2, 2])))) ∧
    (CollectionsProducer.mk ['a', 'b', 'c']
        (.ratio (Ratio.mk ⟨[1, 1, 1, 1, 1, 1]⟩ ⟨0, 2⟩ [3, 1, 2] [0, 0, 0, 1, 2, 2]))).setSource
          ['d', 'e', 'f', 'g']
      = (Outcome.ok (),
          CollectionsProducer.mk ['d', 'e', 'f', 'g']
            (.ratio (Ratio.mk ⟨[1, 1, 1, 1]⟩ ⟨0, 3⟩ [1, 1, 1, 1] [0, 1, 2, 3]))) :=
  ⟨(CollectionsProducer.setSource_size_change_resets
      (CollectionsProducer.mk ['a', 'b', 'c'] (.cycle (Cycle.create ⟨0, 2⟩ true true)))
      ['d', 'e', 'f', 'g']
      (DurationsProducer.mk (.prescribed [1, 2, 3]) (.cycle (Cycle.create ⟨0, 2⟩ true true)))
      (.multiples 10 ⟨1, 5⟩) (by decide) (by decide) (by decide) (by decide)).1,
    (CollectionsProducer.setSource_size_change_resets
      (CollectionsProducer.mk ['a', 'b', 'c'] (.cycle (Cycle.create ⟨0, 2⟩ true true)))
      ['d', 'e', 'f', 'g']
      (DurationsProducer.mk (.prescribed [1, 2, 3]) (.cycle (Cycle.create ⟨0, 2⟩ true true)))
      (.multiples 10 ⟨1, 5⟩) (by decide) (by decide) (by decide) (by decide)).2,
    ⟨CollectionsProducer.mk ['a', 'b', 'c'] (.cycle (Cycle.create ⟨0, 2⟩ false false)),
      by decide, by decide⟩,
    by decide, by decide, by decide,
    ⟨CollectionsProducer.mk ['a', 'b', 'c']
        (.ratio (Ratio.mk ⟨[1, 1, 1]⟩ ⟨0, 2⟩ [1, 1, 1] [0, 1, 2])),
      by decide, by decide⟩,
    by decide⟩

/-- C10: when `setSource` (or `DurationsProducer::setDurationProtocol`) is given
a valid target of the same size as the current one, the call succeeds, the
owned protocol and the parameters returned by `getParams` are unchanged, and
the subsequent items are the new target's elements at the indices the protocol
would have produced anyway. -/
theorem CollectionsProducer.setSource_same_size_preserves {α : Type}
    (m : CollectionsProducer α) (newSource : List α) (d : DurationsProducer)
    (newDurationProtocol : DurationProtocol)
    (hvalid : 2 ≤ newSource.length) (hsame : newSource.length = m.m_source.length)
    (hvalidD : 2 ≤ newDurationProtocol.getCollectionSize)
    (hsameD : newDurationProtocol.getCollectionSize = d.m_durationProtocol.getCollectionSize) :
    ((m.setSource newSource).1 = Outcome.ok () ∧
      (m.setSource newSource).2.m_source = newSource ∧
      (m.setSource newSource).2.m_protocol = m.m_protocol ∧
      (m.setSource newSource).2.getParams = m.getParams ∧
      ∀ picks : List Nat,
        ((m.setSource newSource).2.getCollection picks).1
          = (m.m_protocol.draws picks).1.map
              (CollectionsProducer.itemAt newSource m.m_protocol.getParams.range.offset)) ∧
    ((d.setDurationProtocol newDurationProtocol).1 = Outcome.ok () ∧
      (d.setDurationProtocol newDurationProtocol).2.m_durationProtocol = newDurationProtocol ∧
      (d.setDurationProtocol newDurationProtocol).2.m_numberProtocol = d.m_numberProtocol ∧
      (d.setDurationProtocol newDurationProtocol).2.getParams = d.getParams ∧
      ∀ picks : List Nat,
        ((d.setDurationProtocol newDurationProtocol).2.getCollection picks).1
          = (d.m_numberProtocol.draws picks).1.map newDurationProtocol.getDuration) := by
  constructor
  · have hs : m.setSource newSource = (Outcome.ok (), { m with m_source := newSource }) := by
      unfold CollectionsProducer.setSource
      rw [if_neg (by omega), if_pos hsame]
    rw [hs]
    refine ⟨rfl, rfl, rfl, rfl, ?_⟩
    intro picks
    exact CollectionsProducer.items_eq_map_draws picks _
  · have hs : d.setDurationProtocol newDurationProtocol
        = (Outcome.ok (), { d with m_durationProtocol := newDurationProtocol }) := by
      unfold DurationsProducer.setDurationProtocol
      rw [if_neg (by omega), if_pos hsameD]
    rw [hs]
    refine ⟨rfl, rfl, rfl, rfl, ?_⟩
    intro picks
    exact DurationsProducer.durations_eq_map_draws picks _

/-- Witness for C10: a reverse bidirectional Cycle over `['a','b','c']`, after
`setSource(['x','y','z'])`, emits z,y,x,y,z with `bidirectional=true`,
`reverseDirection=true`; likewise durations `{1,2,3}` replaced by the multiples
of 10 over `[1, 3]` give 30,20,10,20,30. -/
theorem CollectionsProducer.setSource_same_size_preserves_witness :
    (((CollectionsProducer.mk ['a', 'b', 'c'] (.cycle (Cycle.create ⟨0, 2⟩ true true))).setSource
          ['x', 'y', 'z']).1 = Outcome.ok () ∧
      ((CollectionsProducer.mk ['a', 'b', 'c'] (.cycle (Cycle.create ⟨0, 2⟩ true true))).setSource
          ['x', 'y', 'z']).2.m_source = ['x', 'y', 'z'] ∧
      ((CollectionsProducer.mk ['a', 'b', 'c'] (.cycle (Cycle.create ⟨0, 2⟩ true true))).setSource
          ['x', 'y', 'z']).2.m_protocol = .cycle (Cycle.create ⟨0, 2⟩ true true) ∧
      ((CollectionsProducer.mk ['a', 'b', 'c'] (.cycle (Cycle.create ⟨0, 2⟩ true true))).setSource
          ['x', 'y', 'z']).2.getParams
        = (CollectionsProducer.mk ['a', 'b', 'c']
            (.cycle (Cycle.create ⟨0, 2⟩ true true))).getParams ∧
      ∀ picks : List Nat,
        (((CollectionsProducer.mk ['a', 'b', 'c']
            (.cycle (Cycle.create ⟨0, 2⟩ true true))).setSource
              ['x', 'y', 'z']).2.getCollection picks).1
          = ((NumberProtocol.cycle (Cycle.create ⟨0, 2⟩ true true)).draws picks).1.map
              (CollectionsProducer.itemAt ['x', 'y', 'z']
                (NumberProtocol.cycle
                  (Cycle.create ⟨0, 2⟩ true true)).getParams.range.offset)) ∧
    (((DurationsProducer.mk (.prescribed [1, 2, 3])
          (.cycle (Cycle.create ⟨0, 2⟩ true true))).setDurationProtocol
            (.multiples 10 ⟨1, 3⟩)).1 = Outcome.ok () ∧
      ((DurationsProducer.mk (.prescribed [1, 2, 3])
          (.cycle (Cycle.create ⟨0, 2⟩ true true))).setDurationProtocol
            (.multiples 10 ⟨1, 3⟩)).2.m_durationProtocol = .multiples 10 ⟨1, 3⟩ ∧
      ((DurationsProducer.mk (.prescribed [1, 2, 3])
          (.cycle (Cycle.create ⟨0, 2⟩ true true))).setDurationProtocol
            (.multiples 10 ⟨1, 3⟩)).2.m_numberProtocol = .cycle (Cycle.create ⟨0, 2⟩ true true) ∧
      ((DurationsProducer.mk (.prescribed [1, 2, 3])
          (.cycle (Cycle.create ⟨0, 2⟩ true true))).setDurationProtocol
            (.multiples 10 ⟨1, 3⟩)).2.getParams
        = (DurationsProducer.mk (.prescribed [1, 2, 3])
            (.cycle (Cycle.create ⟨0, 2⟩ true true))).getParams ∧
      ∀ picks : List Nat,
        (((DurationsProducer.mk (.prescribed [1, 2, 3])
            (.cycle (Cycle.create ⟨0, 2⟩ true true))).setDurationProtocol
              (.multiples 10 ⟨1, 3⟩)).2.getCollection picks).1
          = ((NumberProtocol.cycle (Cycle.create ⟨0, 2⟩ true true)).draws picks).1.map
              (DurationProtocol.multiples 10 ⟨1, 3⟩).getDuration) ∧
    ((CollectionsProducer.mk ['a', 'b', 'c'] (.cycle (Cycle.create ⟨0, 2⟩ true true))).setSource
        ['x', 'y', 'z']).2.getParams.cycle = ⟨true, true⟩ ∧
    (((CollectionsProducer.mk ['a', 'b', 'c'] (.cycle (Cycle.create ⟨0, 2⟩ true true))).setSource
        ['x', 'y', 'z']).2.getCollection [0, 0, 0, 0, 0]).1
      = [.ok 'z', .ok 'y', .ok 'x', .ok 'y', .ok 'z'] ∧
    (((DurationsProducer.mk (.prescribed [1, 2, 3])
        (.cycle (Cycle.create ⟨0, 2⟩ true true))).setDurationProtocol
          (.multiples 10 ⟨1, 3⟩)).2.getCollection [0, 0, 0, 0, 0]).1
      = [.ok 30, .ok 20, .ok 10, .ok 20, .ok 30] :=
  ⟨(CollectionsProducer.setSource_same_size_preserves
      (CollectionsProducer.mk ['a', 'b', 'c'] (.cycle (Cycle.create ⟨0, 2⟩ true true)))
      ['x', 'y', 'z']
      (DurationsProducer.mk (.prescribed [1, 2, 3]) (.cycle (Cycle.create ⟨0, 2⟩ true true)))
      (.multiples 10 ⟨1, 3⟩) (by decide) (by decide) (by decide) (by decide)).1,
    (CollectionsProducer.setSource_same_size_preserves
      (CollectionsProducer.mk ['a', 'b', 'c'] (.cycle (Cycle.create ⟨0, 2⟩ true true)))
      ['x', 'y', 'z']
      (DurationsProducer.mk (.prescribed [1, 2, 3]) (.cycle (Cycle.create ⟨0, 2⟩ true true)))
      (.multiples 10 ⟨1, 3⟩) (by decide) (by decide) (by decide) (by decide)).2,
    by decide, by decide, by decide⟩

/-! ## Lemmas: AdjacentSteps reconfiguration -/

theorem DiscreteGenerator.updateDistributionVector_length (g g1 : DiscreteGenerator)
    (index : Int) (w : Nat) (h : g.updateDistributionVector index w = Outcome.ok g1) :
    g1.distribution.length = g.distribution.length := by
  unfold DiscreteGenerator.updateDistributionVector at h
  split at h
  · simp only [Outcome.ok.injEq] at h
    rw [← h]
    simp
  · simp at h

/-- An update of one entry fails only with `outOfRange`. -/
theorem DiscreteGenerator.updateDistributionVector_error (g : DiscreteGenerator)
    (index : Int) (w : Nat) (e : Error) (h : g.updateDistributionVector index w = Outcome.error e) :
    e = Error.outOfRange := by
  unfold DiscreteGenerator.updateDistributionVector at h
  split at h
  · simp at h
  · simp only [Outcome.error.injEq] at h
    exact h.symm

theorem AdjacentSteps.prepareStepBasedDistribution_length (s : AdjacentSteps) (number : Int) :
    (s.prepareStepBasedDistribution number).2.m_generator.distribution.length
      = s.m_generator.distribution.length := by
  have hl0 : (s.m_generator.updateDistributionVectorAll 0).distribution.length
      = s.m_generator.distribution.length := by
    simp [DiscreteGenerator.updateDistributionVectorAll]
  unfold AdjacentSteps.prepareStepBasedDistribution
  simp only []
  split
  · split
    · rename_i g1 h1
      simp only []
      rw [DiscreteGenerator.updateDistributionVector_length _ _ _ _ h1, hl0]
    · exact hl0
  · split
    · split
      · rename_i g1 h1
        simp only []
        rw [DiscreteGenerator.updateDistributionVector_length _ _ _ _ h1, hl0]
      · exact hl0
    · split
      · rename_i g1 h1
        split
        · rename_i g2 h2
          simp only []
          rw [DiscreteGenerator.updateDistributionVector_length _ _ _ _ h2,
            DiscreteGenerator.updateDistributionVector_length _ _ _ _ h1, hl0]
        · simp only []
          rw [DiscreteGenerator.updateDistributionVector_length _ _ _ _ h1, hl0]
      · exact hl0

/-- `prepareStepBasedDistribution` never fails with an invalid-argument error. -/
theorem AdjacentSteps.prepareStepBasedDistribution_not_invalidArgument (s : AdjacentSteps)
    (number : Int) :
    (s.prepareStepBasedDistribution number).1 ≠ Outcome.error Error.invalidArgument := by
  unfold AdjacentSteps.prepareStepBasedDistribution
  simp only []
  split
  · split
    · simp
    · rename_i e h1
      have := DiscreteGenerator.updateDistributionVector_error _ _ _ _ h1
      subst this; simp
  · split
    · split
      · simp
      · rename_i e h1
        have := DiscreteGenerator.updateDistributionVector_error _ _ _ _ h1
        subst this; simp
    · split
      · split
        · simp
        · rename_i e h2
          have := DiscreteGenerator.updateDistributionVector_error _ _ _ _ h2
          subst this; simp
      · rename_i e h1
        have := DiscreteGenerator.updateDistributionVector_error _ _ _ _ h1
        subst this; simp

theorem AdjacentSteps.adjacent_step_keeps_length (s : AdjacentSteps) (pick : Nat) :
    (s.getIntegerNumber pick).2.m_generator.distribution.length
      = s.m_generator.distribution.length := by
  unfold AdjacentSteps.getIntegerNumber
  cases s.m_generator.getNumber pick with
  | error e => rfl
  | ok generatedNumber =>
    simp only []
    have h := AdjacentSteps.prepareStepBasedDistribution_length
      { s with m_lastReturnedNumber := (generatedNumber : Int) + s.m_range.offset,
               m_haveRequestedFirstNumber := true }
      ((generatedNumber : Int) + s.m_range.offset)
    rcases hx : AdjacentSteps.prepareStepBasedDistribution
      { s with m_lastReturnedNumber := (generatedNumber : Int) + s.m_range.offset,
               m_haveRequestedFirstNumber := true }
      ((generatedNumber : Int) + s.m_range.offset) with ⟨o, s2⟩
    rw [hx] at h
    cases o <;> exact h

/-- What `setParams` leaves behind, for every configuration: the Range is the
configuration's and the vector has been reallocated to its size. -/
theorem AdjacentSteps.setParams_range_length (s : AdjacentSteps)
    (newParams : NumberProtocolConfig) :
    (s.setParams newParams).2.m_range = newParams.range ∧
      (s.setParams newParams).2.m_generator.distribution.length = newParams.range.size.toNat := by
  unfold AdjacentSteps.setParams
  simp only []
  split
  · rw [AdjacentSteps.prepareStepBasedDistribution_range,
      AdjacentSteps.prepareStepBasedDistribution_length]
    simp [DiscreteGenerator.setDistributionVector]
  · simp [DiscreteGenerator.setDistributionVector]

/-- Every call keeps the vector as long as the Range held is large, provided
reconfigurations carry valid Ranges. -/
theorem AdjacentSteps.afterCalls_length (calls : List AdjacentSteps.Call) :
    ∀ s : AdjacentSteps, (s.m_generator.distribution.length : Int) = s.m_range.size →
      AdjacentSteps.rangesValid calls = true →
      (((s.afterCalls calls).m_generator.distribution.length : Nat) : Int)
        = (s.afterCalls calls).m_range.size := by
  induction calls with
  | nil => intro s h _; exact h
  | cons c cs ih =>
    intro s h hvalid
    cases c with
    | getIntegerNumber pick =>
      simp only [AdjacentSteps.rangesValid] at hvalid
      simp only [AdjacentSteps.afterCalls, AdjacentSteps.afterCall]
      apply ih _ _ hvalid
      rw [AdjacentSteps.adjacent_step_keeps_length, AdjacentSteps.adjacent_step_keeps_range]
      exact h
    | setParams newParams =>
      simp only [AdjacentSteps.rangesValid, Bool.and_eq_true, decide_eq_true_eq] at hvalid
      simp only [AdjacentSteps.afterCalls, AdjacentSteps.afterCall]
      apply ih _ _ hvalid.2
      obtain ⟨h1, h2⟩ := AdjacentSteps.setParams_range_length s newParams
      rw [h1, h2]
      omega

/-! ## Claims: AdjacentSteps reconfiguration and Range validity -/

/-- Counterexample to C14 as stated: a default AdjacentSteps (range `[0, 1]`)
given a Basic-tagged configuration with range `[0, 4]` does not fail; the call
returns and both the range and the distribution vector have changed. -/
theorem AdjacentSteps.setParams_accepts_other_tag :
    (NumberProtocolParams.ofTag .basic).activeProtocol ≠ NumberProtocolType.adjacentSteps ∧
      (AdjacentSteps.createDefault.setParams ⟨⟨0, 4⟩, NumberProtocolParams.ofTag .basic⟩).1
        = Outcome.ok () ∧
      AdjacentSteps.createDefault.m_range = ⟨0, 1⟩ ∧
      (AdjacentSteps.createDefault.setParams ⟨⟨0, 4⟩, NumberProtocolParams.ofTag .basic⟩).2.m_range
        = ⟨0, 4⟩ ∧
      AdjacentSteps.createDefault.m_generator.distribution = [1, 1] ∧
      (AdjacentSteps.createDefault.setParams
        ⟨⟨0, 4⟩, NumberProtocolParams.ofTag .basic⟩).2.m_generator.distribution
        = [1, 1, 1, 1, 1] := by
  decide

/-- C14 (amended): `AdjacentSteps::setParams` does not inspect the tag of the
supplied parameter set and never fails with an invalid-argument error: for every
configuration the configuration's Range becomes the protocol's Range, the
distribution vector is reallocated to that Range's size, and outcome and state
are the same for every parameter set carried with that Range. -/
theorem AdjacentSteps.setParams_tag_not_inspected (s : AdjacentSteps)
    (newParams : NumberProtocolConfig) :
    (s.setParams newParams).1 ≠ Outcome.error Error.invalidArgument ∧
      (s.setParams newParams).2.m_range = newParams.range ∧
      (s.setParams newParams).2.m_generator.distribution.length = newParams.range.size.toNat ∧
      ∀ otherParams : NumberProtocolParams,
        s.setParams ⟨newParams.range, otherParams⟩ = s.setParams newParams := by
  obtain ⟨h1, h2⟩ := AdjacentSteps.setParams_range_length s newParams
  refine ⟨?_, h1, h2, fun _ => rfl⟩
  unfold AdjacentSteps.setParams
  simp only []
  split
  · exact AdjacentSteps.prepareStepBasedDistribution_not_invalidArgument _ _
  · simp

/-- C15 (the code at the failing input): over the valid Range `[3, 3]` (size 1)
the first `getIntegerNumber` zeroes the vector and then addresses index 1 of a
vector of length 1: the generator's out-of-range error is raised, the vector is
left all zero, and the next draw is made from an all-zero distribution. -/
theorem AdjacentSteps.single_value_range_breaks_draw :
    1 ≤ (Range.mk 3 3).size ∧
      (AdjacentSteps.create ⟨3, 3⟩).m_generator.mayDraw 0 = true ∧
      ((AdjacentSteps.create ⟨3, 3⟩).getIntegerNumber 0).1 = Outcome.error Error.outOfRange ∧
      ((AdjacentSteps.create ⟨3, 3⟩).getIntegerNumber 0).2.m_generator.distribution = [0] ∧
      (((AdjacentSteps.create ⟨3, 3⟩).getIntegerNumber 0).2.getIntegerNumber 0).1
        = Outcome.error Error.invalidState := by
  decide

/-- C17: invariant of AdjacentSteps: after construction over a valid Range and
after every `getIntegerNumber` and every `setParams` (with a valid Range),
whether the call returned or threw, the length of the generator's distribution
vector equals the size of the Range currently held by the protocol. -/
theorem AdjacentSteps.vector_length_matches_range (range : Range) (hvalid : 1 ≤ range.size)
    (calls : List AdjacentSteps.Call) (hcalls : AdjacentSteps.rangesValid calls = true) :
    ((((AdjacentSteps.create range).afterCalls calls).m_generator.distribution.length : Nat) : Int)
      = ((AdjacentSteps.create range).afterCalls calls).m_range.size := by
  apply AdjacentSteps.afterCalls_length calls _ _ hcalls
  simp only [AdjacentSteps.create, DiscreteGenerator.setDistributionVector, List.length_replicate]
  omega

/-- Witness for C17: range `[0, 9]`; two draws, a reconfiguration to `[2, 4]`
that keeps the walk, a draw, a reconfiguration to `[7, 7]`, and a draw that
throws. -/
theorem AdjacentSteps.vector_length_matches_range_witness :
    ((((AdjacentSteps.create ⟨0, 9⟩).afterCalls
        [.getIntegerNumber 3, .getIntegerNumber 4,
          .setParams ⟨⟨2, 4⟩, NumberProtocolParams.ofTag .adjacentSteps⟩, .getIntegerNumber 1,
          .setParams ⟨⟨7, 7⟩, NumberProtocolParams.ofTag .adjacentSteps⟩,
          .getIntegerNumber 0]).m_generator.distribution.length : Nat) : Int)
      = ((AdjacentSteps.create ⟨0, 9⟩).afterCalls
        [.getIntegerNumber 3, .getIntegerNumber 4,
          .setParams ⟨⟨2, 4⟩, NumberProtocolParams.ofTag .adjacentSteps⟩, .getIntegerNumber 1,
          .setParams ⟨⟨7, 7⟩, NumberProtocolParams.ofTag .adjacentSteps⟩,
          .getIntegerNumber 0]).m_range.size :=
  AdjacentSteps.vector_length_matches_range ⟨0, 9⟩ (by decide)
    [.getIntegerNumber 3, .getIntegerNumber 4,
      .setParams ⟨⟨2, 4⟩, NumberProtocolParams.ofTag .adjacentSteps⟩, .getIntegerNumber 1,
      .setParams ⟨⟨7, 7⟩, NumberProtocolParams.ofTag .adjacentSteps⟩, .getIntegerNumber 0]
    (by decide)

/-! ## Claims: Ratio configuration -/

/-- C16 (the code at the failing input): the ratio list `{0, 0}` over the Range
`[0, 1]` passes the length validation; selectables and the distribution vector
are then empty, no index can be drawn, and `getIntegerNumber` draws from a
vector without a non-zero weight. -/
theorem Ratio.all_zero_ratios_leave_no_selectable :
    Ratio.create ⟨0, 1⟩ [0, 0] = Outcome.ok (Ratio.mk ⟨[]⟩ ⟨0, 1⟩ [0, 0] []) ∧
      (Ratio.mk ⟨[]⟩ ⟨0, 1⟩ [0, 0] []).generatorAtDraw.distribution = [] ∧
      (Ratio.mk ⟨[]⟩ ⟨0, 1⟩ [0, 0] []).generatorAtDraw.mayDraw 0 = false ∧
      ((Ratio.mk ⟨[]⟩ ⟨0, 1⟩ [0, 0] []).getIntegerNumber 0).1
        = Outcome.error Error.invalidState ∧
      (Ratio.createDefault.setParams ⟨⟨0, 1⟩, NumberProtocolParams.ofRatio ⟨[0, 0]⟩⟩)
        = (Outcome.ok (), Ratio.mk ⟨[]⟩ ⟨0, 1⟩ [0, 0] []) := by
  decide

/-- C18: round trip of the Ratio configuration: after a successful
`setParams(cfg)`, `getParams()` returns a Ratio-tagged configuration whose Range
is `cfg`'s Range and whose ratio list is `cfg`'s ratio list; and `getParams()`
of a freshly constructed `Ratio(range, ratios)` returns exactly
`(range, ratios)`.  (`getParams` is a function of the state alone.) -/
theorem Ratio.getParams_round_trip (s : Ratio) (cfg : NumberProtocolConfig) (range : Range)
    (ratios : List Int) (fresh : Ratio)
    (hset : (s.setParams cfg).1 = Outcome.ok ())
    (hcreate : Ratio.create range ratios = Outcome.ok fresh) :
    ((s.setParams cfg).2.getParams.range = cfg.range ∧
      (s.setParams cfg).2.getParams.protocols.activeProtocol = NumberProtocolType.ratio ∧
      (s.setParams cfg).2.getParams.protocols.ratio.ratios = cfg.protocols.ratio.ratios ∧
      (s.setParams cfg).2.getParams
        = ⟨cfg.range, NumberProtocolParams.ofRatio ⟨cfg.protocols.ratio.ratios⟩⟩) ∧
    fresh.getParams = ⟨range, NumberProtocolParams.ofRatio ⟨ratios⟩⟩ := by
  constructor
  · have hpair : s.setParams cfg = (Outcome.ok (), (s.setParams cfg).2) := by
      rw [← hset]
    obtain ⟨hs, -⟩ := Ratio.setParams_eq s cfg _ hpair
    rw [hs]
    exact ⟨rfl, rfl, rfl, rfl⟩
  · obtain ⟨hs, -⟩ := Ratio.create_eq range ratios fresh hcreate
    rw [hs]
    rfl

/-- Witness for C18: a default Ratio reconfigured with ratios `[3, 1, 2]` over
`[0, 2]`, and a Ratio constructed with the same. -/
theorem Ratio.getParams_round_trip_witness :
    ((Ratio.createDefault.setParams
          ⟨⟨0, 2⟩, NumberProtocolParams.ofRatio ⟨[3, 1, 2]⟩⟩).2.getParams.range
        = (NumberProtocolConfig.mk ⟨0, 2⟩ (NumberProtocolParams.ofRatio ⟨[3, 1, 2]⟩)).range ∧
      (Ratio.createDefault.setParams
          ⟨⟨0, 2⟩, NumberProtocolParams.ofRatio ⟨[3, 1, 2]⟩⟩).2.getParams.protocols.activeProtocol
        = NumberProtocolType.ratio ∧
      (Ratio.createDefault.setParams
          ⟨⟨0, 2⟩, NumberProtocolParams.ofRatio ⟨[3, 1, 2]⟩⟩).2.getParams.protocols.ratio.ratios
        = (NumberProtocolConfig.mk ⟨0, 2⟩
            (NumberProtocolParams.ofRatio ⟨[3, 1, 2]⟩)).protocols.ratio.ratios ∧
      (Ratio.createDefault.setParams
          ⟨⟨0, 2⟩, NumberProtocolParams.ofRatio ⟨[3, 1, 2]⟩⟩).2.getParams
        = ⟨(NumberProtocolConfig.mk ⟨0, 2⟩ (NumberProtocolParams.ofRatio ⟨[3, 1, 2]⟩)).range,
            NumberProtocolParams.ofRatio
              ⟨(NumberProtocolConfig.mk ⟨0, 2⟩
                (NumberProtocolParams.ofRatio ⟨[3, 1, 2]⟩)).protocols.ratio.ratios⟩⟩) ∧
    (Ratio.mk ⟨[1, 1, 1, 1, 1, 1]⟩ ⟨0, 2⟩ [3, 1, 2] [0, 0, 0, 1, 2, 2]).getParams
      = ⟨⟨0, 2⟩, NumberProtocolParams.ofRatio ⟨[3, 1, 2]⟩⟩ :=
  Ratio.getParams_round_trip Ratio.createDefault
    ⟨⟨0, 2⟩, NumberProtocolParams.ofRatio ⟨[3, 1, 2]⟩⟩ ⟨0, 2⟩ [3, 1, 2]
    (Ratio.mk ⟨[1, 1, 1, 1, 1, 1]⟩ ⟨0, 2⟩ [3, 1, 2] [0, 0, 0, 1, 2, 2]) (by decide) (by decide)

/-! ## Lemmas: Cycle -/

theorem succ_mod_cases (j period : Nat) (h : 0 < period) :
    (j + 1) % period = if j % period + 1 = period then 0 else j % period + 1 := by
  have hlt := Nat.mod_lt j h
  have hj : j + 1 = period * (j / period) + (j % period + 1) := by
    have := Nat.div_add_mod j period
    omega
  by_cases hc : j % period + 1 = period
  · rw [if_pos hc, hj, hc]
    have : period * (j / period) + period = period * (j / period + 1) := by ring
    rw [this]
    exact Nat.mul_mod_right _ _
  · rw [if_neg hc, hj, Nat.mul_add_mod]
    exact Nat.mod_eq_of_lt (by omega)

/-- One draw of a forward unidirectional Cycle at phase `j`. -/
theorem Cycle.forward_step (c : Cycle) (n j : Nat) (hn : 1 ≤ n)
    (hsize : c.m_range.size = (n : Int)) (hbi : c.m_bidirectional = false)
    (hrev : c.m_reverseDirection = false) (hidx : c.m_index = ((j % n : Nat) : Int)) :
    c.getIntegerNumber.1 = Outcome.ok (c.m_range.start + ((j % n : Nat) : Int)) ∧
      c.getIntegerNumber.2.m_range = c.m_range ∧
      c.getIntegerNumber.2.m_bidirectional = false ∧
      c.getIntegerNumber.2.m_reverseDirection = false ∧
      c.getIntegerNumber.2.m_index = (((j + 1) % n : Nat) : Int) := by
  have hlt := Nat.mod_lt j (show 0 < n by omega)
  have hsucc := succ_mod_cases j n (by omega)
  unfold Cycle.getIntegerNumber
  simp only [hbi, hrev, Bool.false_eq_true, if_false, Range.offset]
  by_cases hc : c.m_index = c.m_range.size - 1
  · rw [if_pos hc]
    have h1 : j % n + 1 = n := by omega
    rw [if_pos h1] at hsucc
    refine ⟨by rw [hidx, add_comm], rfl, rfl, rfl, ?_⟩
    simp only [hsucc]; rfl
  · rw [if_neg hc]
    have h1 : ¬ (j % n + 1 = n) := by omega
    rw [if_neg h1] at hsucc
    refine ⟨by rw [hidx, add_comm], rfl, rfl, rfl, ?_⟩
    simp only [hsucc, hidx]; push_cast; rfl

/-- Consecutive draws of a forward unidirectional Cycle from phase `j`. -/
theorem Cycle.forward_draws (n : Nat) (hn : 1 ≤ n) (count : Nat) :
    ∀ (c : Cycle) (j : Nat), c.m_range.size = (n : Int) → c.m_bidirectional = false →
      c.m_reverseDirection = false → c.m_index = ((j % n : Nat) : Int) →
      (c.draws count).1 = (List.range' j count).map
        (fun (k : Nat) => Outcome.ok (c.m_range.start + ((k % n : Nat) : Int))) := by
  induction count with
  | zero => intro c j _ _ _ _; rfl
  | succ count ih =>
    intro c j hsize hbi hrev hidx
    obtain ⟨h1, h2, h3, h4, h5⟩ := Cycle.forward_step c n j hn hsize hbi hrev hidx
    have := ih c.getIntegerNumber.2 (j + 1) (by rw [h2]; exact hsize) h3 h4 h5
    simp only [Cycle.draws, List.range'_succ, List.map_cons]
    rw [h1, this, h2]

/-- One draw of a reverse unidirectional Cycle at phase `j`. -/
theorem Cycle.reverse_step (c : Cycle) (n j : Nat) (hn : 1 ≤ n)
    (hsize : c.m_range.size = (n : Int)) (hbi : c.m_bidirectional = false)
    (hrev : c.m_reverseDirection = true)
    (hidx : c.m_index = (n : Int) - 1 - ((j % n : Nat) : Int)) :
    c.getIntegerNumber.1 = Outcome.ok (c.m_range.end_ - ((j % n : Nat) : Int)) ∧
      c.getIntegerNumber.2.m_range = c.m_range ∧
      c.getIntegerNumber.2.m_bidirectional = false ∧
      c.getIntegerNumber.2.m_reverseDirection = true ∧
      c.getIntegerNumber.2.m_index = (n : Int) - 1 - (((j + 1) % n : Nat) : Int) := by
  have hlt := Nat.mod_lt j (show 0 < n by omega)
  have hsucc := succ_mod_cases j n (by omega)
  have hsz : c.m_range.size = c.m_range.end_ - c.m_range.start + 1 := rfl
  have hval : c.m_index + c.m_range.start = c.m_range.end_ - ((j % n : Nat) : Int) := by omega
  unfold Cycle.getIntegerNumber
  simp only [hbi, hrev, if_true, Bool.false_eq_true, if_false, Range.offset]
  by_cases hc : c.m_index = 0
  · rw [if_pos hc]
    have h1 : j % n + 1 = n := by omega
    rw [if_pos h1] at hsucc
    refine ⟨by rw [hval], rfl, rfl, rfl, ?_⟩
    simp only [hsucc, hsize]; push_cast; ring
  · rw [if_neg hc]
    have h1 : ¬ (j % n + 1 = n) := by omega
    rw [if_neg h1] at hsucc
    refine ⟨by rw [hval], rfl, rfl, rfl, ?_⟩
    simp only [hsucc, hidx]; push_cast; ring

/-- Consecutive draws of a reverse unidirectional Cycle from phase `j`. -/
theorem Cycle.reverse_draws (n : Nat) (hn : 1 ≤ n) (count : Nat) :
    ∀ (c : Cycle) (j : Nat), c.m_range.size = (n : Int) → c.m_bidirectional = false →
      c.m_reverseDirection = true → c.m_index = (n : Int) - 1 - ((j % n : Nat) : Int) →
      (c.draws count).1 = (List.range' j count).map
        (fun (k : Nat) => Outcome.ok (c.m_range.end_ - ((k % n : Nat) : Int))) := by
  induction count with
  | zero => intro c j _ _ _ _; rfl
  | succ count ih =>
    intro c j hsize hbi hrev hidx
    obtain ⟨h1, h2, h3, h4, h5⟩ := Cycle.reverse_step c n j hn hsize hbi hrev hidx
    have := ih c.getIntegerNumber.2 (j + 1) (by rw [h2]; exact hsize) h3 h4 h5
    simp only [Cycle.draws, List.range'_succ, List.map_cons]
    rw [h1, this, h2]

/-- One draw of a bidirectional Cycle started forwards, at phase `j` of the
triangular wave. -/
theorem Cycle.bidirectional_forward_step (c : Cycle) (n j : Nat) (hn : 2 ≤ n)
    (hsize : c.m_range.size = (n : Int)) (hbi : c.m_bidirectional = true)
    (hidx : c.m_index = ((triangleWave n j : Nat) : Int))
    (hup : 0 < j % (2 * (n - 1)) → j % (2 * (n - 1)) ≤ n - 1 → c.m_reverseDirection = false)
    (hdown : n - 1 < j % (2 * (n - 1)) → c.m_reverseDirection = true) :
    c.getIntegerNumber.1 = Outcome.ok (c.m_range.start + ((triangleWave n j : Nat) : Int)) ∧
      c.getIntegerNumber.2.m_range = c.m_range ∧
      c.getIntegerNumber.2.m_bidirectional = true ∧
      c.getIntegerNumber.2.m_index = ((triangleWave n (j + 1) : Nat) : Int) ∧
      (0 < (j + 1) % (2 * (n - 1)) → (j + 1) % (2 * (n - 1)) ≤ n - 1 →
        c.getIntegerNumber.2.m_reverseDirection = false) ∧
      (n - 1 < (j + 1) % (2 * (n - 1)) → c.getIntegerNumber.2.m_reverseDirection = true) := by
  have hP : 0 < 2 * (n - 1) := by omega
  have hlt := Nat.mod_lt j hP
  have hsucc := succ_mod_cases j (2 * (n - 1)) hP
  unfold triangleWave at hidx ⊢
  generalize j % (2 * (n - 1)) = r at hlt hsucc hidx hup hdown ⊢
  generalize (j + 1) % (2 * (n - 1)) = r1 at hsucc ⊢
  unfold Cycle.getIntegerNumber
  simp only [hbi, if_true, Range.offset]
  cases hdir : c.m_reverseDirection with
  | true =>
    simp only [if_true]
    by_cases h0 : c.m_index = 0
    · rw [if_pos h0]
      refine ⟨?_, rfl, rfl, ?_, ?_, ?_⟩
      · rw [hidx, add_comm]
      · simp only []
        split_ifs at hidx hsucc ⊢ <;> omega
      · intro _ _; rfl
      · intro h
        exfalso
        have : r ≤ n - 1 → r = 0 := by
          intro hle
          by_contra hne
          have := hup (by omega) hle
          rw [hdir] at this
          exact Bool.noConfusion this
        split_ifs at hidx hsucc <;> omega
    · rw [if_neg h0]
      have hr : n - 1 < r := by
        by_contra hle
        have hle2 : r ≤ n - 1 := by omega
        rw [if_pos hle2] at hidx
        have := hup (by omega) hle2
        rw [hdir] at this
        exact Bool.noConfusion this
      refine ⟨?_, rfl, rfl, ?_, ?_, ?_⟩
      · rw [hidx, add_comm]
      · simp only []
        split_ifs at hidx hsucc ⊢ <;> omega
      · intro h1 h2
        exfalso
        split_ifs at hidx hsucc <;> omega
      · intro _; rfl
  | false =>
    simp only [Bool.false_eq_true, if_false]
    have hr : r ≤ n - 1 := by
      by_contra hgt
      have := hdown (by omega)
      rw [hdir] at this
      exact Bool.noConfusion this
    rw [if_pos hr] at hidx
    by_cases htop : c.m_index = c.m_range.size - 1
    · rw [if_pos htop]
      refine ⟨?_, rfl, rfl, ?_, ?_, ?_⟩
      · rw [if_pos hr, hidx, add_comm]
      · simp only []
        split_ifs at hsucc ⊢ <;> omega
      · intro h1 h2
        exfalso
        split_ifs at hsucc <;> omega
      · intro _; rfl
    · rw [if_neg htop]
      refine ⟨?_, rfl, rfl, ?_, ?_, ?_⟩
      · rw [if_pos hr, hidx, add_comm]
      · simp only []
        split_ifs at hsucc ⊢ <;> omega
      · intro _ _; rfl
      · intro h
        exfalso
        split_ifs at hsucc <;> omega

/-- One draw of a bidirectional Cycle started in reverse, at phase `j` of the
mirrored triangular wave. -/
theorem Cycle.bidirectional_reverse_step (c : Cycle) (n j : Nat) (hn : 2 ≤ n)
    (hsize : c.m_range.size = (n : Int)) (hbi : c.m_bidirectional = true)
    (hidx : c.m_index = (n : Int) - 1 - ((triangleWave n j : Nat) : Int))
    (hdown : 0 < j % (2 * (n - 1)) → j % (2 * (n - 1)) ≤ n - 1 → c.m_reverseDirection = true)
    (hup : n - 1 < j % (2 * (n - 1)) → c.m_reverseDirection = false) :
    c.getIntegerNumber.1 = Outcome.ok (c.m_range.end_ - ((triangleWave n j : Nat) : Int)) ∧
      c.getIntegerNumber.2.m_range = c.m_range ∧
      c.getIntegerNumber.2.m_bidirectional = true ∧
      c.getIntegerNumber.2.m_index = (n : Int) - 1 - ((triangleWave n (j + 1) : Nat) : Int) ∧
      (0 < (j + 1) % (2 * (n - 1)) → (j + 1) % (2 * (n - 1)) ≤ n - 1 →
        c.getIntegerNumber.2.m_reverseDirection = true) ∧
      (n - 1 < (j + 1) % (2 * (n - 1)) → c.getIntegerNumber.2.m_reverseDirection = false) := by
  have hP : 0 < 2 * (n - 1) := by omega
  have hlt := Nat.mod_lt j hP
  have hsucc := succ_mod_cases j (2 * (n - 1)) hP
  have hsz : c.m_range.size = c.m_range.end_ - c.m_range.start + 1 := rfl
  have hval : ∀ t : Int, c.m_index = (n : Int) - 1 - t →
      Outcome.ok (c.m_index + c.m_range.start) = Outcome.ok (c.m_range.end_ - t) := by
    intro t ht
    have : c.m_index + c.m_range.start = c.m_range.end_ - t := by omega
    rw [this]
  unfold triangleWave at hidx ⊢
  generalize j % (2 * (n - 1)) = r at hlt hsucc hidx hup hdown ⊢
  generalize (j + 1) % (2 * (n - 1)) = r1 at hsucc ⊢
  have hout := hval _ hidx
  unfold Cycle.getIntegerNumber
  simp only [hbi, if_true, Range.offset]
  cases hdir : c.m_reverseDirection with
  | true =>
    simp only [if_true]
    have hr : r ≤ n - 1 := by
      by_contra hgt
      have := hup (by omega)
      rw [hdir] at this
      exact Bool.noConfusion this
    rw [if_pos hr] at hidx
    by_cases h0 : c.m_index = 0
    · rw [if_pos h0]
      refine ⟨?_, rfl, rfl, ?_, ?_, ?_⟩
      · exact hout
      · simp only []
        split_ifs at hsucc ⊢ <;> omega
      · intro h1 h2
        exfalso
        split_ifs at hsucc <;> omega
      · intro _; rfl
    · rw [if_neg h0]
      refine ⟨?_, rfl, rfl, ?_, ?_, ?_⟩
      · exact hout
      · simp only []
        split_ifs at hsucc ⊢ <;> omega
      · intro _ _; rfl
      · intro h
        exfalso
        split_ifs at hsucc <;> omega
  | false =>
    simp only [Bool.false_eq_true, if_false]
    have hzero : r ≤ n - 1 → r = 0 := by
      intro hle
      by_contra hne
      have := hdown (by omega) hle
      rw [hdir] at this
      exact Bool.noConfusion this
    by_cases htop : c.m_index = c.m_range.size - 1
    · rw [if_pos htop]
      refine ⟨?_, rfl, rfl, ?_, ?_, ?_⟩
      · exact hout
      · simp only []
        split_ifs at hidx hsucc ⊢ <;> omega
      · intro _ _; rfl
      · intro h
        exfalso
        split_ifs at hidx hsucc <;> omega
    · rw [if_neg htop]
      refine ⟨?_, rfl, rfl, ?_, ?_, ?_⟩
      · exact hout
      · simp only []
        split_ifs at hidx hsucc ⊢ <;> omega
      · intro h1 h2
        exfalso
        split_ifs at hidx hsucc <;> omega
      · intro _; rfl

/-- Consecutive draws of a bidirectional Cycle started forwards, from phase
`j`. -/
theorem Cycle.bidirectional_forward_draws (n : Nat) (hn : 2 ≤ n) (count : Nat) :
    ∀ (c : Cycle) (j : Nat), c.m_range.size = (n : Int) → c.m_bidirectional = true →
      c.m_index = ((triangleWave n j : Nat) : Int) →
      (0 < j % (2 * (n - 1)) → j % (2 * (n - 1)) ≤ n - 1 → c.m_reverseDirection = false) →
      (n - 1 < j % (2 * (n - 1)) → c.m_reverseDirection = true) →
      (c.draws count).1 = (List.range' j count).map
        (fun (k : Nat) => Outcome.ok (c.m_range.start + ((triangleWave n k : Nat) : Int))) := by
  induction count with
  | zero => intro c j _ _ _ _ _; rfl
  | succ count ih =>
    intro c j hsize hbi hidx hup hdown
    obtain ⟨h1, h2, h3, h4, h5, h6⟩ :=
      Cycle.bidirectional_forward_step c n j hn hsize hbi hidx hup hdown
    have := ih c.getIntegerNumber.2 (j + 1) (by rw [h2]; exact hsize) h3 h4 h5 h6
    simp only [Cycle.draws, List.range'_succ, List.map_cons]
    rw [h1, this, h2]

/-- Consecutive draws of a bidirectional Cycle started in reverse, from phase
`j`. -/
theorem Cycle.bidirectional_reverse_draws (n : Nat) (hn : 2 ≤ n) (count : Nat) :
    ∀ (c : Cycle) (j : Nat), c.m_range.size = (n : Int) → c.m_bidirectional = true →
      c.m_index = (n : Int) - 1 - ((triangleWave n j : Nat) : Int) →
      (0 < j % (2 * (n - 1)) → j % (2 * (n - 1)) ≤ n - 1 → c.m_reverseDirection = true) →
      (n - 1 < j % (2 * (n - 1)) → c.m_reverseDirection = false) →
      (c.draws count).1 = (List.range' j count).map
        (fun (k : Nat) => Outcome.ok (c.m_range.end_ - ((triangleWave n k : Nat) : Int))) := by
  induction count with
  | zero => intro c j _ _ _ _ _; rfl
  | succ count ih =>
    intro c j hsize hbi hidx hdown hup
    obtain ⟨h1, h2, h3, h4, h5, h6⟩ :=
      Cycle.bidirectional_reverse_step c n j hn hsize hbi hidx hdown hup
    have := ih c.getIntegerNumber.2 (j + 1) (by rw [h2]; exact hsize) h3 h4 h5 h6
    simp only [Cycle.draws, List.range'_succ, List.map_cons]
    rw [h1, this, h2]

/-- The triangular wave moves by exactly one at every step, so no value (in
particular no boundary value) occurs twice in a row. -/
theorem triangleWave_succ (n k : Nat) (hn : 2 ≤ n) :
    triangleWave n (k + 1) = triangleWave n k + 1 ∨ triangleWave n (k + 1) + 1 = triangleWave n k := by
  have hP : 0 < 2 * (n - 1) := by omega
  have hlt := Nat.mod_lt k hP
  have hsucc := succ_mod_cases k (2 * (n - 1)) hP
  unfold triangleWave
  generalize k % (2 * (n - 1)) = r at hlt hsucc ⊢
  generalize (k + 1) % (2 * (n - 1)) = r1 at hsucc ⊢
  split_ifs at hsucc ⊢ <;> omega

theorem triangleWave_le (n k : Nat) (hn : 2 ≤ n) : triangleWave n k ≤ n - 1 := by
  have hP : 0 < 2 * (n - 1) := by omega
  have hlt := Nat.mod_lt k hP
  unfold triangleWave
  generalize k % (2 * (n - 1)) = r at hlt ⊢
  split_ifs <;> omega

/-! ## Claims: Cycle -/

/-- C19: for a unidirectional Cycle over the Range `[a, b]` of size `n` with no
initial selection, the `k`-th draw (`k = 0, 1, 2, ...`) equals `a + (k mod n)`
in forward mode and `b - (k mod n)` when `reverseDirection` is true: at a
boundary it wraps to the opposite end. -/
theorem Cycle.unidirectional_draws_wrap (range : Range) (hsize : 1 ≤ range.size)
    (count : Nat) :
    ((Cycle.create range false false).draws count).1
        = (List.range count).map
            (fun (k : Nat) => Outcome.ok (range.start + (k : Int) % range.size)) ∧
      ((Cycle.create range false true).draws count).1
        = (List.range count).map
            (fun (k : Nat) => Outcome.ok (range.end_ - (k : Int) % range.size)) := by
  have hn : range.size = ((range.size.toNat : Nat) : Int) := by omega
  have hn1 : 1 ≤ range.size.toNat := by omega
  constructor
  · have := Cycle.forward_draws range.size.toNat hn1 count (Cycle.create range false false) 0
      hn rfl rfl (by simp [Cycle.create])
    rw [this, List.range_eq_range']
    apply List.map_congr_left
    intro k _
    simp only [Cycle.create, Int.ofNat_emod]
    rw [← hn]
  · have := Cycle.reverse_draws range.size.toNat hn1 count (Cycle.create range false true) 0
      hn rfl rfl (by simp only [Cycle.create, if_true, Nat.zero_mod]; omega)
    rw [this, List.range_eq_range']
    apply List.map_congr_left
    intro k _
    simp only [Cycle.create, Int.ofNat_emod]
    rw [← hn]

/-- Witness for C19: the Range `[0, 2]` gives 0,1,2,0,1,2 forwards and
2,1,0,2,1,0 in reverse. -/
theorem Cycle.unidirectional_draws_wrap_witness :
    (((Cycle.create ⟨0, 2⟩ false false).draws 6).1
        = (List.range 6).map
            (fun (k : Nat) => Outcome.ok ((Range.mk 0 2).start + (k : Int) % (Range.mk 0 2).size)) ∧
      ((Cycle.create ⟨0, 2⟩ false true).draws 6).1
        = (List.range 6).map
            (fun (k : Nat) => Outcome.ok ((Range.mk 0 2).end_ - (k : Int) % (Range.mk 0 2).size))) ∧
    ((Cycle.create ⟨0, 2⟩ false false).draws 6).1
      = [.ok 0, .ok 1, .ok 2, .ok 0, .ok 1, .ok 2] ∧
    ((Cycle.create ⟨0, 2⟩ false true).draws 6).1
      = [.ok 2, .ok 1, .ok 0, .ok 2, .ok 1, .ok 0] :=
  ⟨Cycle.unidirectional_draws_wrap ⟨0, 2⟩ (by decide) 6, by decide, by decide⟩

/-- C20: for a bidirectional Cycle over the Range `[a, b]` of size `n >= 2`
with no initial selection, the output is the triangular wave of period
`2(n-1)`: forward mode starts at `a`, rises by 1 to `b`, then falls by 1 to `a`,
and so on; reverse mode is the mirror image starting at `b`; consecutive values
differ by exactly one, so a boundary value is never emitted twice in a row. -/
theorem Cycle.bidirectional_draws_triangular (range : Range) (hsize : 2 ≤ range.size)
    (count : Nat) :
    ((Cycle.create range true false).draws count).1
        = (List.range count).map
            (fun (k : Nat) =>
              Outcome.ok (range.start + ((triangleWave range.size.toNat k : Nat) : Int))) ∧
      ((Cycle.create range true true).draws count).1
        = (List.range count).map
            (fun (k : Nat) =>
              Outcome.ok (range.end_ - ((triangleWave range.size.toNat k : Nat) : Int))) ∧
      (∀ k : Nat,
        triangleWave range.size.toNat (k + 1) = triangleWave range.size.toNat k + 1 ∨
          triangleWave range.size.toNat (k + 1) + 1 = triangleWave range.size.toNat k) ∧
      (∀ k : Nat, range.start + ((triangleWave range.size.toNat k : Nat) : Int) ≤ range.end_) ∧
      triangleWave range.size.toNat 0 = 0 ∧
      range.start + ((triangleWave range.size.toNat (range.size.toNat - 1) : Nat) : Int)
        = range.end_ := by
  have hn : range.size = ((range.size.toNat : Nat) : Int) := by omega
  have hn2 : 2 ≤ range.size.toNat := by omega
  have hsz : range.size = range.end_ - range.start + 1 := rfl
  have h0 : triangleWave range.size.toNat 0 = 0 := by simp [triangleWave]
  refine ⟨?_, ?_, fun k => triangleWave_succ _ k hn2, ?_, h0, ?_⟩
  · have := Cycle.bidirectional_forward_draws range.size.toNat hn2 count
      (Cycle.create range true false) 0 hn rfl (by rw [h0]; simp [Cycle.create])
      (by intro h; simp at h) (by intro h; simp at h)
    rw [this, List.range_eq_range']
    rfl
  · have := Cycle.bidirectional_reverse_draws range.size.toNat hn2 count
      (Cycle.create range true true) 0 hn rfl
      (by rw [h0]; simp only [Cycle.create, if_true]; omega)
      (by intro h; simp at h) (by intro h; simp at h)
    rw [this, List.range_eq_range']
    rfl
  · intro k
    have := triangleWave_le range.size.toNat k hn2
    omega
  · have hlt : range.size.toNat - 1 < 2 * (range.size.toNat - 1) := by omega
    have : triangleWave range.size.toNat (range.size.toNat - 1) = range.size.toNat - 1 := by
      unfold triangleWave
      rw [Nat.mod_eq_of_lt hlt, if_pos (le_refl _)]
    rw [this]
    omega

/-- Witness for C20: the Range `[0, 2]` gives 0,1,2,1,0,1,2,1,0 and, reversed,
2,1,0,1,2,1,0,1,2. -/
theorem Cycle.bidirectional_draws_triangular_witness :
    (((Cycle.create ⟨0, 2⟩ true false).draws 9).1
        = (List.range 9).map
            (fun (k : Nat) =>
              Outcome.ok ((Range.mk 0 2).start
                + ((triangleWave (Range.mk 0 2).size.toNat k : Nat) : Int))) ∧
      ((Cycle.create ⟨0, 2⟩ true true).draws 9).1
        = (List.range 9).map
            (fun (k : Nat) =>
              Outcome.ok ((Range.mk 0 2).end_
                - ((triangleWave (Range.mk 0 2).size.toNat k : Nat) : Int))) ∧
      (∀ k : Nat,
        triangleWave (Range.mk 0 2).size.toNat (k + 1)
            = triangleWave (Range.mk 0 2).size.toNat k + 1 ∨
          triangleWave (Range.mk 0 2).size.toNat (k + 1) + 1
            = triangleWave (Range.mk 0 2).size.toNat k) ∧
      (∀ k : Nat, (Range.mk 0 2).start
        + ((triangleWave (Range.mk 0 2).size.toNat k : Nat) : Int) ≤ (Range.mk 0 2).end_) ∧
      triangleWave (Range.mk 0 2).size.toNat 0 = 0 ∧
      (Range.mk 0 2).start
          + ((triangleWave (Range.mk 0 2).size.toNat ((Range.mk 0 2).size.toNat - 1) : Nat) : Int)
        = (Range.mk 0 2).end_) ∧
    ((Cycle.create ⟨0, 2⟩ true false).draws 9).1
      = [.ok 0, .ok 1, .ok 2, .ok 1, .ok 0, .ok 1, .ok 2, .ok 1, .ok 0] ∧
    ((Cycle.create ⟨0, 2⟩ true true).draws 9).1
      = [.ok 2, .ok 1, .ok 0, .ok 1, .ok 2, .ok 1, .ok 0, .ok 1, .ok 2] :=
  ⟨Cycle.bidirectional_draws_triangular ⟨0, 2⟩ (by decide) 9, by decide, by decide⟩

/-! ## Claims: Producer reconfiguration -/

/-- The default parameters of a protocol carry the protocol's own variant tag. -/
theorem NumberProtocol.defaultParams_type (p : NumberProtocol) (range : Range) :
    (p.defaultParams range).activeProtocol = p.type :=
  NumberProtocolParams.defaultsFor_activeProtocol p.type range

/-- The factory yields a protocol of the variant asked for, for each of the
twelve tags. -/
theorem NumberProtocol.create_type (t : NumberProtocolType) :
    (NumberProtocol.create t).type = t := by
  cases t <;> rfl

/-- C11: `setSource` with a collection of size 0 or 1 fails with an
invalid-argument error and leaves the producer's source collection, as returned
by `getSource`, equal to what it was before the call. -/
theorem CollectionsProducer.setSource_rejects_small_source {α : Type}
    (m : CollectionsProducer α) (newSource : List α) (hsmall : newSource.length < 2) :
    (m.setSource newSource).1 = Outcome.error Error.invalidArgument ∧
      (m.setSource newSource).2.getSource = m.getSource := by
  unfold CollectionsProducer.setSource
  rw [if_pos hsmall]
  exact ⟨rfl, rfl⟩

/-- Witness for C11: the sources `{}` and `{'a'}` offered to a producer over
`['a','b','c']`, as in the test. -/
theorem CollectionsProducer.setSource_rejects_small_source_witness :
    (((CollectionsProducer.mk ['a', 'b', 'c'] (.cycle (Cycle.create ⟨0, 2⟩ true true))).setSource
          []).1 = Outcome.error Error.invalidArgument ∧
      ((CollectionsProducer.mk ['a', 'b', 'c'] (.cycle (Cycle.create ⟨0, 2⟩ true true))).setSource
          []).2.getSource
        = (CollectionsProducer.mk ['a', 'b', 'c']
            (.cycle (Cycle.create ⟨0, 2⟩ true true))).getSource) ∧
    (((CollectionsProducer.mk ['a', 'b', 'c'] (.cycle (Cycle.create ⟨0, 2⟩ true true))).setSource
          ['a']).1 = Outcome.error Error.invalidArgument ∧
      ((CollectionsProducer.mk ['a', 'b', 'c'] (.cycle (Cycle.create ⟨0, 2⟩ true true))).setSource
          ['a']).2.getSource
        = (CollectionsProducer.mk ['a', 'b', 'c']
            (.cycle (Cycle.create ⟨0, 2⟩ true true))).getSource) :=
  ⟨CollectionsProducer.setSource_rejects_small_source
      (CollectionsProducer.mk ['a', 'b', 'c'] (.cycle (Cycle.create ⟨0, 2⟩ true true))) []
      (by decide),
    CollectionsProducer.setSource_rejects_small_source
      (CollectionsProducer.mk ['a', 'b', 'c'] (.cycle (Cycle.create ⟨0, 2⟩ true true))) ['a']
      (by decide)⟩

/-- C12: after `setProtocol(p)` (or `DurationsProducer::setNumberProtocol(p)`)
on a producer whose target has size `n >= 2`, the call has succeeded,
`getParams` reports `p`'s variant as the active protocol, the protocol's Range
is `[0, n-1]` whatever Range `p` was created with, its parameters are that
variant's defaults over that Range, and the target is unchanged. -/
theorem CollectionsProducer.setProtocol_forces_range_and_defaults {α : Type}
    (m : CollectionsProducer α) (d : DurationsProducer) (p : NumberProtocol)
    (hvalid : 2 ≤ m.m_source.length)
    (hvalidD : 2 ≤ d.m_durationProtocol.getCollectionSize) :
    ((m.setProtocol p).1 = Outcome.ok () ∧
      (m.setProtocol p).2.getParams.activeProtocol = p.type ∧
      (m.setProtocol p).2.m_protocol.type = p.type ∧
      (m.setProtocol p).2.m_protocol.getParams.range = ⟨0, (m.m_source.length : Int) - 1⟩ ∧
      (m.setProtocol p).2.getParams = p.defaultParams ⟨0, (m.m_source.length : Int) - 1⟩ ∧
      (m.setProtocol p).2.m_source = m.m_source) ∧
    ((d.setNumberProtocol p).1 = Outcome.ok () ∧
      (d.setNumberProtocol p).2.getParams.activeProtocol = p.type ∧
      (d.setNumberProtocol p).2.m_numberProtocol.type = p.type ∧
      (d.setNumberProtocol p).2.m_numberProtocol.getParams.range
        = ⟨0, (d.m_durationProtocol.getCollectionSize : Int) - 1⟩ ∧
      (d.setNumberProtocol p).2.getParams
        = p.defaultParams ⟨0, (d.m_durationProtocol.getCollectionSize : Int) - 1⟩ ∧
      (d.setNumberProtocol p).2.m_durationProtocol = d.m_durationProtocol) := by
  have key : ∀ range : Range, 2 ≤ range.size →
      (p.setRange range).1 = Outcome.ok () ∧
        (p.setRange range).2.getParams.protocols.activeProtocol = p.type ∧
        (p.setRange range).2.type = p.type ∧
        (p.setRange range).2.getParams.range = range ∧
        (p.setRange range).2.getParams.protocols = p.defaultParams range := by
    intro range hsize
    obtain ⟨h1, h2, h3⟩ := NumberProtocol.setRange_spec p range hsize
    exact ⟨h1, by rw [h2]; exact p.defaultParams_type range, h3, by rw [h2], by rw [h2]⟩
  constructor
  · obtain ⟨h1, h2, h3, h4, h5⟩ := key ⟨0, (m.m_source.length : Int) - 1⟩
      (by simp only [Range.size]; omega)
    exact ⟨h1, h2, h3, h4, h5, rfl⟩
  · obtain ⟨h1, h2, h3, h4, h5⟩ := key ⟨0, (d.m_durationProtocol.getCollectionSize : Int) - 1⟩
      (by simp only [Range.size]; omega)
    exact ⟨h1, h2, h3, h4, h5, rfl⟩

/-- Witness for C12: a producer over `['a','b','c']` owning a Cycle is given a
default Serial (created over `[0, 1]`); the Serial then works over `[0, 2]`, and
the next two groups of 3 items, for drawable indices 2,0,1 and 1,2,0, are the
permutations c,a,b and b,c,a of the source.  A producer of the durations
`{1,2,3}` owning a Cycle is given a default Periodic, which then is the active
protocol over `[0, 2]`; and a default Ratio given to the first producer has one
ratio per item. -/
theorem CollectionsProducer.setProtocol_forces_range_and_defaults_witness :
    (((CollectionsProducer.mk ['a', 'b', 'c']
          (.cycle (Cycle.create ⟨0, 2⟩ false false))).setProtocol
          NumberProtocol.createSerial).1 = Outcome.ok () ∧
      ((CollectionsProducer.mk ['a', 'b', 'c']
            (.cycle (Cycle.create ⟨0, 2⟩ false false))).setProtocol
          NumberProtocol.createSerial).2.getParams.activeProtocol
        = NumberProtocol.createSerial.type ∧
      ((CollectionsProducer.mk ['a', 'b', 'c']
            (.cycle (Cycle.create ⟨0, 2⟩ false false))).setProtocol
          NumberProtocol.createSerial).2.m_protocol.type
        = NumberProtocol.createSerial.type ∧
      ((CollectionsProducer.mk ['a', 'b', 'c']
            (.cycle (Cycle.create ⟨0, 2⟩ false false))).setProtocol
          NumberProtocol.createSerial).2.m_protocol.getParams.range
        = ⟨0, ((CollectionsProducer.mk ['a', 'b', 'c']
              (.cycle (Cycle.create ⟨0, 2⟩ false false))).m_source.length : Int) - 1⟩ ∧
      ((CollectionsProducer.mk ['a', 'b', 'c']
            (.cycle (Cycle.create ⟨0, 2⟩ false false))).setProtocol
          NumberProtocol.createSerial).2.getParams
        = NumberProtocol.createSerial.defaultParams
            ⟨0, ((CollectionsProducer.mk ['a', 'b', 'c']
                  (.cycle (Cycle.create ⟨0, 2⟩ false false))).m_source.length : Int) - 1⟩ ∧
      ((CollectionsProducer.mk ['a', 'b', 'c']
            (.cycle (Cycle.create ⟨0, 2⟩ false false))).setProtocol
          NumberProtocol.createSerial).2.m_source
        = (CollectionsProducer.mk ['a', 'b', 'c']
              (.cycle (Cycle.create ⟨0, 2⟩ false false))).m_source) ∧
    (((DurationsProducer.mk (.prescribed [1, 2, 3])
          (.cycle (Cycle.create ⟨0, 2⟩ false false))).setNumberProtocol
          (NumberProtocol.create .periodic)).1 = Outcome.ok () ∧
      ((DurationsProducer.mk (.prescribed [1, 2, 3])
            (.cycle (Cycle.create ⟨0, 2⟩ false false))).setNumberProtocol
          (NumberProtocol.create .periodic)).2.getParams.activeProtocol
        = (NumberProtocol.create .periodic).type ∧
      ((DurationsProducer.mk (.prescribed [1, 2, 3])
            (.cycle (Cycle.create ⟨0, 2⟩ false false))).setNumberProtocol
          (NumberProtocol.create .periodic)).2.m_numberProtocol.type
        = (NumberProtocol.create .periodic).type ∧
      ((DurationsProducer.mk (.prescribed [1, 2, 3])
            (.cycle (Cycle.create ⟨0, 2⟩ false false))).setNumberProtocol
          (NumberProtocol.create .periodic)).2.m_numberProtocol.getParams.range
        = ⟨0, ((DurationsProducer.mk (.prescribed [1, 2, 3])
              (.cycle (Cycle.create ⟨0, 2⟩ false false))).m_durationProtocol.getCollectionSize : Int) - 1⟩ ∧
      ((DurationsProducer.mk (.prescribed [1, 2, 3])
            (.cycle (Cycle.create ⟨0, 2⟩ false false))).setNumberProtocol
          (NumberProtocol.create .periodic)).2.getParams
        = (NumberProtocol.create .periodic).defaultParams
            ⟨0, ((DurationsProducer.mk (.prescribed [1, 2, 3])
                  (.cycle (Cycle.create ⟨0, 2⟩ false false))).m_durationProtocol.getCollectionSize : Int) - 1⟩ ∧
      ((DurationsProducer.mk (.prescribed [1, 2, 3])
            (.cycle (Cycle.create ⟨0, 2⟩ false false))).setNumberProtocol
          (NumberProtocol.create .periodic)).2.m_durationProtocol
        = (DurationsProducer.mk (.prescribed [1, 2, 3])
              (.cycle (Cycle.create ⟨0, 2⟩ false false))).m_durationProtocol) ∧
    ((CollectionsProducer.mk ['a', 'b', 'c'] (.cycle (Cycle.create ⟨0, 2⟩ false false))).setProtocol
        NumberProtocol.createSerial).2
      = CollectionsProducer.mk ['a', 'b', 'c'] (.serial (Serial.create ⟨0, 2⟩)) ∧
    NumberProtocol.createSerial.getParams.range = ⟨0, 1⟩ ∧
    NumberProtocol.createSerial.type = NumberProtocolType.serial ∧
    (Serial.create ⟨0, 2⟩).admissible [2, 0, 1, 1, 2, 0] = true ∧
    ((CollectionsProducer.mk ['a', 'b', 'c'] (.serial (Serial.create ⟨0, 2⟩))).getCollection
        [2, 0, 1, 1, 2, 0]).1
      = [.ok 'c', .ok 'a', .ok 'b', .ok 'b', .ok 'c', .ok 'a'] ∧
    (NumberProtocol.create .periodic).type = NumberProtocolType.periodic ∧
    (NumberProtocol.create .periodic).getParams.range = ⟨0, 1⟩ ∧
    (CollectionsProducer.mk ['a', 'b', 'c'] (.cycle (Cycle.create ⟨0, 2⟩ false false))).setProtocol
        (NumberProtocol.create .ratio)
      = (Outcome.ok (),
          CollectionsProducer.mk ['a', 'b', 'c']
            (.ratio (Ratio.mk ⟨[1, 1, 1]⟩ ⟨0, 2⟩ [1, 1, 1] [0, 1, 2]))) :=
  ⟨(CollectionsProducer.setProtocol_forces_range_and_defaults
      (CollectionsProducer.mk ['a', 'b', 'c'] (.cycle (Cycle.create ⟨0, 2⟩ false false)))
      (DurationsProducer.mk (.prescribed [1, 2, 3]) (.cycle (Cycle.create ⟨0, 2⟩ false false)))
      NumberProtocol.createSerial (by decide) (by decide)).1,
    (CollectionsProducer.setProtocol_forces_range_and_defaults
      (CollectionsProducer.mk ['a', 'b', 'c'] (.cycle (Cycle.create ⟨0, 2⟩ false false)))
      (DurationsProducer.mk (.prescribed [1, 2, 3]) (.cycle (Cycle.create ⟨0, 2⟩ false false)))
      (NumberProtocol.create .periodic) (by decide) (by decide)).2,
    by decide, by decide, by decide, by decide, by decide, by decide, by decide, by decide⟩

/-- C13: `setParams` of a producer, given a parameter set whose variant tag
differs from the variant of the currently owned protocol, fails with an
invalid-argument error and leaves the producer, and so the protocol's
parameters, unchanged. -/
theorem CollectionsProducer.setParams_rejects_other_variant {α : Type}
    (m : CollectionsProducer α) (d : DurationsProducer) (newParams : NumberProtocolParams)
    (hother : newParams.activeProtocol ≠ m.m_protocol.type)
    (hotherD : newParams.activeProtocol ≠ d.m_numberProtocol.type) :
    ((m.setParams newParams).1 = Outcome.error Error.invalidArgument ∧
      (m.setParams newParams).2 = m ∧
      (m.setParams newParams).2.getParams = m.getParams) ∧
    ((d.setParams newParams).1 = Outcome.error Error.invalidArgument ∧
      (d.setParams newParams).2 = d ∧
      (d.setParams newParams).2.getParams = d.getParams) := by
  constructor
  · unfold CollectionsProducer.setParams
    rw [if_pos hother]
    exact ⟨rfl, rfl, rfl⟩
  · unfold DurationsProducer.setParams
    rw [if_pos hotherD]
    exact ⟨rfl, rfl, rfl⟩

/-- Witness for C13: Basic parameters given to producers owning a Cycle, as in
the tests. -/
theorem CollectionsProducer.setParams_rejects_other_variant_witness :
    (((CollectionsProducer.mk ['a', 'b', 'c'] (.cycle (Cycle.create ⟨0, 2⟩ false false))).setParams
          (NumberProtocolParams.ofTag .basic)).1 = Outcome.error Error.invalidArgument ∧
      ((CollectionsProducer.mk ['a', 'b', 'c'] (.cycle (Cycle.create ⟨0, 2⟩ false false))).setParams
          (NumberProtocolParams.ofTag .basic)).2
        = CollectionsProducer.mk ['a', 'b', 'c'] (.cycle (Cycle.create ⟨0, 2⟩ false false)) ∧
      ((CollectionsProducer.mk ['a', 'b', 'c'] (.cycle (Cycle.create ⟨0, 2⟩ false false))).setParams
          (NumberProtocolParams.ofTag .basic)).2.getParams
        = (CollectionsProducer.mk ['a', 'b', 'c']
            (.cycle (Cycle.create ⟨0, 2⟩ false false))).getParams) ∧
    (((DurationsProducer.mk (.prescribed [1, 2, 3, 4, 5])
          (.cycle (Cycle.create ⟨0, 4⟩ false false))).setParams
            (NumberProtocolParams.ofTag .basic)).1 = Outcome.error Error.invalidArgument ∧
      ((DurationsProducer.mk (.prescribed [1, 2, 3, 4, 5])
          (.cycle (Cycle.create ⟨0, 4⟩ false false))).setParams
            (NumberProtocolParams.ofTag .basic)).2
        = DurationsProducer.mk (.prescribed [1, 2, 3, 4, 5])
            (.cycle (Cycle.create ⟨0, 4⟩ false false)) ∧
      ((DurationsProducer.mk (.prescribed [1, 2, 3, 4, 5])
          (.cycle (Cycle.create ⟨0, 4⟩ false false))).setParams
            (NumberProtocolParams.ofTag .basic)).2.getParams
        = (DurationsProducer.mk (.prescribed [1, 2, 3, 4, 5])
            (.cycle (Cycle.create ⟨0, 4⟩ false false))).getParams) :=
  CollectionsProducer.setParams_rejects_other_variant
    (CollectionsProducer.mk ['a', 'b', 'c'] (.cycle (Cycle.create ⟨0, 2⟩ false false)))
    (DurationsProducer.mk (.prescribed [1, 2, 3, 4, 5]) (.cycle (Cycle.create ⟨0, 4⟩ false false)))
    (NumberProtocolParams.ofTag .basic) (by decide) (by decide)

/-! ## Claims: AdjacentSteps neighbour distribution -/

/-- C29: over a Range of size at least 2, on a protocol whose vector is as long
as its Range and with the generator returning an index of non-zero weight,
`getIntegerNumber` returns a value `v` of the Range and, with
`i = v - range.offset`, leaves a vector of the same length whose weight is 1 at
index `i + 1` if `v != range.end`, 1 at index `i - 1` if `v != range.start`, and
0 at every other index (at `i` itself too).  For an interior value exactly the
two indices `i - 1` and `i + 1` are eligible, for a boundary value exactly
one. -/
theorem AdjacentSteps.neighbour_weights_after_draw (s : AdjacentSteps) (pick : Nat)
    (hsize : 2 ≤ s.m_range.size)
    (hlen : (s.m_generator.distribution.length : Int) = s.m_range.size)
    (hdraw : s.m_generator.mayDraw pick = true) :
    ∃ v : Int, (s.getIntegerNumber pick).1 = Outcome.ok v ∧
      s.m_range.start ≤ v ∧ v ≤ s.m_range.end_ ∧
      (((s.getIntegerNumber pick).2.m_generator.distribution.length : Nat) : Int)
        = s.m_range.size ∧
      (∀ (j : Nat) (hj : j < (s.getIntegerNumber pick).2.m_generator.distribution.length),
        (s.getIntegerNumber pick).2.m_generator.distribution[j] =
          if ((j : Int) = v - s.m_range.offset + 1 ∧ v ≠ s.m_range.end_) ∨
             ((j : Int) = v - s.m_range.offset - 1 ∧ v ≠ s.m_range.start) then 1 else 0) ∧
      (v ≠ s.m_range.start → v ≠ s.m_range.end_ →
        ∀ j : Nat, (s.getIntegerNumber pick).2.m_generator.mayDraw j = true ↔
          ((j : Int) = v - s.m_range.offset - 1 ∨ (j : Int) = v - s.m_range.offset + 1)) ∧
      (v = s.m_range.start →
        ∀ j : Nat, (s.getIntegerNumber pick).2.m_generator.mayDraw j = true ↔
          (j : Int) = v - s.m_range.offset + 1) ∧
      (v = s.m_range.end_ →
        ∀ j : Nat, (s.getIntegerNumber pick).2.m_generator.mayDraw j = true ↔
          (j : Int) = v - s.m_range.offset - 1) := by
  obtain ⟨hlt, -⟩ := (s.m_generator.mayDraw_iff pick).1 hdraw
  have hstep := s.adjacent_step_spec pick hsize hlen hdraw
  have hsz : s.m_range.size = s.m_range.end_ - s.m_range.start + 1 := rfl
  rw [hstep]
  simp only [Range.offset]
  refine ⟨(pick : Int) + s.m_range.start, rfl, by omega, by omega,
    by rw [adjacentWeights_length]; exact hlen, ?_, ?_, ?_, ?_⟩
  · intro j hj
    rw [adjacentWeights_getElem]
    rw [adjacentWeights_length] at hj
    by_cases hc : j = pick + 1 ∨ j + 1 = pick
    · rw [if_pos hc, if_pos (by omega)]
    · rw [if_neg hc, if_neg (by omega)]
  · intro h1 h2 j
    rw [mayDraw_adjacentWeights_iff]
    omega
  · intro h1 j
    rw [mayDraw_adjacentWeights_iff]
    omega
  · intro h1 j
    rw [mayDraw_adjacentWeights_iff]
    omega

/-- Witness for C29: range `[0, 9]`, first draw at index 4. -/
theorem AdjacentSteps.neighbour_weights_after_draw_witness :
    ∃ v : Int, ((AdjacentSteps.create ⟨0, 9⟩).getIntegerNumber 4).1 = Outcome.ok v ∧
      (AdjacentSteps.create ⟨0, 9⟩).m_range.start ≤ v ∧
      v ≤ (AdjacentSteps.create ⟨0, 9⟩).m_range.end_ ∧
      ((((AdjacentSteps.create ⟨0, 9⟩).getIntegerNumber 4).2.m_generator.distribution.length
        : Nat) : Int) = (AdjacentSteps.create ⟨0, 9⟩).m_range.size ∧
      (∀ (j : Nat)
        (hj : j < ((AdjacentSteps.create ⟨0, 9⟩).getIntegerNumber
          4).2.m_generator.distribution.length),
        ((AdjacentSteps.create ⟨0, 9⟩).getIntegerNumber 4).2.m_generator.distribution[j] =
          if ((j : Int) = v - (AdjacentSteps.create ⟨0, 9⟩).m_range.offset + 1 ∧
                v ≠ (AdjacentSteps.create ⟨0, 9⟩).m_range.end_) ∨
             ((j : Int) = v - (AdjacentSteps.create ⟨0, 9⟩).m_range.offset - 1 ∧
                v ≠ (AdjacentSteps.create ⟨0, 9⟩).m_range.start) then 1 else 0) ∧
      (v ≠ (AdjacentSteps.create ⟨0, 9⟩).m_range.start →
        v ≠ (AdjacentSteps.create ⟨0, 9⟩).m_range.end_ →
        ∀ j : Nat, ((AdjacentSteps.create ⟨0, 9⟩).getIntegerNumber 4).2.m_generator.mayDraw j
            = true ↔
          ((j : Int) = v - (AdjacentSteps.create ⟨0, 9⟩).m_range.offset - 1 ∨
            (j : Int) = v - (AdjacentSteps.create ⟨0, 9⟩).m_range.offset + 1)) ∧
      (v = (AdjacentSteps.create ⟨0, 9⟩).m_range.start →
        ∀ j : Nat, ((AdjacentSteps.create ⟨0, 9⟩).getIntegerNumber 4).2.m_generator.mayDraw j
            = true ↔
          (j : Int) = v - (AdjacentSteps.create ⟨0, 9⟩).m_range.offset + 1) ∧
      (v = (AdjacentSteps.create ⟨0, 9⟩).m_range.end_ →
        ∀ j : Nat, ((AdjacentSteps.create ⟨0, 9⟩).getIntegerNumber 4).2.m_generator.mayDraw j
            = true ↔
          (j : Int) = v - (AdjacentSteps.create ⟨0, 9⟩).m_range.offset - 1) :=
  AdjacentSteps.neighbour_weights_after_draw (AdjacentSteps.create ⟨0, 9⟩) 4 (by decide)
    (by decide) (by decide)

/-! ## Lemmas: AdjacentSteps reconfiguration around the last number -/

/-- `setParams` on a protocol that has drawn, with a Range of size at least 2
that contains the last returned number: the neighbour distribution of that
number, over the new Range, is left behind. -/
theorem AdjacentSteps.setParams_in_range_eq (s : AdjacentSteps) (newParams : NumberProtocolConfig)
    (hsize : 2 ≤ newParams.range.size) (hflag : s.m_haveRequestedFirstNumber = true)
    (hin : newParams.range.numberIsInRange s.m_lastReturnedNumber = true) :
    s.setParams newParams =
      (.ok (),
        { m_generator := ⟨adjacentWeights newParams.range.size.toNat
            (s.m_lastReturnedNumber - newParams.range.start).toNat⟩
          m_range := newParams.range
          m_haveRequestedFirstNumber := true
          m_lastReturnedNumber := s.m_lastReturnedNumber }) := by
  unfold AdjacentSteps.setParams
  simp only [hflag, hin, Bool.and_self, if_true]
  simp only [Range.numberIsInRange, Bool.and_eq_true, decide_eq_true_eq] at hin
  have hsz : newParams.range.size = newParams.range.end_ - newParams.range.start + 1 := rfl
  have hidx : s.m_lastReturnedNumber
      = (((s.m_lastReturnedNumber - newParams.range.start).toNat : Nat) : Int)
        + newParams.range.start := by omega
  have hspec := AdjacentSteps.prepareStepBasedDistribution_spec
    { s with m_range := newParams.range,
             m_generator := s.m_generator.setDistributionVector newParams.range.size 1 }
    (s.m_lastReturnedNumber - newParams.range.start).toNat hsize
    (by simp only [DiscreteGenerator.setDistributionVector, List.length_replicate]; omega)
    (by simp only [DiscreteGenerator.setDistributionVector, List.length_replicate]; omega)
  simp only [hflag] at hspec
  rw [← hidx] at hspec
  rw [hspec]
  simp only [DiscreteGenerator.setDistributionVector, List.length_replicate]

/-- `setParams` on a protocol that has not drawn yet, or whose last returned
number is outside the new Range: a vector of weight 1 over the new Range is
left behind. -/
theorem AdjacentSteps.setParams_out_of_range_eq (s : AdjacentSteps)
    (newParams : NumberProtocolConfig)
    (hcase : s.m_haveRequestedFirstNumber = false ∨
      newParams.range.numberIsInRange s.m_lastReturnedNumber = false) :
    s.setParams newParams =
      (.ok (),
        { m_generator := ⟨List.replicate newParams.range.size.toNat 1⟩
          m_range := newParams.range
          m_haveRequestedFirstNumber := s.m_haveRequestedFirstNumber
          m_lastReturnedNumber := s.m_lastReturnedNumber }) := by
  unfold AdjacentSteps.setParams
  have hc : (s.m_haveRequestedFirstNumber &&
      newParams.range.numberIsInRange s.m_lastReturnedNumber) = false := by
    rcases hcase with h | h
    · rw [h]; rfl
    · rw [h]; simp
  simp only [hc, DiscreteGenerator.setDistributionVector]
  rfl

/-! ## Claims: AdjacentSteps reconfiguration around the last number -/

/-- C30: if at least one number has been drawn (`m_haveRequestedFirstNumber`)
and the last returned number `v` lies in the new Range (size at least 2) passed
to `setParams`, the call returns, installs the new Range, leaves a draw
possible, and the next draw (of an index of non-zero weight) returns `v + 1` or
`v - 1`, a value of the new Range. -/
theorem AdjacentSteps.setParams_keeps_walk (s : AdjacentSteps) (newParams : NumberProtocolConfig)
    (hsize : 2 ≤ newParams.range.size) (hflag : s.m_haveRequestedFirstNumber = true)
    (hin : newParams.range.numberIsInRange s.m_lastReturnedNumber = true) :
    (s.setParams newParams).1 = Outcome.ok () ∧
      (s.setParams newParams).2.m_range = newParams.range ∧
      (∃ next : Nat, (s.setParams newParams).2.m_generator.mayDraw next = true) ∧
      ∀ next : Nat, (s.setParams newParams).2.m_generator.mayDraw next = true →
        ∃ w : Int, ((s.setParams newParams).2.getIntegerNumber next).1 = Outcome.ok w ∧
          (w = s.m_lastReturnedNumber + 1 ∨ w = s.m_lastReturnedNumber - 1) ∧
          newParams.range.start ≤ w ∧ w ≤ newParams.range.end_ := by
  have heq := s.setParams_in_range_eq newParams hsize hflag hin
  simp only [Range.numberIsInRange, Bool.and_eq_true, decide_eq_true_eq] at hin
  have hsz : newParams.range.size = newParams.range.end_ - newParams.range.start + 1 := rfl
  rw [heq]
  refine ⟨rfl, rfl, ?_, ?_⟩
  · by_cases hstart : s.m_lastReturnedNumber = newParams.range.start
    · refine ⟨1, ?_⟩
      simp only []
      rw [mayDraw_adjacentWeights_iff]
      omega
    · refine ⟨(s.m_lastReturnedNumber - newParams.range.start).toNat - 1, ?_⟩
      simp only []
      rw [mayDraw_adjacentWeights_iff]
      omega
  · intro next hnext
    simp only [] at hnext
    have hnb := (mayDraw_adjacentWeights_iff _ _ _).1 hnext
    have hstep := AdjacentSteps.adjacent_step_spec
      (AdjacentSteps.mk ⟨adjacentWeights newParams.range.size.toNat
        (s.m_lastReturnedNumber - newParams.range.start).toNat⟩ newParams.range true
        s.m_lastReturnedNumber) next hsize
      (by simp only [adjacentWeights_length]; omega) hnext
    rw [hstep]
    refine ⟨(next : Int) + newParams.range.start, rfl, ?_, ?_, ?_⟩ <;> omega

/-- Witness for C30: range `[0, 9]`, draws 3 and 4, then a reconfiguration to
`[2, 4]`, which contains the last number 4. -/
theorem AdjacentSteps.setParams_keeps_walk_witness :
    ((((AdjacentSteps.create ⟨0, 9⟩).draws [3, 4]).2.setParams
        ⟨⟨2, 4⟩, NumberProtocolParams.ofTag .adjacentSteps⟩).1 = Outcome.ok () ∧
      (((AdjacentSteps.create ⟨0, 9⟩).draws [3, 4]).2.setParams
        ⟨⟨2, 4⟩, NumberProtocolParams.ofTag .adjacentSteps⟩).2.m_range
        = (NumberProtocolConfig.mk ⟨2, 4⟩ (NumberProtocolParams.ofTag .adjacentSteps)).range ∧
      (∃ next : Nat, (((AdjacentSteps.create ⟨0, 9⟩).draws [3, 4]).2.setParams
        ⟨⟨2, 4⟩, NumberProtocolParams.ofTag .adjacentSteps⟩).2.m_generator.mayDraw next = true) ∧
      ∀ next : Nat, (((AdjacentSteps.create ⟨0, 9⟩).draws [3, 4]).2.setParams
          ⟨⟨2, 4⟩, NumberProtocolParams.ofTag .adjacentSteps⟩).2.m_generator.mayDraw next = true →
        ∃ w : Int, ((((AdjacentSteps.create ⟨0, 9⟩).draws [3, 4]).2.setParams
            ⟨⟨2, 4⟩, NumberProtocolParams.ofTag .adjacentSteps⟩).2.getIntegerNumber next).1
            = Outcome.ok w ∧
          (w = ((AdjacentSteps.create ⟨0, 9⟩).draws [3, 4]).2.m_lastReturnedNumber + 1 ∨
            w = ((AdjacentSteps.create ⟨0, 9⟩).draws [3, 4]).2.m_lastReturnedNumber - 1) ∧
          (NumberProtocolConfig.mk ⟨2, 4⟩ (NumberProtocolParams.ofTag .adjacentSteps)).range.start
            ≤ w ∧
          w ≤ (NumberProtocolConfig.mk ⟨2, 4⟩
            (NumberProtocolParams.ofTag .adjacentSteps)).range.end_) :=
  AdjacentSteps.setParams_keeps_walk ((AdjacentSteps.create ⟨0, 9⟩).draws [3, 4]).2
    ⟨⟨2, 4⟩, NumberProtocolParams.ofTag .adjacentSteps⟩ (by decide) (by decide) (by decide)

/-- C31: if `setParams` is called before any number has been drawn, or when the
last returned number lies outside the new (valid) Range, the call returns and
leaves a distribution vector of length `newRange.size` with every weight equal
to 1: every value of the new Range may be drawn next, and over a Range of size
at least 2 the draw of its index returns it. -/
theorem AdjacentSteps.setParams_without_walk_resets (s : AdjacentSteps)
    (newParams : NumberProtocolConfig) (hvalid : 1 ≤ newParams.range.size)
    (hcase : s.m_haveRequestedFirstNumber = false ∨
      newParams.range.numberIsInRange s.m_lastReturnedNumber = false) :
    (s.setParams newParams).1 = Outcome.ok () ∧
      (s.setParams newParams).2.m_range = newParams.range ∧
      (((s.setParams newParams).2.m_generator.distribution.length : Nat) : Int)
        = newParams.range.size ∧
      (∀ w ∈ (s.setParams newParams).2.m_generator.distribution, w = 1) ∧
      ∀ v : Int, newParams.range.start ≤ v → v ≤ newParams.range.end_ →
        (s.setParams newParams).2.m_generator.mayDraw (v - newParams.range.start).toNat = true ∧
        (2 ≤ newParams.range.size →
          ((s.setParams newParams).2.getIntegerNumber (v - newParams.range.start).toNat).1
            = Outcome.ok v) := by
  have heq := s.setParams_out_of_range_eq newParams hcase
  have hsz : newParams.range.size = newParams.range.end_ - newParams.range.start + 1 := rfl
  rw [heq]
  simp only []
  refine ⟨trivial, trivial, by rw [List.length_replicate]; omega,
    fun w hw => (List.mem_replicate.1 hw).2, ?_⟩
  intro v hv1 hv2
  have hdraw : (DiscreteGenerator.mk (List.replicate newParams.range.size.toNat 1)).mayDraw
      (v - newParams.range.start).toNat = true := by
    rw [DiscreteGenerator.mayDraw_iff]
    refine ⟨by simp only [List.length_replicate]; omega, ?_⟩
    simp
  refine ⟨hdraw, ?_⟩
  intro hsize
  have hstep := AdjacentSteps.adjacent_step_spec
    (AdjacentSteps.mk ⟨List.replicate newParams.range.size.toNat 1⟩ newParams.range
      s.m_haveRequestedFirstNumber s.m_lastReturnedNumber)
    (v - newParams.range.start).toNat hsize
    (by simp only [List.length_replicate]; omega) hdraw
  rw [hstep]
  simp only [Outcome.ok.injEq]
  omega

/-- Witness for C31: range `[0, 9]`, one draw returning 3, then a
reconfiguration to `[5, 7]`, which does not contain 3. -/
theorem AdjacentSteps.setParams_without_walk_resets_witness :
    ((((AdjacentSteps.create ⟨0, 9⟩).draws [3]).2.setParams
        ⟨⟨5, 7⟩, NumberProtocolParams.ofTag .adjacentSteps⟩).1 = Outcome.ok () ∧
      (((AdjacentSteps.create ⟨0, 9⟩).draws [3]).2.setParams
        ⟨⟨5, 7⟩, NumberProtocolParams.ofTag .adjacentSteps⟩).2.m_range
        = (NumberProtocolConfig.mk ⟨5, 7⟩ (NumberProtocolParams.ofTag .adjacentSteps)).range ∧
      ((((((AdjacentSteps.create ⟨0, 9⟩).draws [3]).2.setParams
        ⟨⟨5, 7⟩, NumberProtocolParams.ofTag .adjacentSteps⟩).2.m_generator.distribution.length
          : Nat) : Int))
        = (NumberProtocolConfig.mk ⟨5, 7⟩ (NumberProtocolParams.ofTag .adjacentSteps)).range.size ∧
      (∀ w ∈ (((AdjacentSteps.create ⟨0, 9⟩).draws [3]).2.setParams
        ⟨⟨5, 7⟩, NumberProtocolParams.ofTag .adjacentSteps⟩).2.m_generator.distribution, w = 1) ∧
      ∀ v : Int,
        (NumberProtocolConfig.mk ⟨5, 7⟩ (NumberProtocolParams.ofTag .adjacentSteps)).range.start
          ≤ v →
        v ≤ (NumberProtocolConfig.mk ⟨5, 7⟩ (NumberProtocolParams.ofTag .adjacentSteps)).range.end_ →
        (((AdjacentSteps.create ⟨0, 9⟩).draws [3]).2.setParams
          ⟨⟨5, 7⟩, NumberProtocolParams.ofTag .adjacentSteps⟩).2.m_generator.mayDraw
            (v - (NumberProtocolConfig.mk ⟨5, 7⟩
              (NumberProtocolParams.ofTag .adjacentSteps)).range.start).toNat = true ∧
        (2 ≤ (NumberProtocolConfig.mk ⟨5, 7⟩
            (NumberProtocolParams.ofTag .adjacentSteps)).range.size →
          ((((AdjacentSteps.create ⟨0, 9⟩).draws [3]).2.setParams
            ⟨⟨5, 7⟩, NumberProtocolParams.ofTag .adjacentSteps⟩).2.getIntegerNumber
              (v - (NumberProtocolConfig.mk ⟨5, 7⟩
                (NumberProtocolParams.ofTag .adjacentSteps)).range.start).toNat).1
            = Outcome.ok v)) :=
  AdjacentSteps.setParams_without_walk_resets ((AdjacentSteps.create ⟨0, 9⟩).draws [3]).2
    ⟨⟨5, 7⟩, NumberProtocolParams.ofTag .adjacentSteps⟩ (by decide) (Or.inr (by decide))

/-! ## Lemmas: indices passed to the single-entry update -/

/-- For the number at vector index `i` of a vector as long as the Range (size
at least 2), every index passed to the single-entry update is a position of the
vector. -/
theorem AdjacentSteps.updateIndices_bounds (s : AdjacentSteps) (i : Nat)
    (hsize : 2 ≤ s.m_range.size)
    (hlen : (s.m_generator.distribution.length : Int) = s.m_range.size)
    (hlt : i < s.m_generator.distribution.length) :
    ∀ index ∈ s.updateIndices ((i : Int) + s.m_range.start),
      0 ≤ index ∧ index ≤ s.m_range.size - 1 := by
  have hsz : s.m_range.size = s.m_range.end_ - s.m_range.start + 1 := rfl
  intro index hmem
  unfold AdjacentSteps.updateIndices at hmem
  simp only [Range.offset, add_sub_cancel_right] at hmem
  split at hmem
  · simp only [List.mem_singleton] at hmem
    omega
  · split at hmem
    · simp only [List.mem_singleton] at hmem
      omega
    · split at hmem
      · simp only [List.mem_cons, List.mem_singleton, List.not_mem_nil, or_false] at hmem
        omega
      · simp only [List.mem_singleton] at hmem
        omega

/-- For a number outside the Range, `prepareStepBasedDistribution` passes an
index that is not a position of the vector, and throws. -/
theorem AdjacentSteps.updateIndices_outside (s : AdjacentSteps) (number : Int)
    (hsize : 2 ≤ s.m_range.size)
    (hlen : (s.m_generator.distribution.length : Int) = s.m_range.size)
    (hout : s.m_range.numberIsInRange number = false) :
    (∃ index ∈ s.updateIndices number, ¬ (0 ≤ index ∧ index ≤ s.m_range.size - 1)) ∧
      (s.prepareStepBasedDistribution number).1 = Outcome.error Error.outOfRange := by
  have hsz : s.m_range.size = s.m_range.end_ - s.m_range.start + 1 := rfl
  have hl0 : (s.m_generator.updateDistributionVectorAll 0).distribution.length
      = s.m_generator.distribution.length := by
    simp [DiscreteGenerator.updateDistributionVectorAll]
  have hout2 : number < s.m_range.start ∨ s.m_range.end_ < number := by
    simp only [Range.numberIsInRange, Bool.and_eq_false_iff, decide_eq_false_iff_not] at hout
    omega
  have h1 : number ≠ s.m_range.start := by omega
  have h2 : number ≠ s.m_range.end_ := by omega
  unfold AdjacentSteps.updateIndices AdjacentSteps.prepareStepBasedDistribution
  simp only [Range.offset, if_neg h1, if_neg h2]
  rcases hout2 with hlow | hhigh
  · -- below the Range: index + 1 may or may not be a position, index - 1 is not
    cases hu : (s.m_generator.updateDistributionVectorAll 0).updateDistributionVector
        (number - s.m_range.start + 1) 1 with
    | error e =>
      have := DiscreteGenerator.updateDistributionVector_error _ _ _ _ hu
      subst this
      refine ⟨⟨number - s.m_range.start + 1, by simp, ?_⟩, rfl⟩
      unfold DiscreteGenerator.updateDistributionVector at hu
      split at hu
      · simp at hu
      · rename_i hc
        rw [hl0] at hc
        omega
    | ok g1 =>
      have hl1 := DiscreteGenerator.updateDistributionVector_length _ _ _ _ hu
      have hfail : g1.updateDistributionVector (number - s.m_range.start - 1) 1
          = Outcome.error Error.outOfRange := by
        unfold DiscreteGenerator.updateDistributionVector
        rw [if_neg (by omega)]
      simp only [hfail]
      refine ⟨⟨number - s.m_range.start - 1, by simp, by omega⟩, trivial⟩
  · have hfail : (s.m_generator.updateDistributionVectorAll 0).updateDistributionVector
        (number - s.m_range.start + 1) 1 = Outcome.error Error.outOfRange := by
      unfold DiscreteGenerator.updateDistributionVector
      rw [if_neg (by rw [hl0]; omega)]
    simp only [hfail]
    refine ⟨⟨number - s.m_range.start + 1, by simp, by omega⟩, trivial⟩

/-- Admissible calls keep the Range at size at least 2 and the vector as long
as the Range. -/
theorem AdjacentSteps.callsAdmissible_invariant (calls : List AdjacentSteps.Call) :
    ∀ s : AdjacentSteps, 2 ≤ s.m_range.size →
      (s.m_generator.distribution.length : Int) = s.m_range.size →
      s.callsAdmissible calls = true →
      2 ≤ (s.afterCalls calls).m_range.size ∧
      (((s.afterCalls calls).m_generator.distribution.length : Nat) : Int)
        = (s.afterCalls calls).m_range.size := by
  induction calls with
  | nil => intro s h1 h2 _; exact ⟨h1, h2⟩
  | cons c cs ih =>
    intro s h1 h2 hadm
    simp only [AdjacentSteps.callsAdmissible, Bool.and_eq_true] at hadm
    simp only [AdjacentSteps.afterCalls]
    cases c with
    | getIntegerNumber pick =>
      apply ih _ _ _ hadm.2
      · simp only [AdjacentSteps.afterCall]
        rw [AdjacentSteps.adjacent_step_keeps_range]; exact h1
      · simp only [AdjacentSteps.afterCall]
        rw [AdjacentSteps.adjacent_step_keeps_length, AdjacentSteps.adjacent_step_keeps_range]
        exact h2
    | setParams newParams =>
      have hs := hadm.1
      simp only [AdjacentSteps.callAdmissible, decide_eq_true_eq] at hs
      obtain ⟨g1, g2⟩ := AdjacentSteps.setParams_range_length s newParams
      apply ih _ _ _ hadm.2
      · simp only [AdjacentSteps.afterCall]
        rw [g1]; exact hs
      · simp only [AdjacentSteps.afterCall]
        rw [g1, g2]; omega

/-! ## Claims: AdjacentSteps update indices -/

/-- C35: over Ranges of size at least 2 (at construction and in every
reconfiguration), with the generator returning only indices of non-zero weight:
in every state the protocol reaches, every index a call passes to the
generator's single-entry update lies in `[0, size - 1]` for the Range in force
when the update is made, and the call does not throw.  In `setParams` this
rests on the `numberIsInRange` guard: for a last number outside the new Range
the unguarded `prepareStepBasedDistribution` would pass an index outside
`[0, size - 1]` and `OutOfRange` would be thrown. -/
theorem AdjacentSteps.update_index_never_out_of_range (range : Range)
    (hsize : 2 ≤ range.size) (calls : List AdjacentSteps.Call) (call : AdjacentSteps.Call)
    (hcalls : (AdjacentSteps.create range).callsAdmissible calls = true)
    (hcall : ((AdjacentSteps.create range).afterCalls calls).callAdmissible call = true) :
    (∀ index ∈ ((AdjacentSteps.create range).afterCalls calls).callUpdateIndices call,
        0 ≤ index ∧
        index ≤ (((AdjacentSteps.create range).afterCalls calls).afterCall call).m_range.size - 1) ∧
      ((AdjacentSteps.create range).afterCalls calls).callError call = none ∧
      ∀ (newParams : NumberProtocolConfig) (number : Int), 2 ≤ newParams.range.size →
        newParams.range.numberIsInRange number = false →
        (∃ index ∈ AdjacentSteps.updateIndices
            { ((AdjacentSteps.create range).afterCalls calls) with
              m_range := newParams.range
              m_generator := ((AdjacentSteps.create range).afterCalls
                calls).m_generator.setDistributionVector newParams.range.size 1 } number,
          ¬ (0 ≤ index ∧ index ≤ newParams.range.size - 1)) ∧
        (AdjacentSteps.prepareStepBasedDistribution
            { ((AdjacentSteps.create range).afterCalls calls) with
              m_range := newParams.range
              m_generator := ((AdjacentSteps.create range).afterCalls
                calls).m_generator.setDistributionVector newParams.range.size 1 } number).1
          = Outcome.error Error.outOfRange := by
  obtain ⟨h1, h2⟩ := AdjacentSteps.callsAdmissible_invariant calls (AdjacentSteps.create range)
    hsize (AdjacentSteps.create_length range hsize) hcalls
  generalize (AdjacentSteps.create range).afterCalls calls = s at h1 h2 hcall ⊢
  have hsz : s.m_range.size = s.m_range.end_ - s.m_range.start + 1 := rfl
  refine ⟨?_, ?_, ?_⟩
  · cases call with
    | getIntegerNumber pick =>
      simp only [AdjacentSteps.callAdmissible] at hcall
      obtain ⟨hlt, -⟩ := (s.m_generator.mayDraw_iff pick).1 hcall
      simp only [AdjacentSteps.callUpdateIndices, AdjacentSteps.afterCall,
        DiscreteGenerator.getNumber_of_mayDraw _ _ hcall, Range.offset,
        AdjacentSteps.adjacent_step_keeps_range]
      exact AdjacentSteps.updateIndices_bounds
        { s with m_lastReturnedNumber := (pick : Int) + s.m_range.start,
                 m_haveRequestedFirstNumber := true } pick h1 h2 hlt
    | setParams newParams =>
      simp only [AdjacentSteps.callAdmissible, decide_eq_true_eq] at hcall
      have hnsz : newParams.range.size = newParams.range.end_ - newParams.range.start + 1 := rfl
      simp only [AdjacentSteps.callUpdateIndices, AdjacentSteps.afterCall,
        (AdjacentSteps.setParams_range_length s newParams).1]
      split
      · rename_i hguard
        simp only [Bool.and_eq_true, Range.numberIsInRange, decide_eq_true_eq] at hguard
        have hidx : s.m_lastReturnedNumber
            = (((s.m_lastReturnedNumber - newParams.range.start).toNat : Nat) : Int)
              + newParams.range.start := by omega
        have := AdjacentSteps.updateIndices_bounds
          { s with m_range := newParams.range,
                   m_generator := s.m_generator.setDistributionVector newParams.range.size 1 }
          (s.m_lastReturnedNumber - newParams.range.start).toNat hcall
          (by simp only [DiscreteGenerator.setDistributionVector, List.length_replicate]; omega)
          (by simp only [DiscreteGenerator.setDistributionVector, List.length_replicate]; omega)
        simp only [] at this
        rw [← hidx] at this
        exact this
      · intro index hmem
        simp at hmem
  · cases call with
    | getIntegerNumber pick =>
      simp only [AdjacentSteps.callAdmissible] at hcall
      simp only [AdjacentSteps.callError, s.adjacent_step_spec pick h1 h2 hcall]
    | setParams newParams =>
      simp only [AdjacentSteps.callAdmissible, decide_eq_true_eq] at hcall
      simp only [AdjacentSteps.callError, (AdjacentSteps.setParams_ok s newParams hcall).1]
  · intro newParams number hnew hout
    exact AdjacentSteps.updateIndices_outside
      { s with m_range := newParams.range,
               m_generator := s.m_generator.setDistributionVector newParams.range.size 1 }
      number hnew
      (by simp only [DiscreteGenerator.setDistributionVector, List.length_replicate]; omega) hout

/-- Witness for C35: range `[0, 9]`; draws 3 and 4, a reconfiguration to
`[2, 4]` (which rebuilds the vector around the last number 4), and then the
draw of index 1. -/
theorem AdjacentSteps.update_index_never_out_of_range_witness :
    (∀ index ∈ ((AdjacentSteps.create ⟨0, 9⟩).afterCalls
          [.getIntegerNumber 3, .getIntegerNumber 4,
            .setParams ⟨⟨2, 4⟩, NumberProtocolParams.ofTag .adjacentSteps⟩]).callUpdateIndices
          (.getIntegerNumber 1),
        0 ≤ index ∧
        index ≤ (((AdjacentSteps.create ⟨0, 9⟩).afterCalls
          [.getIntegerNumber 3, .getIntegerNumber 4,
            .setParams ⟨⟨2, 4⟩, NumberProtocolParams.ofTag .adjacentSteps⟩]).afterCall
          (.getIntegerNumber 1)).m_range.size - 1) ∧
      ((AdjacentSteps.create ⟨0, 9⟩).afterCalls
          [.getIntegerNumber 3, .getIntegerNumber 4,
            .setParams ⟨⟨2, 4⟩, NumberProtocolParams.ofTag .adjacentSteps⟩]).callError
          (.getIntegerNumber 1) = none ∧
      ∀ (newParams : NumberProtocolConfig) (number : Int), 2 ≤ newParams.range.size →
        newParams.range.numberIsInRange number = false →
        (∃ index ∈ AdjacentSteps.updateIndices
            { ((AdjacentSteps.create ⟨0, 9⟩).afterCalls
                [.getIntegerNumber 3, .getIntegerNumber 4,
                  .setParams ⟨⟨2, 4⟩, NumberProtocolParams.ofTag .adjacentSteps⟩]) with
              m_range := newParams.range
              m_generator := ((AdjacentSteps.create ⟨0, 9⟩).afterCalls
                [.getIntegerNumber 3, .getIntegerNumber 4,
                  .setParams ⟨⟨2, 4⟩, NumberProtocolParams.ofTag
                    .adjacentSteps⟩]).m_generator.setDistributionVector
                newParams.range.size 1 } number,
          ¬ (0 ≤ index ∧ index ≤ newParams.range.size - 1)) ∧
        (AdjacentSteps.prepareStepBasedDistribution
            { ((AdjacentSteps.create ⟨0, 9⟩).afterCalls
                [.getIntegerNumber 3, .getIntegerNumber 4,
                  .setParams ⟨⟨2, 4⟩, NumberProtocolParams.ofTag .adjacentSteps⟩]) with
              m_range := newParams.range
              m_generator := ((AdjacentSteps.create ⟨0, 9⟩).afterCalls
                [.getIntegerNumber 3, .getIntegerNumber 4,
                  .setParams ⟨⟨2, 4⟩, NumberProtocolParams.ofTag
                    .adjacentSteps⟩]).m_generator.setDistributionVector
                newParams.range.size 1 } number).1
          = Outcome.error Error.outOfRange :=
  AdjacentSteps.update_index_never_out_of_range ⟨0, 9⟩ (by decide)
    [.getIntegerNumber 3, .getIntegerNumber 4,
      .setParams ⟨⟨2, 4⟩, NumberProtocolParams.ofTag .adjacentSteps⟩]
    (.getIntegerNumber 1) (by decide) (by decide)

/-! ## Lemmas: Ratio selectables -/

/-- The loops of `setSelectables` from outer index `j` on, as a concatenation
of blocks of copies. -/
theorem Ratio.expandFrom_eq_flatten (offset : Int) (rs : List Int) :
    ∀ j : Nat, Ratio.expandFrom offset j rs =
      ((List.range rs.length).map
        (fun (i : Nat) => List.replicate (rs.getD i 0).toNat (offset + ((j + i : Nat) : Int)))).flatten := by
  induction rs with
  | nil => intro j; rfl
  | cons r rs ih =>
    intro j
    simp only [Ratio.expandFrom, List.length_cons, List.range_succ_eq_map, List.map_cons,
      List.flatten_cons, List.map_map, ih (j + 1)]
    congr 1
    congr 1
    apply List.map_congr_left
    intro i _
    simp only [Function.comp, Nat.succ_eq_add_one, List.getD_cons_succ]
    congr 2
    omega

/-- The expansion of a ratio list is non-decreasing. -/
theorem Ratio.pairwise_expandFrom (offset : Int) (rs : List Int) :
    ∀ j : Nat, List.Pairwise (fun a b : Int => a ≤ b) (Ratio.expandFrom offset j rs) := by
  induction rs with
  | nil => intro j; exact List.Pairwise.nil
  | cons r rs ih =>
    intro j
    simp only [Ratio.expandFrom]
    rw [List.pairwise_append]
    refine ⟨List.pairwise_replicate.2 (Or.inr (le_refl _)), ih (j + 1), ?_⟩
    intro a ha b hb
    obtain ⟨-, rfl⟩ := List.mem_replicate.1 ha
    obtain ⟨i, hi, -, rfl⟩ := Ratio.mem_expandFrom offset rs (j + 1) b hb
    omega

/-- The expansion is as long as the sum of the positive ratios. -/
theorem Ratio.length_expandFrom_positive (offset : Int) (rs : List Int) :
    ∀ j : Nat, ((Ratio.expandFrom offset j rs).length : Int)
      = (rs.filter (fun r => decide (0 < r))).sum := by
  induction rs with
  | nil => intro j; rfl
  | cons r rs ih =>
    intro j
    simp only [Ratio.expandFrom, List.length_append, List.length_replicate, Nat.cast_add,
      ih (j + 1), List.filter_cons]
    by_cases hr : 0 < r
    · simp only [hr, decide_True, if_true, List.sum_cons]
      omega
    · simp only [hr, decide_False, Bool.false_eq_true, if_false]
      omega

/-- A constructor call with matching sizes returns the fresh state. -/
theorem Ratio.create_of_length (range : Range) (ratios : List Int)
    (h : (ratios.length : Int) = range.size) :
    Ratio.create range ratios =
      .ok ⟨⟨List.replicate (Ratio.expandFrom range.offset 0 ratios).length 1⟩, range, ratios,
        Ratio.expandFrom range.offset 0 ratios⟩ := by
  unfold Ratio.create Ratio.checkRangeAndRatiosMatch
  have h2 : ¬ (range.size ≠ (ratios.length : Int)) := fun hne => hne h.symm
  rw [if_neg h2]
  simp [Ratio.initialise, Ratio.setSelectables, DiscreteGenerator.setDistributionVector]

/-- A Ratio without selectables admits no draw. -/
theorem Ratio.admissible_of_empty (s : Ratio) (h : s.m_generator.distribution = [])
    (picks : List Nat) (hadm : s.admissible picks = true) : picks = [] := by
  cases picks with
  | nil => rfl
  | cons p ps =>
    exfalso
    simp only [Ratio.admissible, Bool.and_eq_true] at hadm
    obtain ⟨hlt, -⟩ := (DiscreteGenerator.mayDraw_iff _ _).1 hadm.1
    have hg : s.generatorAtDraw.distribution = [] := by
      unfold Ratio.generatorAtDraw
      split
      · simp [SeriesPrinciple.resetSeries, DiscreteGenerator.updateDistributionVectorAll, h]
      · exact h
    rw [hg] at hlt
    simp at hlt

/-! ## Claims: Ratio selectables -/

/-- C32: after construction, and after every successful `setParams`, with
range offset `o` and a ratio list `r` of non-negative entries, `m_selectables`
is the concatenation over `i = 0 .. len(r) - 1` of `r[i]` copies of `o + i`: its
length is the sum of `r`, it is non-decreasing, and the generator's
distribution vector has the same length with every weight 1. -/
theorem Ratio.selectables_are_concatenated_copies (range : Range) (ratios : List Int)
    (s : Ratio)
    (hfresh : Ratio.create range ratios = Outcome.ok s ∨
      ∃ s0 : Ratio,
        s0.setParams ⟨range, NumberProtocolParams.ofRatio ⟨ratios⟩⟩ = (Outcome.ok (), s))
    (hnonneg : ∀ r ∈ ratios, 0 ≤ r) :
    s.m_selectables = Ratio.concatenatedCopies range.offset ratios ∧
      (s.m_selectables.length : Int) = ratios.sum ∧
      List.Pairwise (fun a b : Int => a ≤ b) s.m_selectables ∧
      s.m_generator.distribution = List.replicate s.m_selectables.length 1 := by
  obtain ⟨hs, -⟩ := Ratio.fresh_eq range ratios s hfresh
  rw [hs]
  simp only []
  refine ⟨?_, Ratio.length_expandFrom range.offset ratios 0 hnonneg,
    Ratio.pairwise_expandFrom range.offset ratios 0, trivial⟩
  rw [Ratio.expandFrom_eq_flatten]
  simp only [Ratio.concatenatedCopies, Nat.zero_add]

/-- Witness for C32: ratios `[3, 0, 2]` over the range `[4, 6]`, installed by
`setParams` on a default Ratio. -/
theorem Ratio.selectables_are_concatenated_copies_witness :
    (Ratio.createDefault.setParams
        ⟨⟨4, 6⟩, NumberProtocolParams.ofRatio ⟨[3, 0, 2]⟩⟩).2.m_selectables
        = Ratio.concatenatedCopies (Range.mk 4 6).offset [3, 0, 2] ∧
      (((Ratio.createDefault.setParams
        ⟨⟨4, 6⟩, NumberProtocolParams.ofRatio ⟨[3, 0, 2]⟩⟩).2.m_selectables.length : Nat) : Int)
        = [(3 : Int), 0, 2].sum ∧
      List.Pairwise (fun a b : Int => a ≤ b)
        (Ratio.createDefault.setParams
          ⟨⟨4, 6⟩, NumberProtocolParams.ofRatio ⟨[3, 0, 2]⟩⟩).2.m_selectables ∧
      (Ratio.createDefault.setParams
        ⟨⟨4, 6⟩, NumberProtocolParams.ofRatio ⟨[3, 0, 2]⟩⟩).2.m_generator.distribution
        = List.replicate
          (Ratio.createDefault.setParams
            ⟨⟨4, 6⟩, NumberProtocolParams.ofRatio ⟨[3, 0, 2]⟩⟩).2.m_selectables.length 1 :=
  Ratio.selectables_are_concatenated_copies ⟨4, 6⟩ [3, 0, 2]
    (Ratio.createDefault.setParams ⟨⟨4, 6⟩, NumberProtocolParams.ofRatio ⟨[3, 0, 2]⟩⟩).2
    (Or.inr ⟨Ratio.createDefault, by decide⟩) (by decide)
/-! ## Claims: Ratio reconfiguration and non-positive ratios -/

/-- C33: a successful `setParams` discards the series in progress.  After any
number of draws (`prior`), a `setParams` that returns leaves the state a fresh
construction with the new configuration has: `m_selectables` is only the
expansion of the new ratios and every slot has weight 1.  For non-negative new
ratios of sum `S' >= 1` the next `S'` draws all return and contain the value
`newRange.start + i` exactly `newRatios[i]` times.  Nothing is assumed about the
configuration before the call, so this holds when it is the one re-applied. -/
theorem Ratio.setParams_discards_series (s0 : Ratio) (prior : List Nat)
    (newParams : NumberProtocolConfig) (s : Ratio) (S : Nat) (picks : List Nat)
    (hset : (s0.draws prior).2.setParams newParams = (Outcome.ok (), s))
    (hnonneg : ∀ r ∈ newParams.protocols.ratio.ratios, 0 ≤ r)
    (hsum : (S : Int) = newParams.protocols.ratio.ratios.sum) (hS : 1 ≤ S)
    (hpicks : picks.length = S) (hadm : s.admissible picks = true) :
    s.m_selectables
        = Ratio.expandFrom newParams.range.offset 0 newParams.protocols.ratio.ratios ∧
      s.m_generator.distribution = List.replicate S 1 ∧
      Ratio.create newParams.range newParams.protocols.ratio.ratios = Outcome.ok s ∧
      ∃ values : List Int,
        (s.draws picks).1 = values.map Outcome.ok ∧
        ∀ (i : Nat) (hi : i < newParams.protocols.ratio.ratios.length),
          ((values.count (newParams.range.start + (i : Int)) : Nat) : Int)
            = newParams.protocols.ratio.ratios[i] := by
  obtain ⟨hs, hsize⟩ := Ratio.setParams_eq _ newParams s hset
  have hlenS : (Ratio.expandFrom newParams.range.offset 0
      newParams.protocols.ratio.ratios).length = S := by
    have := Ratio.length_expandFrom newParams.range.offset newParams.protocols.ratio.ratios 0
      hnonneg
    omega
  have hsel : s.m_selectables.length = S := by rw [hs]; exact hlenS
  have hgen : s.generatorAtDraw.distribution = seriesWeights S [] := by
    rw [hs, ← hlenS]
    exact Ratio.fresh_generatorAtDraw _ _ _ (by rw [hlenS]; exact hS)
  refine ⟨by rw [hs], by rw [hs, hlenS], ?_, ?_⟩
  · rw [Ratio.create_of_length _ _ hsize, hs]
  · obtain ⟨hb1, hb2, -, -⟩ := Ratio.draws_block S s picks hS hgen hsel hpicks hadm
    refine ⟨picks.map (fun (p : Nat) => s.m_selectables.getD p 0), ?_, ?_⟩
    · rw [hb1, List.map_map]; rfl
    · intro i hi
      have hperm : List.Perm (picks.map (fun (p : Nat) => s.m_selectables.getD p 0))
          s.m_selectables := by
        have := hb2.map (fun (p : Nat) => s.m_selectables.getD p 0)
        rw [← hsel, map_getD_range] at this
        exact this
      rw [hperm.count_eq, hs]
      simp only []
      have := Ratio.count_expandFrom newParams.range.offset newParams.protocols.ratio.ratios 0 i
      simp only [Range.offset] at this ⊢
      rw [this, if_pos ⟨Nat.zero_le i, by simpa using hi⟩, Nat.sub_zero,
        List.getD_eq_getElem _ _ hi]
      exact Int.toNat_of_nonneg (hnonneg _ (List.getElem_mem hi))

/-- Witness for C33: ratios `[3, 1, 2]` over the range `[0, 2]`; two draws of
the first series are made (slots 5 and 0), then `setParams` re-applies the
configuration already in force, and the next six draws form a complete
series. -/
theorem Ratio.setParams_discards_series_witness :
    (Ratio.mk ⟨[1, 1, 1, 1, 1, 1]⟩ ⟨0, 2⟩ [3, 1, 2] [0, 0, 0, 1, 2, 2]).m_selectables
        = Ratio.expandFrom
          (Ratio.getParams
            ((Ratio.mk ⟨[1, 1, 1, 1, 1, 1]⟩ ⟨0, 2⟩ [3, 1, 2] [0, 0, 0, 1, 2, 2]).draws
              [5, 0]).2).range.offset 0
          (Ratio.getParams
            ((Ratio.mk ⟨[1, 1, 1, 1, 1, 1]⟩ ⟨0, 2⟩ [3, 1, 2] [0, 0, 0, 1, 2, 2]).draws
              [5, 0]).2).protocols.ratio.ratios ∧
      (Ratio.mk ⟨[1, 1, 1, 1, 1, 1]⟩ ⟨0, 2⟩ [3, 1, 2]
        [0, 0, 0, 1, 2, 2]).m_generator.distribution = List.replicate 6 1 ∧
      Ratio.create
          (Ratio.getParams
            ((Ratio.mk ⟨[1, 1, 1, 1, 1, 1]⟩ ⟨0, 2⟩ [3, 1, 2] [0, 0, 0, 1, 2, 2]).draws
              [5, 0]).2).range
          (Ratio.getParams
            ((Ratio.mk ⟨[1, 1, 1, 1, 1, 1]⟩ ⟨0, 2⟩ [3, 1, 2] [0, 0, 0, 1, 2, 2]).draws
              [5, 0]).2).protocols.ratio.ratios
        = Outcome.ok (Ratio.mk ⟨[1, 1, 1, 1, 1, 1]⟩ ⟨0, 2⟩ [3, 1, 2] [0, 0, 0, 1, 2, 2]) ∧
      ∃ values : List Int,
        ((Ratio.mk ⟨[1, 1, 1, 1, 1, 1]⟩ ⟨0, 2⟩ [3, 1, 2] [0, 0, 0, 1, 2, 2]).draws
          [2, 5, 0, 3, 1, 4]).1 = values.map Outcome.ok ∧
        ∀ (i : Nat)
          (hi : i < (Ratio.getParams
            ((Ratio.mk ⟨[1, 1, 1, 1, 1, 1]⟩ ⟨0, 2⟩ [3, 1, 2] [0, 0, 0, 1, 2, 2]).draws
              [5, 0]).2).protocols.ratio.ratios.length),
          ((values.count ((Ratio.getParams
            ((Ratio.mk ⟨[1, 1, 1, 1, 1, 1]⟩ ⟨0, 2⟩ [3, 1, 2] [0, 0, 0, 1, 2, 2]).draws
              [5, 0]).2).range.start + (i : Int)) : Nat) : Int)
            = (Ratio.getParams
              ((Ratio.mk ⟨[1, 1, 1, 1, 1, 1]⟩ ⟨0, 2⟩ [3, 1, 2] [0, 0, 0, 1, 2, 2]).draws
                [5, 0]).2).protocols.ratio.ratios[i] :=
  Ratio.setParams_discards_series
    (Ratio.mk ⟨[1, 1, 1, 1, 1, 1]⟩ ⟨0, 2⟩ [3, 1, 2] [0, 0, 0, 1, 2, 2]) [5, 0]
    (Ratio.getParams
      ((Ratio.mk ⟨[1, 1, 1, 1, 1, 1]⟩ ⟨0, 2⟩ [3, 1, 2] [0, 0, 0, 1, 2, 2]).draws [5, 0]).2)
    (Ratio.mk ⟨[1, 1, 1, 1, 1, 1]⟩ ⟨0, 2⟩ [3, 1, 2] [0, 0, 0, 1, 2, 2]) 6 [2, 5, 0, 3, 1, 4]
    (by decide) (by decide) (by decide) (by decide) (by decide) (by decide)

/-- C34: in a Ratio freshly constructed or configured with `(range, ratios)`,
an entry `ratios[i] <= 0` contributes no entry to `m_selectables`, so
`range.start + i` is not a selectable and is never returned by
`getIntegerNumber`; the series length (the length of `m_selectables` and of the
distribution vector) is the sum of the positive entries only; and the length
validation accepts every ratio list of the right length, whatever the sign of
its entries. -/
theorem Ratio.nonpositive_ratio_never_selected (range : Range) (ratios : List Int) (s : Ratio)
    (hfresh : Ratio.create range ratios = Outcome.ok s ∨
      ∃ s0 : Ratio,
        s0.setParams ⟨range, NumberProtocolParams.ofRatio ⟨ratios⟩⟩ = (Outcome.ok (), s)) :
    (∀ (i : Nat) (hi : i < ratios.length), ratios[i] ≤ 0 →
        range.start + (i : Int) ∉ s.m_selectables ∧
        ∀ picks : List Nat, s.admissible picks = true →
          Outcome.ok (range.start + (i : Int)) ∉ (s.draws picks).1) ∧
      (s.m_selectables.length : Int) = (ratios.filter (fun r => decide (0 < r))).sum ∧
      s.m_generator.distribution.length = s.m_selectables.length ∧
      ∀ other : List Int, other.length = ratios.length →
        Ratio.checkRangeAndRatiosMatch range other = Outcome.ok () := by
  obtain ⟨hs, hsize⟩ := Ratio.fresh_eq range ratios s hfresh
  have hsel : s.m_selectables = Ratio.expandFrom range.offset 0 ratios := by rw [hs]
  have hdist : s.m_generator.distribution
      = List.replicate (Ratio.expandFrom range.offset 0 ratios).length 1 := by rw [hs]
  refine ⟨?_, ?_, ?_, ?_⟩
  · intro i hi hle
    have hnot : range.start + (i : Int) ∉ s.m_selectables := by
      rw [hsel, ← List.count_eq_zero]
      have := Ratio.count_expandFrom range.offset ratios 0 i
      simp only [Range.offset] at this ⊢
      rw [this, if_pos ⟨Nat.zero_le i, by simpa using hi⟩, Nat.sub_zero,
        List.getD_eq_getElem _ _ hi]
      omega
    refine ⟨hnot, ?_⟩
    intro picks hadm hmem
    by_cases hpos : 1 ≤ (Ratio.expandFrom range.offset 0 ratios).length
    · have hgen : s.generatorAtDraw.distribution
          = seriesWeights (Ratio.expandFrom range.offset 0 ratios).length [] := by
        rw [hs]
        exact Ratio.fresh_generatorAtDraw range ratios _ hpos
      obtain ⟨g1, g2, -⟩ := Ratio.draws_general _ hpos picks.length picks s (le_refl _) hgen
        (by rw [hdist]; simp) (by rw [hsel]) hadm
      rw [g1, List.mem_map] at hmem
      obtain ⟨p, hp, hpv⟩ := hmem
      simp only [Outcome.ok.injEq] at hpv
      have hp2 : p < s.m_selectables.length := by rw [hsel]; exact g2 p hp
      rw [List.getD_eq_getElem _ _ hp2] at hpv
      exact hnot (hpv ▸ List.getElem_mem hp2)
    · have hempty : s.m_generator.distribution = [] := by
        rw [hdist]
        have : (Ratio.expandFrom range.offset 0 ratios).length = 0 := by omega
        rw [this]; rfl
      have := Ratio.admissible_of_empty s hempty picks hadm
      subst this
      simp [Ratio.draws] at hmem
  · rw [hsel]
    exact Ratio.length_expandFrom_positive range.offset ratios 0
  · rw [hdist, hsel]; simp
  · intro other hother
    unfold Ratio.checkRangeAndRatiosMatch
    rw [if_neg]
    rw [hother]
    exact fun hne => hne hsize.symm

/-- Witness for C34: ratios `[2, -3, 0]` over the range `[5, 7]`: the only
selectables are two copies of 5. -/
theorem Ratio.nonpositive_ratio_never_selected_witness :
    (∀ (i : Nat) (hi : i < [(2 : Int), -3, 0].length), [(2 : Int), -3, 0][i] ≤ 0 →
        (Range.mk 5 7).start + (i : Int) ∉ (Ratio.mk ⟨[1, 1]⟩ ⟨5, 7⟩ [2, -3, 0] [5, 5]).m_selectables ∧
        ∀ picks : List Nat, (Ratio.mk ⟨[1, 1]⟩ ⟨5, 7⟩ [2, -3, 0] [5, 5]).admissible picks = true →
          Outcome.ok ((Range.mk 5 7).start + (i : Int))
            ∉ ((Ratio.mk ⟨[1, 1]⟩ ⟨5, 7⟩ [2, -3, 0] [5, 5]).draws picks).1) ∧
      (((Ratio.mk ⟨[1, 1]⟩ ⟨5, 7⟩ [2, -3, 0] [5, 5]).m_selectables.length : Nat) : Int)
        = ([(2 : Int), -3, 0].filter (fun r => decide (0 < r))).sum ∧
      (Ratio.mk ⟨[1, 1]⟩ ⟨5, 7⟩ [2, -3, 0] [5, 5]).m_generator.distribution.length
        = (Ratio.mk ⟨[1, 1]⟩ ⟨5, 7⟩ [2, -3, 0] [5, 5]).m_selectables.length ∧
      ∀ other : List Int, other.length = [(2 : Int), -3, 0].length →
        Ratio.checkRangeAndRatiosMatch ⟨5, 7⟩ other = Outcome.ok () :=
  Ratio.nonpositive_ratio_never_selected ⟨5, 7⟩ [2, -3, 0]
    (Ratio.mk ⟨[1, 1]⟩ ⟨5, 7⟩ [2, -3, 0] [5, 5]) (Or.inl (by decide))

/-! ## Lemmas: Serial -/

theorem SeriesPrinciple.getNumber_length (g : DiscreteGenerator) (pick : Nat) :
    (SeriesPrinciple.getNumber g pick).2.distribution.length = g.distribution.length := by
  unfold SeriesPrinciple.getNumber
  split
  · rfl
  · split
    · rename_i g1 h1
      exact DiscreteGenerator.updateDistributionVector_length _ _ _ _ h1
    · rfl

/-- A series draw only returns a position of the vector. -/
theorem SeriesPrinciple.getNumber_lt (g g1 : DiscreteGenerator) (pick index : Nat)
    (h : SeriesPrinciple.getNumber g pick = (Outcome.ok index, g1)) :
    index < g.distribution.length := by
  unfold SeriesPrinciple.getNumber at h
  split at h
  · simp at h
  · rename_i idx hidx
    split at h
    · rename_i g2 h2
      simp only [Prod.mk.injEq, Outcome.ok.injEq] at h
      obtain ⟨rfl, -⟩ := h
      unfold DiscreteGenerator.updateDistributionVector at h2
      split at h2
      · rename_i hc
        omega
      · simp at h2
    · simp at h

theorem Serial.generatorAtDraw_length (s : Serial) :
    s.generatorAtDraw.distribution.length = s.m_generator.distribution.length := by
  unfold Serial.generatorAtDraw
  split
  · simp [SeriesPrinciple.resetSeries, DiscreteGenerator.updateDistributionVectorAll]
  · rfl

/-- A draw keeps the length of the vector and the Range of a Serial. -/
theorem Serial.serial_step_keeps (s : Serial) (pick : Nat) :
    (s.getIntegerNumber pick).2.m_generator.distribution.length
        = s.m_generator.distribution.length ∧
      (s.getIntegerNumber pick).2.m_range = s.m_range := by
  have h := SeriesPrinciple.getNumber_length s.generatorAtDraw pick
  rw [Serial.generatorAtDraw_length] at h
  unfold Serial.getIntegerNumber
  rcases hx : SeriesPrinciple.getNumber s.generatorAtDraw pick with ⟨o, g⟩
  rw [hx] at h
  cases o <;> exact ⟨h, rfl⟩

theorem Serial.serial_draws_keep (picks : List Nat) :
    ∀ s : Serial, (s.draws picks).2.m_generator.distribution.length
        = s.m_generator.distribution.length ∧
      (s.draws picks).2.m_range = s.m_range := by
  induction picks with
  | nil => intro s; exact ⟨rfl, rfl⟩
  | cons p ps ih =>
    intro s
    simp only [Serial.draws]
    obtain ⟨h1, h2⟩ := ih (s.getIntegerNumber p).2
    obtain ⟨h3, h4⟩ := s.serial_step_keeps p
    exact ⟨h1.trans h3, h2.trans h4⟩

/-- One draw of a Serial is the draw of the Ratio it is seen as. -/
theorem Serial.asRatio_step (s : Serial) (pick : Nat) :
    s.asRatio.getIntegerNumber pick
      = ((s.getIntegerNumber pick).1, (s.getIntegerNumber pick).2.asRatio) := by
  have hg : s.asRatio.generatorAtDraw = s.generatorAtDraw := rfl
  have hkeep := (s.serial_step_keeps pick).1
  have hlen := s.generatorAtDraw_length
  unfold Ratio.getIntegerNumber
  rw [hg]
  unfold Serial.getIntegerNumber at hkeep ⊢
  rcases hx : SeriesPrinciple.getNumber s.generatorAtDraw pick with ⟨o, g⟩
  rw [hx] at hkeep
  cases o with
  | error e =>
    simp only [] at hkeep ⊢
    simp only [Serial.asRatio, hkeep]
  | ok index =>
    simp only [] at hkeep ⊢
    have hlt := SeriesPrinciple.getNumber_lt _ _ _ _ hx
    rw [hlen] at hlt
    have hsel : s.asRatio.m_selectables[index]? = some ((index : Int) + s.m_range.offset) := by
      simp [Serial.asRatio, hlt]
    rw [hsel]
    simp only [Serial.asRatio, hkeep]

theorem Serial.asRatio_draws (picks : List Nat) :
    ∀ s : Serial, s.asRatio.draws picks = ((s.draws picks).1, (s.draws picks).2.asRatio) := by
  induction picks with
  | nil => intro s; rfl
  | cons p ps ih =>
    intro s
    simp only [Ratio.draws, Serial.draws, Serial.asRatio_step, ih]

theorem Serial.asRatio_admissible (picks : List Nat) :
    ∀ s : Serial, s.asRatio.admissible picks = s.admissible picks := by
  induction picks with
  | nil => intro s; rfl
  | cons p ps ih =>
    intro s
    have hg : s.asRatio.generatorAtDraw = s.generatorAtDraw := rfl
    simp only [Ratio.admissible, Serial.admissible, Serial.asRatio_step, ih, hg]

/-- From the start of a pass over `k` slots, the draws numbered
`m * k + 1 .. (m + 1) * k` of a Serial all return and are a permutation of the
values of its Range. -/
theorem Serial.serial_series (s : Serial) (k : Nat) (hk : 1 ≤ k)
    (hdist : s.m_generator.distribution = List.replicate k 1) (m : Nat) (picks : List Nat)
    (hpicks : (m + 1) * k ≤ picks.length) (hadm : s.admissible picks = true) :
    ∃ values : List Int,
      (((s.draws picks).1.drop (m * k)).take k) = values.map Outcome.ok ∧
      List.Perm values ((List.range k).map (fun (i : Nat) => s.m_range.start + (i : Int))) := by
  have hlen : s.m_generator.distribution.length = k := by rw [hdist]; simp
  have hsel : s.asRatio.m_selectables
      = (List.range k).map (fun (i : Nat) => s.m_range.start + (i : Int)) := by
    simp only [Serial.asRatio, hlen, Range.offset]
    apply List.map_congr_left
    intro i _
    omega
  have hgen : s.asRatio.generatorAtDraw.distribution = seriesWeights k [] :=
    Ratio.generatorAtDraw_of_incomplete s.asRatio k []
      (by rw [seriesWeights_nil]; exact hdist) (by simpa using hk)
  obtain ⟨values, hv1, hv2⟩ := Ratio.draws_series k hk m picks s.asRatio hpicks hgen
    (by rw [hsel]; simp) (by rw [Serial.asRatio_admissible]; exact hadm)
  rw [Serial.asRatio_draws] at hv1
  rw [hsel] at hv2
  exact ⟨values, hv1, hv2⟩

/-! ## Claims: Serial -/

/-- C21: for a Serial over a Range of size `k`, fresh or freshly reset (after
any draws, so also in the middle of a series), with the generator returning
only indices of non-zero weight: the draws numbered `m * k + 1 .. (m + 1) * k`
all return, and they contain each value of the Range exactly once and nothing
else.  With `m = 0` these are the `k` draws that follow a `reset()`. -/
theorem Serial.aligned_run_contains_each_value_once (range : Range) (k : Nat)
    (hk : (k : Int) = range.size) (hpos : 1 ≤ k) (prior : List Nat) (s : Serial)
    (hs : s = Serial.create range ∨ s = ((Serial.create range).draws prior).2.reset)
    (m : Nat) (picks : List Nat)
    (hpicks : (m + 1) * k ≤ picks.length) (hadm : s.admissible picks = true) :
    ∃ values : List Int,
      (((s.draws picks).1.drop (m * k)).take k) = values.map Outcome.ok ∧
      values.length = k ∧
      (∀ v : Int, range.start ≤ v → v ≤ range.end_ → values.count v = 1) ∧
      ∀ v ∈ values, range.start ≤ v ∧ v ≤ range.end_ := by
  have hsz : range.size = range.end_ - range.start + 1 := rfl
  have hcreate : (Serial.create range).m_generator.distribution.length = k := by
    simp only [Serial.create, DiscreteGenerator.setDistributionVector, List.length_replicate]
    omega
  have hstate : s.m_generator.distribution = List.replicate k 1 ∧ s.m_range = range := by
    rcases hs with h | h
    · subst h
      refine ⟨?_, rfl⟩
      simp only [Serial.create, DiscreteGenerator.setDistributionVector]
      congr 1
      omega
    · subst h
      obtain ⟨h1, h2⟩ := Serial.serial_draws_keep prior (Serial.create range)
      refine ⟨?_, h2⟩
      simp only [Serial.reset, SeriesPrinciple.resetSeries,
        DiscreteGenerator.updateDistributionVectorAll, List.map_const', h1, hcreate]
  obtain ⟨values, hv1, hv2⟩ := Serial.serial_series s k hpos hstate.1 m picks hpicks hadm
  rw [hstate.2] at hv2
  refine ⟨values, hv1, by rw [hv2.length_eq]; simp, ?_, ?_⟩
  · intro v h1 h2
    rw [hv2.count_eq]
    apply List.count_eq_one_of_mem
    · apply List.Nodup.map _ (List.nodup_range k)
      intro a b hab
      simp only at hab
      omega
    · rw [List.mem_map]
      exact ⟨(v - range.start).toNat, by rw [List.mem_range]; omega, by omega⟩
  · intro v hv
    have := hv2.subset hv
    rw [List.mem_map] at this
    obtain ⟨i, hi, rfl⟩ := this
    rw [List.mem_range] at hi
    omega

/-- Witness for C21: range `[0, 3]`; two draws of a series are made, the
protocol is reset, and the second run of four draws after the reset is
looked at. -/
theorem Serial.aligned_run_contains_each_value_once_witness :
    ∃ values : List Int,
      ((((((Serial.create ⟨0, 3⟩).draws [2, 0]).2.reset).draws
          [2, 0, 3, 1, 1, 3, 0, 2]).1.drop (1 * 4)).take 4) = values.map Outcome.ok ∧
      values.length = 4 ∧
      (∀ v : Int, (Range.mk 0 3).start ≤ v → v ≤ (Range.mk 0 3).end_ → values.count v = 1) ∧
      ∀ v ∈ values, (Range.mk 0 3).start ≤ v ∧ v ≤ (Range.mk 0 3).end_ :=
  Serial.aligned_run_contains_each_value_once ⟨0, 3⟩ 4 (by decide) (by decide) [2, 0]
    (((Serial.create ⟨0, 3⟩).draws [2, 0]).2.reset) (Or.inr rfl) 1 [2, 0, 3, 1, 1, 3, 0, 2]
    (by decide) (by decide)

/-! ## Lemmas: NoRepetition -/

theorem exclusionWeights_length (n : Nat) (last : Option Nat) :
    (exclusionWeights n last).length = n := by
  simp [exclusionWeights]

theorem exclusionWeights_getElem (n : Nat) (last : Option Nat) (j : Nat)
    (h : j < (exclusionWeights n last).length) :
    (exclusionWeights n last)[j] = if some j = last then 0 else 1 := by
  simp [exclusionWeights]

theorem exclusionWeights_none (n : Nat) : exclusionWeights n none = List.replicate n 1 := by
  apply List.ext_getElem
  · simp [exclusionWeights_length]
  · intro j h1 h2
    rw [exclusionWeights_getElem]
    simp

/-- Excluding index `p` when nothing was excluded. -/
theorem exclusionWeights_set_none (n p : Nat) :
    (exclusionWeights n none).set p 0 = exclusionWeights n (some p) := by
  apply List.ext_getElem
  · simp [exclusionWeights_length]
  · intro j h1 h2
    rw [List.getElem_set, exclusionWeights_getElem, exclusionWeights_getElem]
    by_cases hj : p = j
    · subst hj; simp
    · rw [if_neg hj]
      have : ¬ (some j = some p) := by
        intro h; exact hj (Option.some.inj h).symm
      rw [if_neg this]
      simp

/-- Restoring the weight of the excluded index `l` and excluding index `p`. -/
theorem exclusionWeights_set_some (n l p : Nat) :
    ((exclusionWeights n (some l)).set l 1).set p 0 = exclusionWeights n (some p) := by
  apply List.ext_getElem
  · simp [exclusionWeights_length]
  · intro j h1 h2
    rw [List.getElem_set, exclusionWeights_getElem]
    by_cases hj : p = j
    · subst hj; simp
    · rw [if_neg hj]
      have : ¬ (some j = some p) := by
        intro h; exact hj (Option.some.inj h).symm
      rw [if_neg this, List.getElem_set]
      by_cases hl : l = j
      · rw [if_pos hl]
      · rw [if_neg hl, exclusionWeights_getElem]
        have : ¬ (some j = some l) := by
          intro h; exact hl (Option.some.inj h).symm
        rw [if_neg this]

theorem mayDraw_exclusionWeights_iff (n : Nat) (last : Option Nat) (p : Nat) :
    (DiscreteGenerator.mk (exclusionWeights n last)).mayDraw p = true ↔
      p < n ∧ some p ≠ last := by
  rw [DiscreteGenerator.mayDraw_iff]
  simp only [exclusionWeights_getElem, exclusionWeights_length]
  constructor
  · rintro ⟨hlt, hne⟩
    refine ⟨hlt, ?_⟩
    intro hc
    rw [if_pos hc] at hne
    exact hne rfl
  · rintro ⟨hlt, hq⟩
    refine ⟨hlt, ?_⟩
    rw [if_neg hq]
    exact one_ne_zero

/-- One `getIntegerNumber` of a NoRepetition whose vector excludes exactly the
last selected index, with a drawable pick: the call returns `pick + offset` and
leaves the vector excluding exactly `pick`. -/
theorem NoRepetition.exclusion_step_spec (s : NoRepetition) (n pick : Nat)
    (hdist : s.m_generator.distribution = exclusionWeights n s.m_lastSelectedIndex)
    (hlast : ∀ l, s.m_lastSelectedIndex = some l → l < n)
    (hdraw : s.m_generator.mayDraw pick = true) :
    s.getIntegerNumber pick =
      (.ok ((pick : Int) + s.m_range.offset),
        { m_generator := ⟨exclusionWeights n (some pick)⟩
          m_range := s.m_range
          m_lastSelectedIndex := some pick }) := by
  obtain ⟨hlt, -⟩ := (s.m_generator.mayDraw_iff pick).1 hdraw
  have hn : s.m_generator.distribution.length = n := by
    rw [hdist, exclusionWeights_length]
  unfold NoRepetition.getIntegerNumber
  rw [DiscreteGenerator.getNumber_of_mayDraw _ _ hdraw]
  simp only []
  cases hl : s.m_lastSelectedIndex with
  | none =>
    simp only []
    rw [DiscreteGenerator.updateDistributionVector_natCast _ _ _ hlt]
    simp only []
    rw [hdist, hl, exclusionWeights_set_none]
  | some l =>
    simp only []
    have hl2 : l < s.m_generator.distribution.length := by rw [hn]; exact hlast l hl
    rw [DiscreteGenerator.updateDistributionVector_natCast _ _ _ hl2]
    simp only []
    rw [DiscreteGenerator.updateDistributionVector_natCast _ _ _
      (by simp only [List.length_set]; exact hlt)]
    simp only []
    rw [hdist, hl, exclusionWeights_set_some]

/-- Admissible draws from a state whose vector excludes exactly the last
selected index all return `pick + offset`, no index is drawn twice in a row,
and every index is a position of the vector. -/
theorem NoRepetition.draws_no_repeat (picks : List Nat) :
    ∀ (s : NoRepetition) (n : Nat),
      s.m_generator.distribution = exclusionWeights n s.m_lastSelectedIndex →
      (∀ l, s.m_lastSelectedIndex = some l → l < n) →
      s.admissible picks = true →
      (s.draws picks).1 = picks.map (fun (p : Nat) => Outcome.ok ((p : Int) + s.m_range.offset)) ∧
      (∀ p ∈ picks, p < n) ∧
      List.Chain (fun a b : Option Nat => b ≠ a) s.m_lastSelectedIndex (picks.map some) ∧
      (s.draws picks).2.m_generator.distribution
        = exclusionWeights n (s.draws picks).2.m_lastSelectedIndex ∧
      (∀ l, (s.draws picks).2.m_lastSelectedIndex = some l → l < n) := by
  induction picks with
  | nil =>
    intro s n hdist hlast _
    exact ⟨rfl, by simp, List.Chain.nil, hdist, hlast⟩
  | cons p ps ih =>
    intro s n hdist hlast hadm
    simp only [NoRepetition.admissible, Bool.and_eq_true] at hadm
    have hstep := s.exclusion_step_spec n p hdist hlast hadm.1
    have hp : p < n ∧ some p ≠ s.m_lastSelectedIndex := by
      apply (mayDraw_exclusionWeights_iff n _ p).1
      have h1 := hadm.1
      rw [show s.m_generator = ⟨s.m_generator.distribution⟩ from rfl, hdist] at h1
      exact h1
    have hadm2 := hadm.2
    rw [hstep] at hadm2
    obtain ⟨g1, g2, g3, g4, g5⟩ := ih _ n (by simp) (by
      intro l hl
      simp only [Option.some.injEq] at hl
      omega) hadm2
    simp only [NoRepetition.draws, hstep, List.map_cons]
    refine ⟨by rw [g1], ?_, List.Chain.cons hp.2 g3, g4, g5⟩
    intro q hq
    rcases List.mem_cons.1 hq with h | h
    · rw [h]; exact hp.1
    · exact g2 q h

/-! ## Claims: NoRepetition -/

/-- C22: for a NoRepetition over any Range of size at least 2, with the
generator returning only indices of non-zero weight: every draw returns, any
two consecutive draws return different values, every draw lies within the
Range, and a further draw is always possible. -/
theorem NoRepetition.consecutive_draws_differ (range : Range) (hsize : 2 ≤ range.size)
    (picks : List Nat) (hadm : (NoRepetition.create range).admissible picks = true) :
    ∃ values : List Int,
      ((NoRepetition.create range).draws picks).1 = values.map Outcome.ok ∧
      values.length = picks.length ∧
      List.Chain' (fun prev cur : Int => cur ≠ prev) values ∧
      (∀ v ∈ values, range.start ≤ v ∧ v ≤ range.end_) ∧
      ∃ next : Nat, ((NoRepetition.create range).draws picks).2.m_generator.mayDraw next = true := by
  have hsz : range.size = range.end_ - range.start + 1 := rfl
  have hdist : (NoRepetition.create range).m_generator.distribution
      = exclusionWeights range.size.toNat (NoRepetition.create range).m_lastSelectedIndex := by
    simp only [NoRepetition.create, DiscreteGenerator.setDistributionVector, exclusionWeights_none]
  obtain ⟨g1, g2, g3, g4, g5⟩ := NoRepetition.draws_no_repeat picks (NoRepetition.create range)
    range.size.toNat hdist (by intro l hl; simp [NoRepetition.create] at hl) hadm
  refine ⟨picks.map (fun (p : Nat) => (p : Int) + range.start), ?_, by simp, ?_, ?_, ?_⟩
  · rw [g1, List.map_map]; rfl
  · have h1 : List.Chain' (fun a b : Option Nat => b ≠ a) (picks.map some) :=
      List.Chain'.tail (l := none :: picks.map some) g3
    rw [List.chain'_map] at h1 ⊢
    refine h1.imp ?_
    intro a b hab hc
    apply hab
    have : a = b := by omega
    rw [this]
  · intro v hv
    obtain ⟨p, hp, rfl⟩ := List.mem_map.1 hv
    have := g2 p hp
    omega
  · rw [show ((NoRepetition.create range).draws picks).2.m_generator
      = ⟨((NoRepetition.create range).draws picks).2.m_generator.distribution⟩ from rfl, g4]
    by_cases h0 : ((NoRepetition.create range).draws picks).2.m_lastSelectedIndex = some 0
    · refine ⟨1, (mayDraw_exclusionWeights_iff _ _ _).2 ⟨by omega, ?_⟩⟩
      rw [h0]; simp
    · exact ⟨0, (mayDraw_exclusionWeights_iff _ _ _).2 ⟨by omega, fun h => h0 h.symm⟩⟩

/-- Witness for C22: range `[0, 9]`, indices 4, 7, 4, 0, 9, 8. -/
theorem NoRepetition.consecutive_draws_differ_witness :
    ∃ values : List Int,
      ((NoRepetition.create ⟨0, 9⟩).draws [4, 7, 4, 0, 9, 8]).1 = values.map Outcome.ok ∧
      values.length = [4, 7, 4, 0, 9, 8].length ∧
      List.Chain' (fun prev cur : Int => cur ≠ prev) values ∧
      (∀ v ∈ values, (Range.mk 0 9).start ≤ v ∧ v ≤ (Range.mk 0 9).end_) ∧
      ∃ next : Nat,
        ((NoRepetition.create ⟨0, 9⟩).draws [4, 7, 4, 0, 9, 8]).2.m_generator.mayDraw next = true :=
  NoRepetition.consecutive_draws_differ ⟨0, 9⟩ (by decide) [4, 7, 4, 0, 9, 8] (by decide)

/-! ## Lemmas: Walk -/

theorem walkWeights_length (n : Nat) (offset lo hi : Int) :
    (walkWeights n offset lo hi).length = n := by
  simp [walkWeights]

theorem mayDraw_walkWeights_iff (n : Nat) (offset lo hi : Int) (p : Nat) :
    (DiscreteGenerator.mk (walkWeights n offset lo hi)).mayDraw p = true ↔
      p < n ∧ lo ≤ (p : Int) + offset ∧ (p : Int) + offset ≤ hi := by
  rw [DiscreteGenerator.mayDraw_iff]
  simp only [walkWeights, List.length_map, List.length_range, List.getElem_map,
    List.getElem_range]
  constructor
  · rintro ⟨hlt, hne⟩
    refine ⟨hlt, ?_⟩
    by_contra hc
    rw [if_neg hc] at hne
    exact hne rfl
  · rintro ⟨hlt, hq⟩
    refine ⟨hlt, ?_⟩
    rw [if_pos hq]
    exact one_ne_zero

theorem DiscreteGenerator.mayDraw_of_distribution (g : DiscreteGenerator) (l : List Nat)
    (h : g.distribution = l) (p : Nat) : g.mayDraw p = (DiscreteGenerator.mk l).mayDraw p := by
  subst h; rfl

/-- One `getIntegerNumber` of a Walk with a drawable pick. -/
theorem Walk.walk_step_spec (s : Walk) (pick : Nat)
    (hdraw : s.m_generator.mayDraw pick = true) :
    s.getIntegerNumber pick =
      (.ok ((pick : Int) + s.m_range.start),
        { m_generator := ⟨walkWeights s.m_generator.distribution.length s.m_range.start
            (max s.m_range.start ((pick : Int) + s.m_range.start - s.m_maxStep))
            (min s.m_range.end_ ((pick : Int) + s.m_range.start + s.m_maxStep))⟩
          m_range := s.m_range
          m_maxStep := s.m_maxStep
          m_haveRequestedFirstNumber := true
          m_lastNumberSelected := (pick : Int) + s.m_range.start }) := by
  unfold Walk.getIntegerNumber
  rw [DiscreteGenerator.getNumber_of_mayDraw _ _ hdraw]
  rfl

/-- Admissible draws of a Walk whose vector is the one recomputed around the
value `last`: every draw returns, is within the max-step of the previous one
and within the main Range, and the vector left is the one recomputed around
the last value returned. -/
theorem Walk.draws_walk (picks : List Nat) :
    ∀ (s : Walk) (last : Int),
      s.m_generator.distribution = walkWeights s.m_generator.distribution.length s.m_range.start
        (max s.m_range.start (last - s.m_maxStep)) (min s.m_range.end_ (last + s.m_maxStep)) →
      s.admissible picks = true →
      (s.draws picks).1 = picks.map (fun (p : Nat) => Outcome.ok ((p : Int) + s.m_range.start)) ∧
      List.Chain (fun prev cur : Int => prev - s.m_maxStep ≤ cur ∧ cur ≤ prev + s.m_maxStep) last
        (picks.map (fun (p : Nat) => (p : Int) + s.m_range.start)) ∧
      (∀ p ∈ picks, p < s.m_generator.distribution.length ∧ s.m_range.start ≤ (p : Int) + s.m_range.start ∧
        (p : Int) + s.m_range.start ≤ s.m_range.end_) ∧
      ∃ v : Int, (v = last ∨ ∃ q ∈ picks, v = (q : Int) + s.m_range.start) ∧
        (s.draws picks).2.m_generator.distribution
          = walkWeights s.m_generator.distribution.length s.m_range.start
            (max s.m_range.start (v - s.m_maxStep)) (min s.m_range.end_ (v + s.m_maxStep)) ∧
        (s.draws picks).2.m_range = s.m_range ∧ (s.draws picks).2.m_maxStep = s.m_maxStep := by
  induction picks with
  | nil =>
    intro s last hdist _
    exact ⟨rfl, List.Chain.nil, by simp, last, Or.inl rfl, hdist, rfl, rfl⟩
  | cons p ps ih =>
    intro s last hdist hadm
    simp only [Walk.admissible, Bool.and_eq_true] at hadm
    have hstep := s.walk_step_spec p hadm.1
    have hp := hadm.1
    rw [show s.m_generator = ⟨s.m_generator.distribution⟩ from rfl, hdist,
      mayDraw_walkWeights_iff] at hp
    have hchain : last - s.m_maxStep ≤ (p : Int) + s.m_range.start ∧
        (p : Int) + s.m_range.start ≤ last + s.m_maxStep := by omega
    have hin : p < s.m_generator.distribution.length ∧
        s.m_range.start ≤ (p : Int) + s.m_range.start ∧
        (p : Int) + s.m_range.start ≤ s.m_range.end_ := by omega
    have hadm2 := hadm.2
    rw [hstep] at hadm2
    obtain ⟨g1, g2, g3, v, g4, g5, g6, g7⟩ := ih _ ((p : Int) + s.m_range.start)
      (by simp only [walkWeights_length]) hadm2
    simp only [walkWeights_length] at g1 g2 g3 g4 g5 g6 g7
    simp only [Walk.draws, hstep, List.map_cons]
    refine ⟨by rw [g1], List.Chain.cons hchain g2, ?_, v, ?_, g5, g6, g7⟩
    · intro q hq
      rcases List.mem_cons.1 hq with h | h
      · rw [h]; exact hin
      · exact g3 q h
    · right
      rcases g4 with h | ⟨q, hq, h⟩
      · exact ⟨p, List.mem_cons_self _ _, h⟩
      · exact ⟨q, List.mem_cons_of_mem _ hq, h⟩

/-! ## Claims: Walk -/

/-- C23: for a Walk with max-step `m >= 0` over a valid Range `[a, b]`, with
the generator returning only indices of non-zero weight: every draw returns,
any two consecutive draws satisfy `previous - m <= current <= previous + m`,
every draw lies in `[a, b]` (the sub-range is clipped, not wrapped), and a
further draw is always possible. -/
theorem Walk.consecutive_draws_within_max_step (range : Range) (maxStep : Int)
    (hvalid : 1 ≤ range.size) (hstep : 0 ≤ maxStep) (picks : List Nat)
    (hadm : (Walk.create range maxStep).admissible picks = true) :
    ∃ values : List Int,
      ((Walk.create range maxStep).draws picks).1 = values.map Outcome.ok ∧
      values.length = picks.length ∧
      List.Chain' (fun prev cur : Int => prev - maxStep ≤ cur ∧ cur ≤ prev + maxStep) values ∧
      (∀ v ∈ values, range.start ≤ v ∧ v ≤ range.end_) ∧
      ∃ next : Nat,
        ((Walk.create range maxStep).draws picks).2.m_generator.mayDraw next = true := by
  have hsz : range.size = range.end_ - range.start + 1 := rfl
  have hlen : (Walk.create range maxStep).m_generator.distribution.length = range.size.toNat := by
    simp [Walk.create, DiscreteGenerator.setDistributionVector]
  refine ⟨picks.map (fun (p : Nat) => (p : Int) + range.start), ?_⟩
  cases picks with
  | nil =>
    refine ⟨rfl, rfl, List.chain'_nil, by simp, 0, ?_⟩
    rw [DiscreteGenerator.mayDraw_iff]
    refine ⟨by rw [Walk.draws, hlen]; omega, ?_⟩
    simp [Walk.draws, Walk.create, DiscreteGenerator.setDistributionVector]
  | cons p ps =>
    simp only [Walk.admissible, Bool.and_eq_true] at hadm
    obtain ⟨hplt, -⟩ := (DiscreteGenerator.mayDraw_iff _ _).1 hadm.1
    rw [hlen] at hplt
    have hstep1 : (Walk.create range maxStep).getIntegerNumber p =
        (.ok ((p : Int) + range.start),
          { m_generator := ⟨walkWeights range.size.toNat range.start
              (max range.start ((p : Int) + range.start - maxStep))
              (min range.end_ ((p : Int) + range.start + maxStep))⟩
            m_range := range
            m_maxStep := maxStep
            m_haveRequestedFirstNumber := true
            m_lastNumberSelected := (p : Int) + range.start }) := by
      rw [(Walk.create range maxStep).walk_step_spec p hadm.1, hlen]
      rfl
    have hadm2 := hadm.2
    rw [hstep1] at hadm2
    have hpin : range.start ≤ (p : Int) + range.start ∧ (p : Int) + range.start ≤ range.end_ := by
      omega
    obtain ⟨g1, g2, g3, v, g4, g5, -, -⟩ := Walk.draws_walk ps _ ((p : Int) + range.start)
      (by simp only [walkWeights_length]) hadm2
    simp only [walkWeights_length] at g1 g2 g3 g4 g5
    simp only [Walk.draws, hstep1, List.map_cons, List.length_cons,
      List.length_map, List.mem_cons, true_and]
    refine ⟨by rw [g1, List.map_map]; rfl, g2, ?_, ?_⟩
    · intro w hw
      rcases hw with h | h
      · rw [h]; exact hpin
      · obtain ⟨q, hq, rfl⟩ := List.mem_map.1 h
        exact (g3 q hq).2
    · have hv : range.start ≤ v ∧ v ≤ range.end_ := by
        rcases g4 with h | ⟨q, hq, h⟩
        · rw [h]; exact hpin
        · rw [h]; exact (g3 q hq).2
      refine ⟨(v - range.start).toNat, ?_⟩
      rw [DiscreteGenerator.mayDraw_of_distribution _ _ g5, mayDraw_walkWeights_iff]
      omega

/-- Witness for C23: range `[0, 9]`, max-step 3, indices 5, 8, 9, 6, 3, 0. -/
theorem Walk.consecutive_draws_within_max_step_witness :
    ∃ values : List Int,
      ((Walk.create ⟨0, 9⟩ 3).draws [5, 8, 9, 6, 3, 0]).1 = values.map Outcome.ok ∧
      values.length = [5, 8, 9, 6, 3, 0].length ∧
      List.Chain' (fun prev cur : Int => prev - 3 ≤ cur ∧ cur ≤ prev + 3) values ∧
      (∀ v ∈ values, (Range.mk 0 9).start ≤ v ∧ v ≤ (Range.mk 0 9).end_) ∧
      ∃ next : Nat,
        ((Walk.create ⟨0, 9⟩ 3).draws [5, 8, 9, 6, 3, 0]).2.m_generator.mayDraw next = true :=
  Walk.consecutive_draws_within_max_step ⟨0, 9⟩ 3 (by decide) (by decide) [5, 8, 9, 6, 3, 0]
    (by decide)

/-! ## Lemmas: GranularWalk -/

theorem UniformRealGenerator.mayDraw_within_bounds (g : UniformRealGenerator) (x : ℚ) :
    g.mayDraw x = true ↔ g.min ≤ x ∧ x ≤ g.max := by
  simp [UniformRealGenerator.mayDraw]

/-- The state one `getDecimalNumber` leaves behind. -/
theorem GranularWalk.granular_step_spec (s : GranularWalk) (v : ℚ) :
    s.getDecimalNumber v =
      (.ok v,
        { m_generator := ⟨max (s.m_range.start : ℚ) (v - s.m_maxStep),
            min (s.m_range.end_ : ℚ) (v + s.m_maxStep)⟩
          m_range := s.m_range
          m_deviationFactor := s.m_deviationFactor
          m_maxStep := s.m_maxStep
          m_haveRequestedFirstNumber := true
          m_lastReturnedNumber := v }) := rfl

/-- C24: GranularWalk does not wrap.  After a draw `v` over the main Range
`[start, end]` with absolute max step `s`, the bounds for the next draw are
`[max(start, v - s), min(end, v + s)]`, so every next draw lies within `s` of
`v` and within the main Range; and when `v` is in the main Range and `s >= 0`
a next draw exists. -/
theorem GranularWalk.bounds_clipped_not_wrapped (s : GranularWalk) (v : ℚ)
    (hin : (s.m_range.start : ℚ) ≤ v ∧ v ≤ (s.m_range.end_ : ℚ)) (hstep : 0 ≤ s.m_maxStep) :
    (s.getDecimalNumber v).1 = Outcome.ok v ∧
      (s.getDecimalNumber v).2.m_generator
        = ⟨max (s.m_range.start : ℚ) (v - s.m_maxStep),
            min (s.m_range.end_ : ℚ) (v + s.m_maxStep)⟩ ∧
      (∃ next : ℚ, (s.getDecimalNumber v).2.m_generator.mayDraw next = true) ∧
      ∀ next : ℚ, (s.getDecimalNumber v).2.m_generator.mayDraw next = true →
        v - s.m_maxStep ≤ next ∧ next ≤ v + s.m_maxStep ∧
        (s.m_range.start : ℚ) ≤ next ∧ next ≤ (s.m_range.end_ : ℚ) := by
  rw [s.granular_step_spec v]
  refine ⟨rfl, rfl, ⟨v, ?_⟩, ?_⟩
  · rw [UniformRealGenerator.mayDraw_within_bounds]
    simp only [max_le_iff, le_min_iff]
    exact ⟨⟨hin.1, by linarith⟩, hin.2, by linarith⟩
  · intro next hnext
    rw [UniformRealGenerator.mayDraw_within_bounds] at hnext
    simp only [max_le_iff, le_min_iff] at hnext
    exact ⟨hnext.1.2, hnext.2.2, hnext.1.1, hnext.2.1⟩

/-- Witness for C24: the example of the class documentation: main range 1 to
10, maximum step 5, selected number 8: the sub-range is `[3, 10]`. -/
theorem GranularWalk.bounds_clipped_not_wrapped_witness :
    (((GranularWalk.mk ⟨1, 10⟩ ⟨1, 10⟩ (5 / 9) 5 false 0).getDecimalNumber 8).1 = Outcome.ok 8 ∧
      ((GranularWalk.mk ⟨1, 10⟩ ⟨1, 10⟩ (5 / 9) 5 false 0).getDecimalNumber 8).2.m_generator
        = ⟨max (((Range.mk 1 10).start : Int) : ℚ) (8 - 5),
            min (((Range.mk 1 10).end_ : Int) : ℚ) (8 + 5)⟩ ∧
      (∃ next : ℚ, ((GranularWalk.mk ⟨1, 10⟩ ⟨1, 10⟩ (5 / 9) 5 false 0).getDecimalNumber
        8).2.m_generator.mayDraw next = true) ∧
      ∀ next : ℚ, ((GranularWalk.mk ⟨1, 10⟩ ⟨1, 10⟩ (5 / 9) 5 false 0).getDecimalNumber
          8).2.m_generator.mayDraw next = true →
        8 - 5 ≤ next ∧ next ≤ 8 + 5 ∧
        (((Range.mk 1 10).start : Int) : ℚ) ≤ next ∧ next ≤ (((Range.mk 1 10).end_ : Int) : ℚ)) ∧
      ((GranularWalk.mk ⟨1, 10⟩ ⟨1, 10⟩ (5 / 9) 5 false 0).getDecimalNumber 8).2.m_generator
        = ⟨3, 10⟩ :=
  ⟨GranularWalk.bounds_clipped_not_wrapped (GranularWalk.mk ⟨1, 10⟩ ⟨1, 10⟩ (5 / 9) 5 false 0) 8
      (by norm_num) (by norm_num),
    by norm_num [GranularWalk.getDecimalNumber, GranularWalk.setForNextStep,
      UniformRealGenerator.setDistribution]⟩

theorem mayDraw_subsetWeights_iff (n : Nat) (subset : List Nat) (p : Nat) :
    (DiscreteGenerator.mk (subsetWeights n subset)).mayDraw p = true ↔ p < n ∧ p ∈ subset := by
  rw [DiscreteGenerator.mayDraw_iff]
  simp only [subsetWeights, List.length_map, List.length_range, List.getElem_map,
    List.getElem_range]
  constructor
  · rintro ⟨hlt, hne⟩
    refine ⟨hlt, ?_⟩
    by_contra hc
    rw [if_neg hc] at hne
    exact hne rfl
  · rintro ⟨hlt, hq⟩
    refine ⟨hlt, ?_⟩
    rw [if_pos hq]
    exact one_ne_zero

/-- A uniform integer draw over a span with `min ≤ max` lies in the span. -/
theorem UniformGenerator.getNumber_within_bounds (g : UniformGenerator) (raw : Nat)
    (h : g.min ≤ g.max) : g.min ≤ g.getNumber raw ∧ g.getNumber raw ≤ g.max := by
  unfold UniformGenerator.getNumber
  have hpos : 0 < (g.max - g.min + 1).toNat := by omega
  have hlt := Nat.mod_lt raw hpos
  omega

/-- A selection that succeeds hands back as many indices as were asked for,
each a position of the vector. -/
theorem Subset.selectIndices_spec (count : Nat) :
    ∀ (g : DiscreteGenerator) (picks chosen : List Nat),
      Subset.selectIndices g count picks = Outcome.ok chosen →
      chosen.length = count ∧ ∀ i ∈ chosen, i < g.distribution.length := by
  induction count with
  | zero =>
    intro g picks chosen h
    simp only [Subset.selectIndices, Outcome.ok.injEq] at h
    subst h
    exact ⟨rfl, by simp⟩
  | succ n ih =>
    intro g picks chosen h
    unfold Subset.selectIndices at h
    split at h
    · simp at h
    · rename_i index g1 hstep
      split at h
      · simp at h
      · rename_i rest hrest
        simp only [Outcome.ok.injEq] at h
        subst h
        obtain ⟨h1, h2⟩ := ih g1 picks.tail rest hrest
        have hlen : g1.distribution.length = g.distribution.length := by
          have := SeriesPrinciple.getNumber_length g (picks.headD 0)
          rw [hstep] at this
          exact this
        refine ⟨by simp [h1], ?_⟩
        intro i hi
        rcases List.mem_cons.1 hi with hi | hi
        · rw [hi]; exact SeriesPrinciple.getNumber_lt g g1 _ _ hstep
        · rw [← hlen]; exact h2 i hi

/-- Admissible draws of a Subset keep its state and return `pick + offset` for
picks of the active subset. -/
theorem Subset.draws_subset (picks : List Nat) :
    ∀ (s : Subset) (n : Nat), s.m_generator.distribution = subsetWeights n s.m_subset →
      s.admissible picks = true →
      (s.draws picks).1 = picks.map (fun (p : Nat) => Outcome.ok ((p : Int) + s.m_range.offset)) ∧
      (s.draws picks).2 = s ∧
      ∀ p ∈ picks, p < n ∧ p ∈ s.m_subset := by
  induction picks with
  | nil => intro s n _ _; exact ⟨rfl, rfl, by simp⟩
  | cons p ps ih =>
    intro s n hdist hadm
    simp only [Subset.admissible, Bool.and_eq_true] at hadm
    have hstep : s.getIntegerNumber p = (.ok ((p : Int) + s.m_range.offset), s) := by
      unfold Subset.getIntegerNumber
      rw [DiscreteGenerator.getNumber_of_mayDraw _ _ hadm.1]
    have hp := hadm.1
    rw [DiscreteGenerator.mayDraw_of_distribution _ _ hdist, mayDraw_subsetWeights_iff] at hp
    have hadm2 := hadm.2
    rw [hstep] at hadm2
    obtain ⟨g1, g2, g3⟩ := ih s n hdist hadm2
    simp only [Subset.draws, hstep, List.map_cons]
    refine ⟨by rw [g1], g2, ?_⟩
    intro q hq
    rcases List.mem_cons.1 hq with h | h
    · rw [h]; exact hp
    · exact g3 q h

/-! ## Claims: Subset -/

/-- C28: for a Subset with bounds `[subsetMin, subsetMax]`, `subsetMin ≤
subsetMax` and `0 ≤ subsetMax`, whose active subset has just been selected (at construction or by
`reset`), in any run of consecutive draws, with the generator returning only
indices of non-zero weight: every draw returns, the number of distinct values
drawn is at most `subsetMax`, and every drawn value lies in the Range. -/
theorem Subset.distinct_values_bounded (s0 s : Subset) (sizeRaw : Nat)
    (selection picks : List Nat)
    (hbounds : s0.m_subsetMin ≤ s0.m_subsetMax ∧ 0 ≤ s0.m_subsetMax)
    (hsel : s0.setSubset sizeRaw selection = (Outcome.ok (), s))
    (hadm : s.admissible picks = true) :
    ∃ values : List Int,
      (s.draws picks).1 = values.map Outcome.ok ∧
      values.length = picks.length ∧
      (values.dedup.length : Int) ≤ s0.m_subsetMax ∧
      ∀ v ∈ values, s0.m_range.start ≤ v ∧ v ≤ s0.m_range.end_ := by
  have hsz : s0.m_range.size = s0.m_range.end_ - s0.m_range.start + 1 := rfl
  have hsize := UniformGenerator.getNumber_within_bounds
    (s0.m_uniformGenerator.setDistribution s0.m_subsetMin s0.m_subsetMax) sizeRaw hbounds.1
  have hmax : ((s0.m_uniformGenerator.setDistribution s0.m_subsetMin s0.m_subsetMax).getNumber
      sizeRaw) ≤ s0.m_subsetMax := hsize.2
  unfold Subset.setSubset at hsel
  simp only at hsel
  split at hsel
  · simp at hsel
  · rename_i chosen hchosen
    simp only [Prod.mk.injEq, true_and] at hsel
    subst hsel
    obtain ⟨hlen, hlt⟩ := Subset.selectIndices_spec _ _ _ _ hchosen
    simp only [DiscreteGenerator.setDistributionVector, List.length_replicate] at hlt
    obtain ⟨g1, -, g3⟩ := Subset.draws_subset picks _ s0.m_range.size.toNat rfl hadm
    simp only at g1 g3
    refine ⟨picks.map (fun (p : Nat) => (p : Int) + s0.m_range.start), ?_, by simp, ?_, ?_⟩
    · rw [g1, List.map_map]; rfl
    · have hle : (picks.map (fun (p : Nat) => (p : Int) + s0.m_range.start)).dedup.length
          ≤ (chosen.map (fun (p : Nat) => (p : Int) + s0.m_range.start)).length := by
        apply List.Subperm.length_le
        apply List.subperm_of_subset (List.nodup_dedup _)
        intro v hv
        rw [List.mem_dedup, List.mem_map] at hv
        obtain ⟨p, hp, rfl⟩ := hv
        exact List.mem_map.2 ⟨p, (g3 p hp).2, rfl⟩
      rw [List.length_map, hlen] at hle
      omega
    · intro v hv
      obtain ⟨p, hp, rfl⟩ := List.mem_map.1 hv
      have := (g3 p hp).1
      omega

/-- Witness for C28: five values, bounds 2 to 4: the size drawn is 3, the
indices selected are 1, 3, 4, and ten draws follow. -/
theorem Subset.distinct_values_bounded_witness :
    (Subset.mk ⟨0, 0⟩ ⟨[]⟩ ⟨0, 4⟩ 2 4 []).setSubset 1 [1, 3, 4]
        = (Outcome.ok (), Subset.mk ⟨2, 4⟩ ⟨[0, 1, 0, 1, 1]⟩ ⟨0, 4⟩ 2 4 [1, 3, 4]) ∧
      ∃ values : List Int,
        ((Subset.mk ⟨2, 4⟩ ⟨[0, 1, 0, 1, 1]⟩ ⟨0, 4⟩ 2 4 [1, 3, 4]).draws
          [3, 3, 1, 4, 1, 1, 3, 4, 4, 1]).1 = values.map Outcome.ok ∧
        values.length = [3, 3, 1, 4, 1, 1, 3, 4, 4, 1].length ∧
        (values.dedup.length : Int) ≤ (Subset.mk ⟨0, 0⟩ ⟨[]⟩ ⟨0, 4⟩ 2 4 []).m_subsetMax ∧
        ∀ v ∈ values, (Subset.mk ⟨0, 0⟩ ⟨[]⟩ ⟨0, 4⟩ 2 4 []).m_range.start ≤ v ∧
          v ≤ (Subset.mk ⟨0, 0⟩ ⟨[]⟩ ⟨0, 4⟩ 2 4 []).m_range.end_ :=
  ⟨by decide,
    Subset.distinct_values_bounded (Subset.mk ⟨0, 0⟩ ⟨[]⟩ ⟨0, 4⟩ 2 4 [])
      (Subset.mk ⟨2, 4⟩ ⟨[0, 1, 0, 1, 1]⟩ ⟨0, 4⟩ 2 4 [1, 3, 4]) 1 [1, 3, 4]
      [3, 3, 1, 4, 1, 1, 3, 4, 4, 1] (by decide) (by decide) (by decide)⟩

/-! ## Lemmas: collections and sequential single calls -/

theorem CollectionsProducer.foldl_getItem {α : Type} (picks : List Nat) :
    ∀ (acc : List (Outcome α)) (m : CollectionsProducer α),
      picks.foldl
        (fun (acc : List (Outcome α) × CollectionsProducer α) (pick : Nat) =>
          ((acc.1 ++ [(acc.2.getItem pick).1]), (acc.2.getItem pick).2))
        (acc, m)
      = (acc ++ (m.getCollection picks).1, (m.getCollection picks).2) := by
  induction picks with
  | nil => intro acc m; simp [CollectionsProducer.getCollection]
  | cons p ps ih =>
    intro acc m
    simp only [List.foldl_cons, ih, CollectionsProducer.getCollection, List.append_assoc,
      List.singleton_append]

theorem DurationsProducer.foldl_getDuration (picks : List Nat) :
    ∀ (acc : List (Outcome Int)) (m : DurationsProducer),
      picks.foldl
        (fun (acc : List (Outcome Int) × DurationsProducer) (pick : Nat) =>
          ((acc.1 ++ [(acc.2.getDuration pick).1]), (acc.2.getDuration pick).2))
        (acc, m)
      = (acc ++ (m.getCollection picks).1, (m.getCollection picks).2) := by
  induction picks with
  | nil => intro acc m; simp [DurationsProducer.getCollection]
  | cons p ps ih =>
    intro acc m
    simp only [List.foldl_cons, ih, DurationsProducer.getCollection, List.append_assoc,
      List.singleton_append]

theorem CollectionsProducer.items_length {α : Type} (picks : List Nat) :
    ∀ m : CollectionsProducer α, (m.getCollection picks).1.length = picks.length := by
  induction picks with
  | nil => intro m; rfl
  | cons p ps ih => intro m; simp [CollectionsProducer.getCollection, ih]

theorem DurationsProducer.durations_length (picks : List Nat) :
    ∀ m : DurationsProducer, (m.getCollection picks).1.length = picks.length := by
  induction picks with
  | nil => intro m; rfl
  | cons p ps ih => intro m; simp [DurationsProducer.getCollection, ih]

/-- An item that `itemAt` returns is an element of the source. -/
theorem CollectionsProducer.itemAt_mem {α : Type} (source : List α) (offset : Int)
    (index : Outcome Int) (item : α)
    (h : CollectionsProducer.itemAt source offset index = Outcome.ok item) : item ∈ source := by
  unfold CollectionsProducer.itemAt at h
  split at h
  · simp at h
  · split at h
    · split at h
      · rename_i x hx
        simp only [Outcome.ok.injEq] at h
        subst h
        exact List.getElem?_mem hx
      · simp at h
    · simp at h

/-! ## Claims: getCollection -/

/-- C27: `getCollection(n)` of a Producer returns exactly `n` results and is
equal, result for result and in the producer (and so the protocol state) it
leaves behind, to `n` sequential calls of `getItem` (`getDuration` for a
DurationsProducer) from the same starting state; every item returned is an
element of the source collection, and every call returns an item when the
owned protocol's draws return numbers of its Range and the source has the size
of the Range. -/
theorem CollectionsProducer.getCollection_is_sequential_getItem {α : Type}
    (m : CollectionsProducer α) (d : DurationsProducer) (picks : List Nat) :
    m.getCollection picks = m.sequentialGetItem picks ∧
      (m.getCollection picks).1.length = picks.length ∧
      (∀ item : α, Outcome.ok item ∈ (m.getCollection picks).1 → item ∈ m.m_source) ∧
      ((∀ o ∈ (m.m_protocol.draws picks).1, ∃ i : Int, o = Outcome.ok i ∧
          m.m_protocol.getParams.range.offset ≤ i ∧
          i - m.m_protocol.getParams.range.offset < (m.m_source.length : Int)) →
        ∀ o ∈ (m.getCollection picks).1, ∃ item ∈ m.m_source, o = Outcome.ok item) ∧
      d.getCollection picks = d.sequentialGetDuration picks ∧
      (d.getCollection picks).1.length = picks.length := by
  refine ⟨?_, CollectionsProducer.items_length picks m, ?_, ?_, ?_,
    DurationsProducer.durations_length picks d⟩
  · unfold CollectionsProducer.sequentialGetItem
    rw [CollectionsProducer.foldl_getItem]
    simp
  · intro item hmem
    rw [CollectionsProducer.items_eq_map_draws, List.mem_map] at hmem
    obtain ⟨o, -, ho⟩ := hmem
    exact CollectionsProducer.itemAt_mem _ _ _ _ ho
  · intro hdraws o ho
    rw [CollectionsProducer.items_eq_map_draws, List.mem_map] at ho
    obtain ⟨x, hx, rfl⟩ := ho
    obtain ⟨i, rfl, h1, h2⟩ := hdraws x hx
    have hlt : (i - m.m_protocol.getParams.range.offset).toNat < m.m_source.length := by omega
    refine ⟨m.m_source[(i - m.m_protocol.getParams.range.offset).toNat], List.getElem_mem hlt, ?_⟩
    unfold CollectionsProducer.itemAt
    simp only []
    rw [if_pos (by omega), List.getElem?_eq_getElem hlt]
  · unfold DurationsProducer.sequentialGetDuration
    rw [DurationsProducer.foldl_getDuration]
    simp

/-! ## Claims: initial selection -/

end aleatoric
